import Mathlib

/-!
# Reverse-mode automatic differentiation over an expression DAG

A shallow embedding of `src/expression.cpp` (namespace `et`): the operator
evaluator `_eval`, the local gradient rule `_back_single`, the two gradient
distributors `_back`, leaf discovery, the two forward passes, the reachability
analysis `findNonConsts` and the two backward passes.

Modelling conventions.

* A `var` is a shared handle with identity equality.  Nodes live in an arena
  (`Graph`, a list of `Node`s) and a `var` is the index of its node.  A handle
  that is not an index of the arena denotes a childless, parentless node
  tagged `none` holding the empty matrix; `setValue` on it does nothing.
* `MatrixXd` is a dynamically sized matrix: its two dimensions and its
  coefficients, row by row.  Coefficients are rationals (exact arithmetic).
* A C++ `while` loop is a function with a fuel argument; running out of fuel
  is the separate outcome `timeout`, so that termination is a theorem.
* A C++ exception is the outcome `thrown`.
* Reading `operands[i]` past the end of the vector is undefined in the source;
  here it reads the empty matrix.
-/

namespace et

/-! ## Values -/

/-- Dense matrix of dynamic size: `rows`, `cols` and the coefficients in
row-major order.  The default-constructed matrix is `0 x 0`. -/
structure MatrixXd where
  rows : Nat
  cols : Nat
  data : List ℚ
deriving DecidableEq

namespace MatrixXd

/-- Default-constructed `MatrixXd()`: no rows, no columns. -/
def empty : MatrixXd := ⟨0, 0, []⟩

/-- Eigen `size()`: number of coefficients, `rows * cols`. -/
def size (m : MatrixXd) : Nat := m.rows * m.cols

/-- Coefficient access `m(i, j)`; zero outside the stored coefficients. -/
def coeff (m : MatrixXd) (i j : Nat) : ℚ := m.data.getD (i * m.cols + j) 0

/-- Coefficient-wise unary operation (`.array()` expression with a scalar). -/
def map (f : ℚ → ℚ) (m : MatrixXd) : MatrixXd := ⟨m.rows, m.cols, m.data.map f⟩

/-- Coefficient-wise binary operation of two array expressions; the result has
the dimensions of the left operand. -/
def zip (f : ℚ → ℚ → ℚ) (a b : MatrixXd) : MatrixXd :=
  ⟨a.rows, a.cols, List.zipWith f a.data b.data⟩

/-- Reduction `.sum()`. -/
def sum (m : MatrixXd) : ℚ := m.data.sum

/-- Matrix `transpose()`. -/
def transpose (m : MatrixXd) : MatrixXd :=
  ⟨m.cols, m.rows, (List.range (m.cols * m.rows)).map
    (fun k => m.coeff (k % m.rows) (k / m.rows))⟩

/-- Matrix product `a * b`. -/
def mul (a b : MatrixXd) : MatrixXd :=
  ⟨a.rows, b.cols, (List.range (a.rows * b.cols)).map
    (fun k => ((List.range a.cols).map
      (fun t => a.coeff (k / b.cols) t * b.coeff t (k % b.cols))).sum)⟩

/-- The matrix of the given dimensions with every coefficient equal to `x`. -/
def const (r c : Nat) (x : ℚ) : MatrixXd := ⟨r, c, List.replicate (r * c) x⟩

end MatrixXd

/-- Modelled from the spec: the primitives of the numeric library (the value
contract of section 6) that have no exact rational counterpart, namely the
exponential, the natural logarithm, the real power and the matrix inverse.
They are total functions supplied from outside. -/
structure Prims where
  exp : ℚ → ℚ
  log : ℚ → ℚ
  pow : ℚ → ℚ → ℚ
  inverse : MatrixXd → MatrixXd

/-- Modelled from the spec: `scalar(x)` of the value contract, the `1 x 1`
tensor holding `x` (its definition is in the header, not in the source file). -/
def scalar (x : ℚ) : MatrixXd := ⟨1, 1, [x]⟩

/-- Modelled from the spec: `zeros_like(v)` of the value contract, the
zero-filled tensor shaped like the value of `v` (defined in the header). -/
def zeros_like (v : MatrixXd) : MatrixXd := MatrixXd.const v.rows v.cols 0

/-- Modelled from the spec: `ones_like(v)` of the value contract, the
one-filled tensor shaped like the value of `v` (defined in the header). -/
def ones_like (v : MatrixXd) : MatrixXd := MatrixXd.const v.rows v.cols 1

/-! ## Nodes and graphs -/

/-- The operator tags `op_type` used by the two `switch` statements. -/
inductive op_type where
  | plus | minus | multiply | divide | exponent | log | polynomial
  | dot | inverse | transpose | sum | none
deriving DecidableEq

/-- Modelled from the spec: `numOpArgs`, the fixed operand arity of each
operator (section 3: 1 or 2 for a non-leaf operator); the leaf tag has no
operands.  The table itself is in the header. -/
def numOpArgs : op_type → Int
  | .plus | .minus | .multiply | .divide | .polynomial | .dot => 2
  | .exponent | .log | .inverse | .transpose | .sum => 1
  | .none => 0

/-- What a `var` handle points to: operator tag, cached value, ordered
children and the list of parents. -/
structure Node where
  op : op_type
  value : MatrixXd
  children : List Nat
  parents : List Nat
deriving DecidableEq

/-- The node denoted by a handle outside the arena. -/
def Node.null : Node := ⟨.none, MatrixXd.empty, [], []⟩

/-- The arena of nodes; a `var` is an index into it. -/
abbrev Graph := List Node

/-- Dereference a handle. -/
def Graph.node (g : Graph) (v : Nat) : Node := g.getD v Node.null

/-- `v.getOp()`. -/
def getOp (g : Graph) (v : Nat) : op_type := (g.node v).op
/-- `v.getValue()`. -/
def getValue (g : Graph) (v : Nat) : MatrixXd := (g.node v).value
/-- `v.getChildren()`. -/
def getChildren (g : Graph) (v : Nat) : List Nat := (g.node v).children
/-- `v.getParents()`. -/
def getParents (g : Graph) (v : Nat) : List Nat := (g.node v).parents

/-- `v.setValue(m)`: only the cached value of node `v` changes. -/
def setValue (g : Graph) (v : Nat) (m : MatrixXd) : Graph :=
  g.set v { g.node v with value := m }

/-- The exceptions of the source, both `std::invalid_argument`:
`none_op` is "Cannot have a non-leaf contain none-op." and
`inverse_derivative` is "The derivative of an inverse is too hard." -/
inductive Exn where
  | none_op
  | inverse_derivative
deriving DecidableEq

/-- Result of running a piece of the program: a returned value, a thrown
exception, or fuel exhausted before the loop finished. -/
inductive Outcome (α : Type) where
  | ok : α → Outcome α
  | thrown : Exn → Outcome α
  | timeout : Outcome α
deriving DecidableEq

/-! ## Operator evaluator and local gradient rule -/

/-- The value held by `operands[i]`. -/
def operand (g : Graph) (operands : List Nat) (i : Nat) : MatrixXd :=
  match operands.get? i with
  | some v => getValue g v
  | none => MatrixXd.empty

/-- `is_scalar(v)`, on the value held by `v`. -/
def is_scalar (v : MatrixXd) : Bool := v.size == 1
/-- `sval(v)`, on the value held by `v`: coefficient `(0,0)`. -/
def sval (v : MatrixXd) : ℚ := v.coeff 0 0
/-- `mval(v)`, on the value held by `v`. -/
def mval (v : MatrixXd) : MatrixXd := v

/-- `_eval(op, operands)`. -/
def _eval (P : Prims) (g : Graph) (op : op_type) (operands : List Nat) :
    Except Exn MatrixXd :=
  let o0 := operand g operands 0
  let o1 := operand g operands 1
  match op with
  | .plus =>
    if is_scalar o0 then .ok ((mval o1).map (fun x => sval o0 + x))
    else if is_scalar o1 then .ok ((mval o0).map (fun x => x + sval o1))
    else .ok (MatrixXd.zip (fun x y => x + y) (mval o0) (mval o1))
  | .minus =>
    if is_scalar o0 then .ok ((mval o1).map (fun x => sval o0 - x))
    else if is_scalar o1 then .ok ((mval o0).map (fun x => x - sval o1))
    else .ok (MatrixXd.zip (fun x y => x - y) (mval o0) (mval o1))
  | .multiply =>
    if is_scalar o0 then .ok ((mval o1).map (fun x => sval o0 * x))
    else if is_scalar o1 then .ok ((mval o0).map (fun x => x * sval o1))
    else .ok (MatrixXd.zip (fun x y => x * y) (mval o0) (mval o1))
  | .divide =>
    if is_scalar o0 then .ok ((mval o1).map (fun x => sval o0 / x))
    else if is_scalar o1 then .ok ((mval o0).map (fun x => x / sval o1))
    else .ok (MatrixXd.zip (fun x y => x / y) (mval o0) (mval o1))
  | .exponent => .ok ((mval o0).map P.exp)
  | .log => .ok ((mval o0).map P.log)
  | .polynomial => .ok ((mval o0).map (fun x => P.pow x (sval o1)))
  | .dot => .ok (MatrixXd.mul (mval o0) (mval o1))
  | .inverse => .ok (P.inverse (mval o0))
  | .transpose => .ok (mval o0).transpose
  | .sum => .ok (scalar (mval o0).sum)
  | .none => .error .none_op

/-- `_back_single(op, dx, operands, op_idx)`. -/
def _back_single (P : Prims) (g : Graph) (op : op_type) (dx : MatrixXd)
    (operands : List Nat) (op_idx : Nat) : Except Exn MatrixXd :=
  let o0 := operand g operands 0
  let o1 := operand g operands 1
  let self := operand g operands op_idx
  let other := operand g operands (1 - op_idx)
  match op with
  | .plus =>
    if !is_scalar self then .ok dx
    else .ok (scalar dx.sum)
  | .minus =>
    let res := if is_scalar self then scalar dx.sum else dx
    if op_idx = 0 then .ok res
    else .ok (res.map (fun x => -1 * x))
  | .multiply =>
    if is_scalar self then
      .ok (scalar (MatrixXd.zip (fun x y => x * y) dx (mval other)).sum)
    else if is_scalar other then .ok (dx.map (fun x => x * sval other))
    else .ok (MatrixXd.zip (fun x y => x * y) dx (mval other))
  | .divide =>
    if op_idx = 0 then
      if is_scalar o0 then
        .ok (scalar (MatrixXd.zip (fun x y => x * y) dx
          ((mval o1).map (fun y => 1 / y))).sum)
      else if is_scalar o1 then .ok (dx.map (fun x => x * (1 / sval o1)))
      else .ok (MatrixXd.zip (fun x y => x * y) dx ((mval o1).map (fun y => 1 / y)))
    else
      if is_scalar o1 then
        .ok (scalar (MatrixXd.zip (fun x y => x * y) dx
          ((mval o0).map (fun a => -a / (sval o1) ^ 2))).sum)
      else if is_scalar o0 then
        .ok (MatrixXd.zip (fun x y => x * y) dx
          ((mval o1).map (fun b => -(sval o0) / b ^ 2)))
      else
        .ok (MatrixXd.zip (fun x y => x * y) dx
          (MatrixXd.zip (fun a b => -a / b ^ 2) (mval o0) (mval o1)))
  | .exponent => .ok (MatrixXd.zip (fun x y => x * y) dx ((mval o0).map P.exp))
  | .log => .ok (MatrixXd.zip (fun x y => x * y) dx ((mval o0).map (fun y => 1 / y)))
  | .polynomial =>
    if op_idx = 0 then
      .ok ((MatrixXd.zip (fun x y => x * y) dx
        ((mval o0).map (fun b => P.pow b (sval o1 - 1)))).map (fun x => x * sval o1))
    else .ok (scalar 0)
  | .dot =>
    if op_idx = 0 then .ok (MatrixXd.mul dx (mval o1).transpose)
    else .ok (MatrixXd.mul (mval o0).transpose dx)
  | .inverse => .error .inverse_derivative
  | .transpose => .ok dx.transpose
  | .sum => .ok ((ones_like o0).map (fun x => sval dx * x))
  | .none => .error .none_op

/-- The loop of the restricted `_back`, from operand index `i` on:
`rest` is what is left of `operands`. -/
def _back_nonconsts_from (P : Prims) (g : Graph) (op : op_type) (operands : List Nat)
    (nonconsts : List Nat) (dx : MatrixXd) : Nat → List Nat → Except Exn (List MatrixXd)
  | _, [] => .ok []
  | i, v :: rest =>
    if v ∉ nonconsts then
      match _back_nonconsts_from P g op operands nonconsts dx (i + 1) rest with
      | .ok ds => .ok (zeros_like (getValue g v) :: ds)
      | .error e => .error e
    else
      match _back_single P g op dx operands i with
      | .error e => .error e
      | .ok d =>
        match _back_nonconsts_from P g op operands nonconsts dx (i + 1) rest with
        | .ok ds => .ok (d :: ds)
        | .error e => .error e

/-- The loop of the unrestricted `_back`, from operand index `i` on. -/
def _back_from (P : Prims) (g : Graph) (op : op_type) (operands : List Nat)
    (dx : MatrixXd) : Nat → List Nat → Except Exn (List MatrixXd)
  | _, [] => .ok []
  | i, _ :: rest =>
    match _back_single P g op dx operands i with
    | .error e => .error e
    | .ok d =>
      match _back_from P g op operands dx (i + 1) rest with
      | .ok ds => .ok (d :: ds)
      | .error e => .error e

/-- Restricted `_back(op, operands, nonconsts, dx)`. -/
def _back_nonconsts (P : Prims) (g : Graph) (op : op_type) (operands : List Nat)
    (nonconsts : List Nat) (dx : MatrixXd) : Except Exn (List MatrixXd) :=
  _back_nonconsts_from P g op operands nonconsts dx 0 operands

/-- Unrestricted `_back(op, operands, dx)`. -/
def _back (P : Prims) (g : Graph) (op : op_type) (operands : List Nat)
    (dx : MatrixXd) : Except Exn (List MatrixXd) :=
  _back_from P g op operands dx 0 operands

/-! ## The expression: leaf discovery and forward passes -/

/-- Insertion into an `unordered_set`, kept in first-insertion order. -/
def setInsert (s : List Nat) (v : Nat) : List Nat := if v ∈ s then s else s ++ [v]

/-- The `while(!q.empty())` loop of `findLeaves`: `q` is the queue and
`leaves` the set built so far. -/
def findLeavesLoop (g : Graph) : Nat → List Nat → List Nat → Option (List Nat)
  | _, [], leaves => some leaves
  | 0, _ :: _, _ => none
  | fuel + 1, v :: q, leaves =>
    if getChildren g v = [] then findLeavesLoop g fuel q (setInsert leaves v)
    else findLeavesLoop g fuel (q ++ getChildren g v) leaves

/-- `expression::findLeaves()`; the set is copied out in insertion order. -/
def expression.findLeaves (fuel : Nat) (g : Graph) (root : Nat) : Option (List Nat) :=
  findLeavesLoop g fuel [root] []

/-- The loop `for(var& _v : children) _rpropagate(_v);` of `_rpropagate`, with
the recursive call passed as `call`. -/
def forChildren (call : Graph → Nat → Outcome Graph) : List Nat → Graph → Outcome Graph
  | [], g => .ok g
  | c :: rest, g =>
    match call g c with
    | .ok h => forChildren call rest h
    | .thrown e => .thrown e
    | .timeout => .timeout

/-- `_rpropagate(v)`; the fuel bounds the recursion depth. -/
def _rpropagate (P : Prims) : Nat → Graph → Nat → Outcome Graph
  | 0, _, _ => .timeout
  | fuel + 1, g, v =>
    if getChildren g v = [] then .ok g
    else
      match forChildren (_rpropagate P fuel) (getChildren g v) g with
      | .ok h =>
        match _eval P h (getOp h v) (getChildren h v) with
        | .ok m => .ok (setValue h v m)
        | .error e => .thrown e
      | .thrown e => .thrown e
      | .timeout => .timeout

/-- `expression::propagate()`: the graph after the pass and the root value
returned. -/
def expression.propagate (P : Prims) (fuel : Nat) (g : Graph) (root : Nat) :
    Outcome (Graph × MatrixXd) :=
  match _rpropagate P fuel g root with
  | .ok h => .ok (h, getValue h root)
  | .thrown e => .thrown e
  | .timeout => .timeout

/-- State of the loop of `propagate(leaves)`: the graph, the queue and the
counters `explored` (an absent key reads 0). -/
structure FwdState where
  g : Graph
  q : List Nat
  explored : Nat → Int

/-- The `for(var& parent : parents)` loop of `propagate(leaves)`. -/
def propagateParents (P : Prims) : List Nat → FwdState → Outcome FwdState
  | [], s => .ok s
  | parent :: rest, s =>
    let explored := Function.update s.explored parent (s.explored parent + 1)
    if numOpArgs (getOp s.g parent) = explored parent then
      match _eval P s.g (getOp s.g parent) (getChildren s.g parent) with
      | .ok m => propagateParents P rest ⟨setValue s.g parent m, s.q ++ [parent], explored⟩
      | .error e => .thrown e
    else propagateParents P rest ⟨s.g, s.q, explored⟩

/-- The `while(!q.empty())` loop of `propagate(leaves)`. -/
def propagateLoop (P : Prims) : Nat → FwdState → Outcome FwdState
  | fuel, s =>
    match s.q with
    | [] => .ok s
    | v :: q =>
      match fuel with
      | 0 => .timeout
      | fuel + 1 =>
        match propagateParents P (getParents s.g v) ⟨s.g, q, s.explored⟩ with
        | .ok s1 => propagateLoop P fuel s1
        | .thrown e => .thrown e
        | .timeout => .timeout

/-- `expression::propagate(leaves)`: the graph after the pass and the root
value returned. -/
def expression.propagate_leaves (P : Prims) (fuel : Nat) (g : Graph) (root : Nat)
    (leaves : List Nat) : Outcome (Graph × MatrixXd) :=
  match propagateLoop P fuel ⟨g, leaves, fun _ => 0⟩ with
  | .ok s => .ok (s.g, getValue s.g root)
  | .thrown e => .thrown e
  | .timeout => .timeout

/-! ## Reachability analysis -/

/-- The `while(!q.empty())` loop of `findNonConsts`. -/
def findNonConstsLoop (g : Graph) : Nat → List Nat → List Nat → Option (List Nat)
  | _, [], nonconsts => some nonconsts
  | 0, _ :: _, _ => none
  | fuel + 1, v :: q, nonconsts =>
    if v ∈ nonconsts then findNonConstsLoop g fuel q nonconsts
    else findNonConstsLoop g fuel (q ++ getParents g v) (nonconsts ++ [v])

/-- `expression::findNonConsts(leaves)`. -/
def expression.findNonConsts (fuel : Nat) (g : Graph) (leaves : List Nat) :
    Option (List Nat) :=
  findNonConstsLoop g fuel leaves []

/-! ## Backpropagation -/

/-- State of the loop of `backpropagate`: the queue, the accumulator map
`derivatives` and the pending-parent counters `explored`. -/
structure BackState where
  q : List Nat
  derivatives : Nat → Option MatrixXd
  explored : Nat → Option Int

/-- Lookup `derivatives[v]`; a missing key reads the default-constructed
(empty) matrix. -/
def derivAt (d : Nat → Option MatrixXd) (v : Nat) : MatrixXd := (d v).getD MatrixXd.empty

/-- The pending-parent count of `child` as the loop body reads it:
`if(explored.find(child) == explored.end()) explored[child] = child.getParents().size();`
followed by a read of `explored[child]`. -/
def pending (g : Graph) (s : BackState) (child : Nat) : Int :=
  match s.explored child with
  | some k => k
  | none => ((getParents g child).length : Int)

/-- The `for(size_t i = 0; i < children.size(); i++)` loop of both variants of
`backpropagate`, over the children paired with their contributions. -/
def backChildren (g : Graph) : List (Nat × MatrixXd) → BackState → BackState
  | [], s => s
  | (child, cd) :: rest, s =>
    let e1 := pending g s child - 1
    let d0 := match s.derivatives child with
      | some m => m
      | none => zeros_like (getValue g child)
    let d1 := MatrixXd.zip (fun x y => x + y) d0 cd
    let q1 := if getOp g child ≠ .none ∧ e1 = 0 then s.q ++ [child] else s.q
    backChildren g rest
      ⟨q1, Function.update s.derivatives child (some d1),
        Function.update s.explored child (some e1)⟩

/-- The body of one iteration of the `while(!q.empty())` loop of
`backpropagate`, for the dequeued node `v`; `s` is the state after `q.pop()`.
With `restrict = none` it is the body of the unrestricted variant; with
`restrict = some nonconsts` the body of the restricted variant, which skips
(`continue`) a dequeued node outside `nonconsts` and calls the restricted
`_back`. -/
def backBody (P : Prims) (g : Graph) (restrict : Option (List Nat)) (v : Nat)
    (s : BackState) : Except Exn BackState :=
  match restrict with
  | some nonconsts =>
    if v ∉ nonconsts then .ok s
    else
      match _back_nonconsts P g (getOp g v) (getChildren g v) nonconsts
          (derivAt s.derivatives v) with
      | .error e => .error e
      | .ok child_derivs => .ok (backChildren g ((getChildren g v).zip child_derivs) s)
  | none =>
    match _back P g (getOp g v) (getChildren g v) (derivAt s.derivatives v) with
    | .error e => .error e
    | .ok child_derivs => .ok (backChildren g ((getChildren g v).zip child_derivs) s)

/-- The `while(!q.empty())` loop of both variants of `backpropagate`. -/
def backLoop (P : Prims) (g : Graph) (restrict : Option (List Nat)) :
    Nat → BackState → Outcome BackState
  | fuel, s =>
    match s.q with
    | [] => .ok s
    | v :: q =>
      match fuel with
      | 0 => .timeout
      | fuel + 1 =>
        match backBody P g restrict v ⟨q, s.derivatives, s.explored⟩ with
        | .ok s1 => backLoop P g restrict fuel s1
        | .error e => .thrown e

/-- The initial state of `backpropagate`: the root queued and seeded with ones. -/
def backInit (g : Graph) (root : Nat) : BackState :=
  ⟨[root], Function.update (fun _ => none) root (some (ones_like (getValue g root))),
    fun _ => none⟩

/-- The write-back loop `for(auto& iter : leaves) iter.second = derivatives[iter.first]`. -/
def writeBack (d : Nat → Option MatrixXd) (leaves : List (Nat × MatrixXd)) :
    List (Nat × MatrixXd) :=
  leaves.map (fun kv => (kv.1, derivAt d kv.1))

/-- Both variants of `backpropagate`: how the call ended, and the content of
the caller's in/out mapping `leaves` when it ended. -/
def backpropagateWith (P : Prims) (restrict : Option (List Nat)) (fuel : Nat)
    (g : Graph) (root : Nat) (leaves : List (Nat × MatrixXd)) :
    Outcome Unit × List (Nat × MatrixXd) :=
  match backLoop P g restrict fuel (backInit g root) with
  | .ok s => (.ok (), writeBack s.derivatives leaves)
  | .thrown e => (.thrown e, leaves)
  | .timeout => (.timeout, leaves)

/-- `expression::backpropagate(leaves)`. -/
def expression.backpropagate (P : Prims) (fuel : Nat) (g : Graph) (root : Nat)
    (leaves : List (Nat × MatrixXd)) : Outcome Unit × List (Nat × MatrixXd) :=
  backpropagateWith P none fuel g root leaves

/-- `expression::backpropagate(leaves, nonconsts)`. -/
def expression.backpropagate_nonconsts (P : Prims) (fuel : Nat) (g : Graph) (root : Nat)
    (leaves : List (Nat × MatrixXd)) (nonconsts : List Nat) :
    Outcome Unit × List (Nat × MatrixXd) :=
  backpropagateWith P (some nonconsts) fuel g root leaves

/-! ## Scenario graphs and graph predicates -/

/-- A numeric library whose transcendental primitives and inverse are
placeholders (identities).  It is used only to run scenarios whose graphs
contain no `exponent`, `log`, `polynomial` or `inverse` node, or whose result
does not depend on what these primitives return. -/
def Prims.placeholder : Prims := ⟨fun x => x, fun x => x, fun x _ => x, fun m => m⟩

/-- The graph of the multi-path scenario: scalar leaves `X`, `c1`, `c2`
(handles 0, 1, 2), `P = X * c1` (3), `Q = X * c2` (4), `root = P + Q` (5).
`vP`, `vQ`, `vR` are the values cached in the interior nodes before the
forward pass. -/
def multiPathGraph (x c1 c2 : ℚ) (vP vQ vR : MatrixXd) : Graph :=
  [ ⟨.none, scalar x, [], [3, 4]⟩,
    ⟨.none, scalar c1, [], [3]⟩,
    ⟨.none, scalar c2, [], [4]⟩,
    ⟨.multiply, vP, [0, 1], [5]⟩,
    ⟨.multiply, vQ, [0, 2], [5]⟩,
    ⟨.plus, vR, [3, 4], []⟩ ]

/-- Node `b` is under node `a`: it is reached from `a` by following child
links zero or more times. -/
def Under (g : Graph) (a b : Nat) : Prop :=
  Relation.ReflTransGen (fun p c => c ∈ getChildren g p) a b

/-- Scenario E: the leaf `A` (handle 0) and `root = inverse(A)` (handle 1);
`vR` is the value cached in the root before the forward pass. -/
def inverseGraph (A vR : MatrixXd) : Graph :=
  [ ⟨.none, A, [], [1]⟩, ⟨.inverse, vR, [0], []⟩ ]

/-- A graph with a leaf-tagged node that has a child, strictly below the
root: leaf `a = 3` (0), `M` tagged `none` with the child `a` (1), leaf
`b = 4` (2), `root = M + b` (3). -/
def taggedInteriorGraph : Graph :=
  [ ⟨.none, scalar 3, [], [1]⟩,
    ⟨.none, scalar 3, [0], [3]⟩,
    ⟨.none, scalar 4, [], [3]⟩,
    ⟨.plus, scalar 7, [1, 2], []⟩ ]

/-- The graph made of one scalar leaf, which is its own root. -/
def singleLeafGraph : Graph := [ ⟨.none, scalar 3, [], []⟩ ]

/-- Termination measure of the backward loop: the length of the queue plus
the number of nodes whose pending-parent count is still positive. -/
def backMeasure (g : Graph) (s : BackState) : Nat :=
  s.q.length + (List.range g.length).countP (fun c => decide (0 < pending g s c))

/-- Node `b` is reached from node `a` by following parent links zero or more
times. -/
def ParentReach (g : Graph) (a b : Nat) : Prop :=
  Relation.ReflTransGen (fun c p => p ∈ getParents g c) a b

/-- Termination measure of `findNonConsts`: the number of parent entries of
the nodes not yet in the set. -/
def unvisitedParents (g : Graph) (nonconsts : List Nat) : Nat :=
  ((List.range g.length).map
    (fun i => if i ∈ nonconsts then 0 else (getParents g i).length)).sum

/-- The number of parent entries of the whole arena. -/
def parentEntries (g : Graph) : Nat := unvisitedParents g []

/-- Graph `h` has the nodes of `g` with the same tags and links; only cached
values may differ. -/
def SameLinks (g h : Graph) : Prop :=
  h.length = g.length ∧
    ∀ v, getOp h v = getOp g v ∧ getChildren h v = getChildren g v ∧
      getParents h v = getParents g v

/-- The child links of `g` are acyclic: `rank` decreases strictly along every
child link. -/
def Acyclic (g : Graph) (rank : Nat → Nat) : Prop :=
  ∀ v < g.length, ∀ c ∈ getChildren g v, rank c < rank v

/-- Some node under `root` has a child and carries the leaf tag `none`. -/
def TaggedInterior (g : Graph) (root : Nat) : Prop :=
  ∃ v, Under g root v ∧ getChildren g v ≠ [] ∧ getOp g v = .none

/-- The part of the graph under `v` is evaluated: the value cached in every
node under `v` that has children is what `_eval` returns on its children. -/
def Settled (P : Prims) (g : Graph) (v : Nat) : Prop :=
  ∀ w, Under g v w → getChildren g w ≠ [] →
    _eval P g (getOp g w) (getChildren g w) = .ok (getValue g w)

/-- The links of the arena are consistent: every child and parent entry is a
handle of the arena, and a node has one parent entry per operand slot that
consumes it (`p` occurs in the parents of `c` as often as `c` occurs in the
children of `p`). -/
def WellLinked (g : Graph) : Prop :=
  (∀ v < g.length, ∀ c ∈ getChildren g v, c < g.length) ∧
  (∀ v < g.length, ∀ p ∈ getParents g v, p < g.length) ∧
  (∀ p < g.length, ∀ c < g.length, (getParents g c).count p = (getChildren g p).count c)

/-- Every node under `root` that has children has as many children as its
operator has operands. -/
def ArityOK (g : Graph) (root : Nat) : Prop :=
  ∀ v, Under g root v → getChildren g v ≠ [] →
    numOpArgs (getOp g v) = ((getChildren g v).length : Int)

/-- Termination measure of the loop of `propagate(leaves)`: the length of the
queue plus the number of nodes whose counter is still below their arity. -/
def fwdMeasure (s : FwdState) : Nat :=
  s.q.length +
    (List.range s.g.length).countP (fun p => decide (s.explored p < numOpArgs (getOp s.g p)))

/-- Invariant of the loop of `propagate(leaves)` started on `g0` with the
queue `S`, relative to a graph `h1` that holds the final values.  `done` lists
the nodes dequeued so far (the one being processed included) and `rest` the
parent entries of the current node that are still to be visited. -/
structure FwdInv (g0 h1 : Graph) (root : Nat) (S : List Nat) (s : FwdState)
    (done rest : List Nat) : Prop where
  links : SameLinks g0 s.g
  vals : ∀ w, w ∈ s.q ∨ w ∈ done → Under g0 root w → getValue s.g w = getValue h1 w
  count : ∀ p, s.explored p + (rest.count p : Int)
    = (((getChildren g0 p).countP (fun c => decide (c ∈ done)) : Nat) : Int)
  nodup : (s.q ++ done).Nodup
  ready : ∀ p, 1 ≤ numOpArgs (getOp g0 p) → numOpArgs (getOp g0 p) ≤ s.explored p →
    p ∈ s.q ∨ p ∈ done
  seeds : ∀ l ∈ S, l ∈ s.q ∨ l ∈ done
  origin : ∀ p, p ∈ s.q ∨ p ∈ done → p ∈ S ∨ numOpArgs (getOp g0 p) ≤ s.explored p
  consumers : ∀ p ∈ rest, getChildren g0 p ≠ []

/-- The number of nodes `findLeaves` dequeues for the part of the graph under
`v`, counting a node once per path that leads to it; `d` bounds the depth. -/
def walkCost (g : Graph) : Nat → Nat → Nat
  | 0, _ => 1
  | d + 1, v => 1 + ((getChildren g v).map (walkCost g d)).sum

/-- Scenario A after the value of `a` was changed from 3 to 5: `a = 5` (0),
`b = 4` (1), and `root = a + b` (2) still caching the value 7 of the previous
evaluation. -/
def staleSumGraph : Graph :=
  [ ⟨.none, scalar 5, [], [2]⟩,
    ⟨.none, scalar 4, [], [2]⟩,
    ⟨.plus, scalar 7, [0, 1], []⟩ ]

/-- Scenario A, fully evaluated: `a = 3` (0), `b = 4` (1), `root = a + b` (2)
caching 7. -/
def sumGraph : Graph :=
  [ ⟨.none, scalar 3, [], [2]⟩,
    ⟨.none, scalar 4, [], [2]⟩,
    ⟨.plus, scalar 7, [0, 1], []⟩ ]

/-- The polynomial in the leaf values (leaf `v` is the variable `X v`) that a
node of a graph of `plus`, `minus` and `multiply` nodes denotes. -/
inductive NodePoly (g : Graph) : Nat → MvPolynomial Nat ℚ → Prop where
  | leaf (v : Nat) : getChildren g v = [] → NodePoly g v (MvPolynomial.X v)
  | plus (v a b : Nat) (p q : MvPolynomial Nat ℚ) : getOp g v = .plus →
      getChildren g v = [a, b] → NodePoly g a p → NodePoly g b q → NodePoly g v (p + q)
  | minus (v a b : Nat) (p q : MvPolynomial Nat ℚ) : getOp g v = .minus →
      getChildren g v = [a, b] → NodePoly g a p → NodePoly g b q → NodePoly g v (p - q)
  | multiply (v a b : Nat) (p q : MvPolynomial Nat ℚ) : getOp g v = .multiply →
      getChildren g v = [a, b] → NodePoly g a p → NodePoly g b q → NodePoly g v (p * q)

/-- The scalar held by node `v`: coefficient `(0,0)` of its cached value. -/
def leafVal (g : Graph) (v : Nat) : ℚ := sval (getValue g v)

/-- A finite acyclic graph of binary `plus`, `minus` and `multiply` nodes under
`root`, with consistent links, in which every parent of a node under the root
is itself under the root, and whose root is a node of the arena. -/
structure ScalarDag (g : Graph) (root : Nat) (rank : Nat → Nat) : Prop where
  acyclic : Acyclic g rank
  linked : WellLinked g
  closed : ∀ v, Under g root v → ∀ p ∈ getParents g v, Under g root p
  binary : ∀ v, Under g root v → getChildren g v ≠ [] →
    (getOp g v = .plus ∨ getOp g v = .minus ∨ getOp g v = .multiply) ∧
      (getChildren g v).length = 2
  root_lt : root < g.length

/-- The rules that determine the derivative `dv v` of the value of every node
`v` under the root with respect to the leaf `l`: 1 or 0 at a leaf, and the sum,
difference and product rules at the interior nodes (`val` gives the values of
the nodes). -/
structure DerivRules (g : Graph) (root : Nat) (val : Nat → ℚ) (l : Nat) (dv : Nat → ℚ) :
    Prop where
  leaf : ∀ v, Under g root v → getChildren g v = [] → dv v = if v = l then 1 else 0
  plus : ∀ v a b, Under g root v → getOp g v = .plus → getChildren g v = [a, b] →
    dv v = dv a + dv b
  minus : ∀ v a b, Under g root v → getOp g v = .minus → getChildren g v = [a, b] →
    dv v = dv a - dv b
  multiply : ∀ v a b, Under g root v → getOp g v = .multiply → getChildren g v = [a, b] →
    dv v = dv a * val b + val a * dv b

/-- Scheduling invariant of the unrestricted backward loop on a scalar graph.
`done` lists the nodes dequeued so far (the one being processed included) and
`rest` the children of the current node still to be visited. -/
structure BackInv (g : Graph) (root : Nat) (s : BackState) (done rest : List Nat) : Prop where
  nodup : (s.q ++ done).Nodup
  under : ∀ v, v ∈ s.q ∨ v ∈ done → Under g root v
  restUnder : ∀ c ∈ rest, Under g root c
  restNoRoot : root ∉ rest
  count : ∀ c, pending g s c
      + (((getParents g c).countP (fun p => decide (p ∈ done)) : Nat) : Int)
    = ((getParents g c).length : Int) + (rest.count c : Int)
  ready : ∀ c, getOp g c ≠ .none → s.explored c = some 0 → c ∈ s.q ∨ c ∈ done
  origin : ∀ c, c ∈ s.q ∨ c ∈ done → c = root ∨ s.explored c = some 0
  rootIn : root ∈ s.q ∨ root ∈ done
  touched : ∀ c, s.explored c ≠ none → Under g root c
  entry : ∀ c, (c = root ∨ s.explored c ≠ none) → ∃ x, s.derivatives c = some (scalar x)
  noEntry : ∀ c, c ≠ root → s.explored c = none → s.derivatives c = none

/-- The quantity the backward loop keeps constant: the sum, over the nodes
that are childless or not yet processed, of the accumulated gradient of the
node times the derivative `dv` of the node. -/
def gradientSum (g : Graph) (s : BackState) (done : List Nat) (dv : Nat → ℚ) : ℚ :=
  Finset.sum (Finset.range g.length) (fun v =>
    if v ∈ done ∧ getChildren g v ≠ [] then 0
    else sval (derivAt s.derivatives v) * dv v)

/-- The stored coefficients fill the matrix: there are `rows * cols` of them. -/
def MatrixXd.WF (m : MatrixXd) : Prop := m.data.length = m.rows * m.cols

/-- Two matrices have the same shape: the same numbers of rows and columns. -/
def SameShape (a b : MatrixXd) : Prop := a.rows = b.rows ∧ a.cols = b.cols

/-- Scenario B: the scalar leaf `a` (handle 0), the leaf matrix `B` (1) and
`root = a * B` (2); `vR` is the value cached in the root beforehand. -/
def scalarTimesGraph (a : ℚ) (B vR : MatrixXd) : Graph :=
  [ ⟨.none, scalar a, [], [2]⟩, ⟨.none, B, [], [2]⟩, ⟨.multiply, vR, [0, 1], []⟩ ]

/-- Scenario C: the leaves `a` (handle 0) and `b` (1) and `root = a / b` (2). -/
def divideGraph (a b vR : MatrixXd) : Graph :=
  [ ⟨.none, a, [], [2]⟩, ⟨.none, b, [], [2]⟩, ⟨.divide, vR, [0, 1], []⟩ ]

/-- Scenario D: the leaf `A` (handle 0) and `root = sum(A)` (1). -/
def sumReduceGraph (A vR : MatrixXd) : Graph :=
  [ ⟨.none, A, [], [1]⟩, ⟨.sum, vR, [0], []⟩ ]

/-- Modelled from the spec: the shape relation between the two operand values
that an operator expects (value contract): scalar/tensor, tensor/scalar or
equal shapes for the elementwise operators, a `1 x 1` exponent for the power,
conformable factors for the matrix product; nothing for the unary operators. -/
def ValidShapes (op : op_type) (o0 o1 : MatrixXd) : Prop :=
  match op with
  | .plus | .minus | .multiply | .divide =>
    is_scalar o0 = true ∨ is_scalar o1 = true ∨ SameShape o0 o1
  | .polynomial => is_scalar o1 = true
  | .dot => o0.cols = o1.rows
  | _ => True

/-- The states of the unrestricted and of the restricted backward loop agree
on the set `nc`: the members of `nc` wait in the two queues in the same order,
and the two accumulators and the two counter maps have the same entries for
the members of `nc`. -/
def AgreeOn (nc : List Nat) (sU sR : BackState) : Prop :=
  sU.q.filter (fun v => decide (v ∈ nc)) = sR.q.filter (fun v => decide (v ∈ nc)) ∧
  (∀ v ∈ nc, sU.derivatives v = sR.derivatives v) ∧
  (∀ v ∈ nc, sU.explored v = sR.explored v)

/-- The contributions computed by the two variants of `_back` for the same
children: equal for the children that are in `nc`. -/
def AgreeContribs (nc : List Nat) (lU lR : List (Nat × MatrixXd)) : Prop :=
  List.Forall₂ (fun a b => a.1 = b.1 ∧ (a.1 ∈ nc → a.2 = b.2)) lU lR

/-- The `while(!q.empty())` loop of both variants of `backpropagate` together
with a record of its dequeues: the second component lists, in the order of the
run, the nodes taken by `q.front(); q.pop()`, the one whose processing threw
included.  The record is not part of the program; the first component is
`backLoop`. -/
def backLoopTraced (P : Prims) (g : Graph) (restrict : Option (List Nat)) :
    Nat → BackState → List Nat → Outcome BackState × List Nat
  | fuel, s, tr =>
    match s.q with
    | [] => (.ok s, tr)
    | v :: q =>
      match fuel with
      | 0 => (.timeout, tr)
      | fuel + 1 =>
        match backBody P g restrict v ⟨q, s.derivatives, s.explored⟩ with
        | .ok s1 => backLoopTraced P g restrict fuel s1 (tr ++ [v])
        | .error e => (.thrown e, tr ++ [v])

/-- Scheduling invariant of the unrestricted backward loop.  `done` lists the
nodes dequeued so far, the latest first (the one being processed included),
and `rest` the children of the current node still to be visited. -/
structure SchedInv (g : Graph) (root : Nat) (s : BackState) (done rest : List Nat) :
    Prop where
  nodup : (s.q ++ done).Nodup
  under : ∀ v, v ∈ s.q ∨ v ∈ done → Under g root v
  restUnder : ∀ c ∈ rest, Under g root c
  restNoRoot : root ∉ rest
  count : ∀ c, pending g s c
      + (((getParents g c).countP (fun p => decide (p ∈ done)) : Nat) : Int)
    = ((getParents g c).length : Int) + (rest.count c : Int)
  ready : ∀ c, getOp g c ≠ .none → s.explored c = some 0 → c ∈ s.q ∨ c ∈ done
  origin : ∀ c, c ∈ s.q ∨ c ∈ done → c = root ∨ s.explored c = some 0
  rootIn : root ∈ s.q ∨ root ∈ done
  order : ∀ pre v post, done = pre ++ v :: post → ∀ p ∈ getParents g v, p ∈ post

/-- A chain with an inverse in the middle: the leaf `A` (handle 0),
`E = exp(A)` (1) and `root = inverse(E)` (2). -/
def inverseChainGraph : Graph :=
  [ ⟨.none, ⟨2, 2, [1, 0, 0, 1]⟩, [], [1]⟩,
    ⟨.exponent, ⟨2, 2, [1, 0, 0, 1]⟩, [0], [2]⟩,
    ⟨.inverse, ⟨2, 2, [1, 0, 0, 1]⟩, [1], []⟩ ]

/-- The `for(var& parent : parents)` loop of `propagate(leaves)` together with
a record of the calls of the operator evaluator: for each call
`_eval(parent.getOp(), parent.getChildren())`, in the order of the run, the
node `parent` and the values its children hold at that moment.  The record is
not part of the program; the first component is `propagateParents`. -/
def propagateParentsTraced (P : Prims) :
    List Nat → FwdState → List (Nat × List MatrixXd) →
      Outcome FwdState × List (Nat × List MatrixXd)
  | [], s, ev => (.ok s, ev)
  | parent :: rest, s, ev =>
    let explored := Function.update s.explored parent (s.explored parent + 1)
    if numOpArgs (getOp s.g parent) = explored parent then
      let call := (parent, (getChildren s.g parent).map (getValue s.g))
      match _eval P s.g (getOp s.g parent) (getChildren s.g parent) with
      | .ok m =>
        propagateParentsTraced P rest ⟨setValue s.g parent m, s.q ++ [parent], explored⟩
          (ev ++ [call])
      | .error e => (.thrown e, ev ++ [call])
    else propagateParentsTraced P rest ⟨s.g, s.q, explored⟩ ev

/-- The `while(!q.empty())` loop of `propagate(leaves)` with the record of the
calls of the operator evaluator; the first component is `propagateLoop`. -/
def propagateLoopTraced (P : Prims) :
    Nat → FwdState → List (Nat × List MatrixXd) →
      Outcome FwdState × List (Nat × List MatrixXd)
  | fuel, s, ev =>
    match s.q with
    | [] => (.ok s, ev)
    | v :: q =>
      match fuel with
      | 0 => (.timeout, ev)
      | fuel + 1 =>
        match propagateParentsTraced P (getParents s.g v) ⟨s.g, q, s.explored⟩ ev with
        | (.ok s1, ev1) => propagateLoopTraced P fuel s1 ev1
        | (.thrown e, ev1) => (.thrown e, ev1)
        | (.timeout, ev1) => (.timeout, ev1)

/-- Scheduling invariant of the loop of `propagate(leaves)` started on `g0`
with the queue `S`.  `done` lists the nodes dequeued so far, the latest first
(the one being processed included), `rest` the parent entries of the current
node that are still to be visited, and `ev` the calls of the evaluator so
far. -/
structure FwdSched (g0 : Graph) (S : List Nat) (s : FwdState) (done rest : List Nat)
    (ev : List (Nat × List MatrixXd)) : Prop where
  links : SameLinks g0 s.g
  count : ∀ p, s.explored p + (rest.count p : Int)
    = (((getChildren g0 p).countP (fun c => decide (c ∈ done)) : Nat) : Int)
  nodup : (s.q ++ done).Nodup
  ready : ∀ p, 1 ≤ numOpArgs (getOp g0 p) → numOpArgs (getOp g0 p) ≤ s.explored p →
    p ∈ s.q ∨ p ∈ done
  seeds : ∀ l ∈ S, l ∈ s.q ∨ l ∈ done
  origin : ∀ p, p ∈ s.q ∨ p ∈ done → p ∈ S ∨ numOpArgs (getOp g0 p) ≤ s.explored p
  consumers : ∀ p ∈ rest, getChildren g0 p ≠ []
  queued : S ++ ev.map Prod.fst = done.reverse ++ s.q
  interior : ∀ e ∈ ev, getChildren g0 e.1 ≠ []
  kids : ∀ e ∈ ev, ∀ c ∈ getChildren g0 e.1, c ∈ done
  order : ∀ pre e post, ev = pre ++ e :: post →
    ∀ c ∈ getChildren g0 e.1, c ∈ S ∨ c ∈ pre.map Prod.fst
  snap : ∀ e ∈ ev, e.2 = (getChildren g0 e.1).map (getValue s.g)

/-! # Properties -/

/-! ## Basic facts about the arena -/

theorem node_of_length_le (g : Graph) (v : Nat) (h : g.length ≤ v) : g.node v = Node.null := by
  simp [Graph.node, List.getElem?_eq_none h]

theorem getParents_of_length_le (g : Graph) (v : Nat) (h : g.length ≤ v) :
    getParents g v = [] := by
  simp [getParents, node_of_length_le g v h, Node.null]

theorem lt_length_of_op_ne_none (g : Graph) (v : Nat) (h : getOp g v ≠ .none) :
    v < g.length := by
  by_contra hlt
  exact h (by simp [getOp, node_of_length_le g v (Nat.le_of_not_lt hlt), Node.null])

theorem zip_add_zeros_like (m : MatrixXd) :
    MatrixXd.zip (fun x y => x + y) (zeros_like m) (zeros_like m) = zeros_like m := by
  simp [MatrixXd.zip, zeros_like, MatrixXd.const, List.zipWith_replicate]

/-! ## The backward loop: equations and invariants -/

theorem backLoop_nil (P : Prims) (g : Graph) (r : Option (List Nat)) (fuel : Nat)
    (s : BackState) (h : s.q = []) : backLoop P g r fuel s = .ok s := by
  cases fuel <;> (unfold backLoop; simp [h])

theorem backLoop_cons_zero (P : Prims) (g : Graph) (r : Option (List Nat))
    (s : BackState) (v : Nat) (q : List Nat) (h : s.q = v :: q) :
    backLoop P g r 0 s = .timeout := by
  unfold backLoop; simp [h]

theorem backLoop_cons_succ (P : Prims) (g : Graph) (r : Option (List Nat)) (fuel : Nat)
    (s : BackState) (v : Nat) (q : List Nat) (h : s.q = v :: q) :
    backLoop P g r (fuel + 1) s =
      match backBody P g r v ⟨q, s.derivatives, s.explored⟩ with
      | .ok s1 => backLoop P g r fuel s1
      | .error e => .thrown e := by
  rw [backLoop]; simp [h]

/-- An invariant of the loop body holds in the final state of a run that
returns. -/
theorem backLoop_inv (P : Prims) (g : Graph) (r : Option (List Nat)) (Inv : BackState → Prop)
    (hbody : ∀ s v q s1, Inv s → s.q = v :: q →
      backBody P g r v ⟨q, s.derivatives, s.explored⟩ = .ok s1 → Inv s1) :
    ∀ fuel s s', Inv s → backLoop P g r fuel s = .ok s' → Inv s' := by
  intro fuel
  induction fuel with
  | zero =>
    intro s s' hs hrun
    cases hq : s.q with
    | nil => rw [backLoop_nil P g r 0 s hq] at hrun; cases hrun; exact hs
    | cons v q => rw [backLoop_cons_zero P g r s v q hq] at hrun; cases hrun
  | succ fuel ih =>
    intro s s' hs hrun
    cases hq : s.q with
    | nil => rw [backLoop_nil P g r _ s hq] at hrun; cases hrun; exact hs
    | cons v q =>
      rw [backLoop_cons_succ P g r fuel s v q hq] at hrun
      cases hb : backBody P g r v ⟨q, s.derivatives, s.explored⟩ with
      | error e => rw [hb] at hrun; cases hrun
      | ok s1 =>
        rw [hb] at hrun
        exact ih s1 s' (hbody s v q s1 hs hq hb) hrun

/-- What is thrown by a run was thrown by the body at a state satisfying the
invariant. -/
theorem backLoop_thrown (P : Prims) (g : Graph) (r : Option (List Nat))
    (Inv : BackState → Prop)
    (hbody : ∀ s v q s1, Inv s → s.q = v :: q →
      backBody P g r v ⟨q, s.derivatives, s.explored⟩ = .ok s1 → Inv s1) :
    ∀ fuel s e, Inv s → backLoop P g r fuel s = .thrown e →
      ∃ s0 v q, Inv s0 ∧ s0.q = v :: q ∧
        backBody P g r v ⟨q, s0.derivatives, s0.explored⟩ = .error e := by
  intro fuel
  induction fuel with
  | zero =>
    intro s e hs hrun
    cases hq : s.q with
    | nil => rw [backLoop_nil P g r 0 s hq] at hrun; cases hrun
    | cons v q => rw [backLoop_cons_zero P g r s v q hq] at hrun; cases hrun
  | succ fuel ih =>
    intro s e hs hrun
    cases hq : s.q with
    | nil => rw [backLoop_nil P g r _ s hq] at hrun; cases hrun
    | cons v q =>
      rw [backLoop_cons_succ P g r fuel s v q hq] at hrun
      cases hb : backBody P g r v ⟨q, s.derivatives, s.explored⟩ with
      | error e1 =>
        rw [hb] at hrun
        cases hrun
        exact ⟨s, v, q, hs, hq, hb⟩
      | ok s1 =>
        rw [hb] at hrun
        exact ih s1 e (hbody s v q s1 hs hq hb) hrun

theorem backChildren_cons (g : Graph) (c : Nat) (cd : MatrixXd) (rest : List (Nat × MatrixXd))
    (s : BackState) :
    backChildren g ((c, cd) :: rest) s =
      backChildren g rest
        ⟨if getOp g c ≠ .none ∧ pending g s c - 1 = 0 then s.q ++ [c] else s.q,
          Function.update s.derivatives c
            (some (MatrixXd.zip (fun x y => x + y)
              ((s.derivatives c).getD (zeros_like (getValue g c))) cd)),
          Function.update s.explored c (some (pending g s c - 1))⟩ := by
  simp only [backChildren]
  cases h1 : s.derivatives c <;> simp

/-- The body either skips, or throws, or runs the children loop on the
children zipped with some contributions. -/
theorem backBody_ok (P : Prims) (g : Graph) (r : Option (List Nat)) (v : Nat)
    (s s1 : BackState) (h : backBody P g r v s = .ok s1) :
    s1 = s ∨ ∃ ds, s1 = backChildren g ((getChildren g v).zip ds) s := by
  unfold backBody at h
  cases r with
  | none =>
    simp only at h
    split at h
    · cases h
    · cases h; exact Or.inr ⟨_, rfl⟩
  | some nc =>
    simp only at h
    split at h
    · cases h; exact Or.inl rfl
    · split at h
      · cases h
      · cases h; exact Or.inr ⟨_, rfl⟩


theorem mem_of_mem_zip_fst {α β : Type} (l1 : List α) (l2 : List β) (a : α)
    (h : a ∈ (l1.zip l2).map Prod.fst) : a ∈ l1 := by
  obtain ⟨⟨x, y⟩, hxy, rfl⟩ := List.mem_map.1 h
  exact (List.of_mem_zip hxy).1

theorem backChildren_q_mem (g : Graph) :
    ∀ (l : List (Nat × MatrixXd)) (s : BackState) (v : Nat), v ∈ (backChildren g l s).q →
      v ∈ s.q ∨ (v ∈ l.map Prod.fst ∧ getOp g v ≠ .none) := by
  intro l
  induction l with
  | nil => intro s v h; exact Or.inl h
  | cons hd rest ih =>
    intro s v h
    obtain ⟨c, cd⟩ := hd
    rw [backChildren_cons] at h
    rcases ih _ v h with h1 | h1
    · simp only at h1
      split at h1
      · rename_i hpush
        rcases List.mem_append.1 h1 with h2 | h2
        · exact Or.inl h2
        · have : v = c := by simpa using h2
          subst this
          exact Or.inr ⟨by simp, hpush.1⟩
      · exact Or.inl h1
    · exact Or.inr ⟨by simp [h1.1], h1.2⟩

theorem backChildren_derivatives_of_not_mem (g : Graph) :
    ∀ (l : List (Nat × MatrixXd)) (s : BackState) (k : Nat), k ∉ l.map Prod.fst →
      (backChildren g l s).derivatives k = s.derivatives k := by
  intro l
  induction l with
  | nil => intro s k _; rfl
  | cons hd rest ih =>
    intro s k hk
    obtain ⟨c, cd⟩ := hd
    simp only [List.map_cons, List.mem_cons, not_or] at hk
    rw [backChildren_cons, ih _ k hk.2]
    simp [Function.update, hk.1]

theorem backChildren_zero (g : Graph) (k : Nat) :
    ∀ (l : List (Nat × MatrixXd)) (s : BackState),
      (∀ cd ∈ l, cd.1 = k → cd.2 = zeros_like (getValue g k)) →
      (s.derivatives k = none ∨ s.derivatives k = some (zeros_like (getValue g k))) →
      ((backChildren g l s).derivatives k = none ∨
        (backChildren g l s).derivatives k = some (zeros_like (getValue g k))) := by
  intro l
  induction l with
  | nil => intro s _ h; exact h
  | cons hd rest ih =>
    intro s hl hs
    obtain ⟨c, cd⟩ := hd
    rw [backChildren_cons]
    apply ih
    · intro x hx; exact hl x (List.mem_cons_of_mem _ hx)
    · by_cases hck : c = k
      · subst hck
        have hcd : cd = zeros_like (getValue g c) := hl (c, cd) (List.mem_cons_self _ _) rfl
        right
        rcases hs with hs | hs <;> simp [hs, hcd, zip_add_zeros_like]
      · simpa [Function.update, Ne.symm hck] using hs

theorem _back_single_error (P : Prims) (g : Graph) (op : op_type) (dx : MatrixXd)
    (operands : List Nat) (i : Nat) (e : Exn)
    (h : _back_single P g op dx operands i = .error e) :
    (op = .none ∧ e = .none_op) ∨ (op = .inverse ∧ e = .inverse_derivative) := by
  unfold _back_single at h
  cases op <;> simp only at h <;> (try split_ifs at h) <;> first
    | (cases h; done)
    | (cases h; simp)

theorem _back_from_error (P : Prims) (g : Graph) (op : op_type) (operands : List Nat)
    (dx : MatrixXd) (e : Exn) :
    ∀ (rest : List Nat) (i : Nat), _back_from P g op operands dx i rest = .error e →
      ∃ j, _back_single P g op dx operands j = .error e := by
  intro rest
  induction rest with
  | nil => intro i h; simp [_back_from] at h
  | cons v rest ih =>
    intro i h
    simp only [_back_from] at h
    cases h1 : _back_single P g op dx operands i with
    | error e1 => rw [h1] at h; cases h; exact ⟨i, h1⟩
    | ok d =>
      rw [h1] at h
      cases h2 : _back_from P g op operands dx (i + 1) rest with
      | error e2 => rw [h2] at h; cases h; exact ih _ h2
      | ok ds => rw [h2] at h; cases h

theorem _back_nonconsts_from_error (P : Prims) (g : Graph) (op : op_type)
    (operands nonconsts : List Nat) (dx : MatrixXd) (e : Exn) :
    ∀ (rest : List Nat) (i : Nat),
      _back_nonconsts_from P g op operands nonconsts dx i rest = .error e →
      ∃ j, _back_single P g op dx operands j = .error e := by
  intro rest
  induction rest with
  | nil => intro i h; simp [_back_nonconsts_from] at h
  | cons v rest ih =>
    intro i h
    simp only [_back_nonconsts_from] at h
    split at h
    · cases h2 : _back_nonconsts_from P g op operands nonconsts dx (i + 1) rest with
      | error e2 => rw [h2] at h; cases h; exact ih _ h2
      | ok ds => rw [h2] at h; cases h
    · cases h1 : _back_single P g op dx operands i with
      | error e1 => rw [h1] at h; cases h; exact ⟨i, h1⟩
      | ok d =>
        rw [h1] at h
        cases h2 : _back_nonconsts_from P g op operands nonconsts dx (i + 1) rest with
        | error e2 => rw [h2] at h; cases h; exact ih _ h2
        | ok ds => rw [h2] at h; cases h

theorem _back_nonconsts_from_zero (P : Prims) (g : Graph) (op : op_type)
    (operands nonconsts : List Nat) (dx : MatrixXd) :
    ∀ (rest : List Nat) (i : Nat) (ds : List MatrixXd),
      _back_nonconsts_from P g op operands nonconsts dx i rest = .ok ds →
      ∀ cd ∈ rest.zip ds, cd.1 ∉ nonconsts → cd.2 = zeros_like (getValue g cd.1) := by
  intro rest
  induction rest with
  | nil => intro i ds _ cd hcd; simp at hcd
  | cons v rest ih =>
    intro i ds h cd hcd hnc
    simp only [_back_nonconsts_from] at h
    split at h
    · rename_i hv
      cases h2 : _back_nonconsts_from P g op operands nonconsts dx (i + 1) rest with
      | error e2 => rw [h2] at h; cases h
      | ok ds2 =>
        rw [h2] at h
        cases h
        rcases List.mem_cons.1 hcd with h3 | h3
        · subst h3; rfl
        · exact ih _ _ h2 cd h3 hnc
    · rename_i hv
      cases h1 : _back_single P g op dx operands i with
      | error e1 => rw [h1] at h; cases h
      | ok d =>
        rw [h1] at h
        cases h2 : _back_nonconsts_from P g op operands nonconsts dx (i + 1) rest with
        | error e2 => rw [h2] at h; cases h
        | ok ds2 =>
          rw [h2] at h
          cases h
          rcases List.mem_cons.1 hcd with h3 | h3
          · subst h3; exact absurd hnc hv
          · exact ih _ _ h2 cd h3 hnc

/-- When the body throws, the dequeued node has a child and carries the
`none` tag (for `none_op`) or the `inverse` tag (for `inverse_derivative`). -/
theorem backBody_error (P : Prims) (g : Graph) (r : Option (List Nat)) (v : Nat)
    (s : BackState) (e : Exn) (h : backBody P g r v s = .error e) :
    getChildren g v ≠ [] ∧
      ((getOp g v = .none ∧ e = .none_op) ∨ (getOp g v = .inverse ∧ e = .inverse_derivative)) := by
  unfold backBody at h
  have key : ∀ j dx, _back_single P g (getOp g v) dx (getChildren g v) j = .error e →
      (getOp g v = .none ∧ e = .none_op) ∨ (getOp g v = .inverse ∧ e = .inverse_derivative) :=
    fun j dx hj => _back_single_error P g _ dx _ j e hj
  cases r with
  | none =>
    simp only at h
    split at h
    · rename_i e1 hb
      cases h
      refine ⟨?_, ?_⟩
      · intro hnil
        rw [hnil] at hb
        simp [_back, _back_from] at hb
      · obtain ⟨j, hj⟩ := _back_from_error P g _ _ _ e _ 0 hb
        exact key j _ hj
    · cases h
  | some nc =>
    simp only at h
    split at h
    · cases h
    · split at h
      · rename_i e1 hb
        cases h
        refine ⟨?_, ?_⟩
        · intro hnil
          rw [hnil] at hb
          simp [_back_nonconsts, _back_nonconsts_from] at hb
        · obtain ⟨j, hj⟩ := _back_nonconsts_from_error P g _ _ _ _ e _ 0 hb
          exact key j _ hj
      · cases h


/-! ## Termination of the backward loop -/

theorem countP_succ_le (l : List Nat) (p1 p2 : Nat → Bool) (c : Nat) (hc : c ∈ l)
    (h : ∀ x ∈ l, p1 x = true → p2 x = true) (h2 : p2 c = true) (h1 : p1 c = false) :
    l.countP p1 + 1 ≤ l.countP p2 := by
  induction l with
  | nil => simp at hc
  | cons a l ih =>
    have hmono : l.countP p1 ≤ l.countP p2 :=
      List.countP_mono_left (fun x hx => h x (List.mem_cons_of_mem _ hx))
    by_cases hac : a = c
    · subst hac
      simp [List.countP_cons, h1, h2]
      exact hmono
    · have hc' : c ∈ l := by
        rcases List.mem_cons.1 hc with h3 | h3
        · exact absurd h3.symm hac
        · exact h3
      have ih' := ih hc' (fun x hx => h x (List.mem_cons_of_mem _ hx))
      have ha := h a (List.mem_cons_self _ _)
      simp only [List.countP_cons]
      cases hp1 : p1 a
      · simp; omega
      · simp [ha hp1]; omega

theorem backChildren_measure (g : Graph) :
    ∀ (l : List (Nat × MatrixXd)) (s : BackState),
      backMeasure g (backChildren g l s) ≤ backMeasure g s := by
  intro l
  induction l with
  | nil => intro s; exact Nat.le_refl _
  | cons hd rest ih =>
    intro s
    obtain ⟨c, cd⟩ := hd
    rw [backChildren_cons]
    refine Nat.le_trans (ih _) ?_
    have hpend : ∀ x q d, pending g ⟨q, d, Function.update s.explored c (some (pending g s c - 1))⟩ x
        = if x = c then pending g s c - 1 else pending g s x := by
      intro x q d
      by_cases hx : x = c
      · subst hx; simp [pending]
      · simp [pending, Function.update, hx]
    simp only [backMeasure, hpend]
    have hmono : ∀ x ∈ List.range g.length,
        decide (0 < if x = c then pending g s c - 1 else pending g s x) = true →
        decide (0 < pending g s x) = true := by
      intro x _ hx
      by_cases hxc : x = c
      · subst hxc; simp at hx ⊢; omega
      · simpa [hxc] using hx
    split
    · rename_i hpush
      have hlt : c < g.length := lt_length_of_op_ne_none g c hpush.1
      have := countP_succ_le (List.range g.length)
        (fun x => decide (0 < if x = c then pending g s c - 1 else pending g s x))
        (fun x => decide (0 < pending g s x)) c (List.mem_range.2 hlt) hmono
        (by simp; omega) (by simp; omega)
      simp only [List.length_append, List.length_singleton]
      omega
    · have := List.countP_mono_left hmono
      omega

theorem backBody_measure (P : Prims) (g : Graph) (r : Option (List Nat)) (v : Nat)
    (s s1 : BackState) (h : backBody P g r v s = .ok s1) :
    backMeasure g s1 ≤ backMeasure g s := by
  rcases backBody_ok P g r v s s1 h with h1 | ⟨ds, h1⟩
  · rw [h1]
  · rw [h1]; exact backChildren_measure g _ s

/-- The backward loop does not run out of fuel when the fuel is at least the
measure of the state. -/
theorem backLoop_ne_timeout (P : Prims) (g : Graph) (r : Option (List Nat)) :
    ∀ fuel s, backMeasure g s ≤ fuel → backLoop P g r fuel s ≠ .timeout := by
  intro fuel
  induction fuel with
  | zero =>
    intro s hm
    cases hq : s.q with
    | nil => rw [backLoop_nil P g r 0 s hq]; simp
    | cons v q => simp [backMeasure, hq] at hm
  | succ fuel ih =>
    intro s hm
    cases hq : s.q with
    | nil => rw [backLoop_nil P g r _ s hq]; simp
    | cons v q =>
      rw [backLoop_cons_succ P g r fuel s v q hq]
      cases hb : backBody P g r v ⟨q, s.derivatives, s.explored⟩ with
      | error e => simp
      | ok s1 =>
        simp only
        apply ih
        have h1 := backBody_measure P g r v _ s1 hb
        have h2 : backMeasure g ⟨q, s.derivatives, s.explored⟩ + 1 = backMeasure g s := by
          simp [backMeasure, hq, pending]; omega
        omega

theorem backInit_measure (g : Graph) (root : Nat) : backMeasure g (backInit g root) ≤ g.length + 1 := by
  have := List.countP_le_length (fun c => decide (0 < pending g (backInit g root) c))
    (l := List.range g.length)
  simp only [List.length_range] at this
  simp only [backMeasure, backInit, List.length_singleton]
  simp only [backInit] at this
  omega

/-- Both variants of `backpropagate` terminate on every graph: with fuel above
the number of nodes the call returns or throws. -/
theorem backpropagateWith_ne_timeout (P : Prims) (r : Option (List Nat)) (fuel : Nat)
    (g : Graph) (root : Nat) (leaves : List (Nat × MatrixXd)) (hf : g.length < fuel) :
    (backpropagateWith P r fuel g root leaves).1 ≠ .timeout := by
  have h := backLoop_ne_timeout P g r fuel (backInit g root)
    (Nat.le_trans (backInit_measure g root) hf)
  unfold backpropagateWith
  cases hrun : backLoop P g r fuel (backInit g root) with
  | ok s => simp
  | thrown e => simp
  | timeout => exact absurd hrun h

/-! ## Arena updates and the recursive forward pass -/

theorem getChildren_of_length_le (g : Graph) (v : Nat) (h : g.length ≤ v) :
    getChildren g v = [] := by
  simp [getChildren, node_of_length_le g v h, Node.null]

theorem lt_length_of_children_ne_nil (g : Graph) (v : Nat) (h : getChildren g v ≠ []) :
    v < g.length := by
  by_contra hlt
  exact h (getChildren_of_length_le g v (Nat.le_of_not_lt hlt))

theorem node_setValue (g : Graph) (v : Nat) (m : MatrixXd) (u : Nat) :
    (setValue g v m).node u =
      if u = v ∧ v < g.length then { g.node v with value := m } else g.node u := by
  unfold setValue Graph.node
  simp only [List.getD_eq_getElem?_getD, List.getElem?_set]
  by_cases huv : v = u
  · subst huv
    by_cases hlt : v < g.length
    · simp [hlt]
    · simp [hlt, List.getElem?_eq_none (Nat.le_of_not_lt hlt)]
  · have : ¬ u = v := fun h => huv h.symm
    simp [huv, this]

theorem length_setValue (g : Graph) (v : Nat) (m : MatrixXd) :
    (setValue g v m).length = g.length := by
  simp [setValue]

theorem getOp_setValue (g : Graph) (v : Nat) (m : MatrixXd) (u : Nat) :
    getOp (setValue g v m) u = getOp g u := by
  unfold getOp; rw [node_setValue]; split
  · rename_i h; rw [h.1]
  · rfl

theorem getChildren_setValue (g : Graph) (v : Nat) (m : MatrixXd) (u : Nat) :
    getChildren (setValue g v m) u = getChildren g u := by
  unfold getChildren; rw [node_setValue]; split
  · rename_i h; rw [h.1]
  · rfl

theorem getParents_setValue (g : Graph) (v : Nat) (m : MatrixXd) (u : Nat) :
    getParents (setValue g v m) u = getParents g u := by
  unfold getParents; rw [node_setValue]; split
  · rename_i h; rw [h.1]
  · rfl

theorem getValue_setValue_self (g : Graph) (v : Nat) (m : MatrixXd) (h : v < g.length) :
    getValue (setValue g v m) v = m := by
  unfold getValue; rw [node_setValue]; simp [h]

theorem getValue_setValue_ne (g : Graph) (v : Nat) (m : MatrixXd) (u : Nat) (h : u ≠ v) :
    getValue (setValue g v m) u = getValue g u := by
  unfold getValue; rw [node_setValue]; simp [h]

theorem SameLinks.refl (g : Graph) : SameLinks g g := ⟨rfl, fun _ => ⟨rfl, rfl, rfl⟩⟩

theorem SameLinks.trans {g h k : Graph} (h1 : SameLinks g h) (h2 : SameLinks h k) :
    SameLinks g k :=
  ⟨h2.1.trans h1.1, fun v =>
    ⟨(h2.2 v).1.trans (h1.2 v).1, (h2.2 v).2.1.trans (h1.2 v).2.1,
      (h2.2 v).2.2.trans (h1.2 v).2.2⟩⟩

theorem SameLinks.setValue (g : Graph) (v : Nat) (m : MatrixXd) :
    SameLinks g (setValue g v m) :=
  ⟨length_setValue g v m, fun u =>
    ⟨getOp_setValue g v m u, getChildren_setValue g v m u, getParents_setValue g v m u⟩⟩

theorem Acyclic.lt {g : Graph} {rank : Nat → Nat} (h : Acyclic g rank) {v c : Nat}
    (hc : c ∈ getChildren g v) : rank c < rank v := by
  apply h v _ c hc
  apply lt_length_of_children_ne_nil
  intro hnil; rw [hnil] at hc; simp at hc

theorem Under.rank_le {g : Graph} {rank : Nat → Nat} (h : Acyclic g rank) {a b : Nat}
    (hab : Under g a b) : rank b ≤ rank a := by
  induction hab with
  | refl => exact Nat.le_refl _
  | tail _ hstep ih => exact Nat.le_of_lt (Nat.lt_of_lt_of_le (h.lt hstep) ih)

theorem Under.sameLinks_iff {g h : Graph} (hs : SameLinks g h) {a b : Nat} :
    Under h a b ↔ Under g a b := by
  constructor
  · intro hab
    induction hab with
    | refl => exact Relation.ReflTransGen.refl
    | tail _ hstep ih =>
      exact Relation.ReflTransGen.tail ih (by rw [← (hs.2 _).2.1]; exact hstep)
  · intro hab
    induction hab with
    | refl => exact Relation.ReflTransGen.refl
    | tail _ hstep ih =>
      exact Relation.ReflTransGen.tail ih (by rw [(hs.2 _).2.1]; exact hstep)

theorem _eval_none (P : Prims) (g : Graph) (operands : List Nat) :
    _eval P g .none operands = .error .none_op := rfl

theorem _eval_ok (P : Prims) (g : Graph) (op : op_type) (operands : List Nat)
    (h : op ≠ .none) : ∃ m, _eval P g op operands = .ok m := by
  unfold _eval
  cases op <;> simp only <;> (try split_ifs) <;> first
    | exact ⟨_, rfl⟩
    | exact absurd rfl h

theorem taggedInterior_iff (g : Graph) (v : Nat) :
    TaggedInterior g v ↔
      (getChildren g v ≠ [] ∧ getOp g v = .none) ∨ ∃ c ∈ getChildren g v, TaggedInterior g c := by
  constructor
  · rintro ⟨w, hw, h1, h2⟩
    rcases Relation.ReflTransGen.cases_head hw with h | ⟨c, hc, hcw⟩
    · subst h; exact Or.inl ⟨h1, h2⟩
    · exact Or.inr ⟨c, hc, w, hcw, h1, h2⟩
  · rintro (⟨h1, h2⟩ | ⟨c, hc, w, hcw, h1, h2⟩)
    · exact ⟨v, Relation.ReflTransGen.refl, h1, h2⟩
    · exact ⟨w, Relation.ReflTransGen.head hc hcw, h1, h2⟩

theorem TaggedInterior.sameLinks_tagged {g h : Graph} (hs : SameLinks g h) (v : Nat) :
    TaggedInterior h v ↔ TaggedInterior g v := by
  unfold TaggedInterior
  constructor
  · rintro ⟨w, hw, h1, h2⟩
    exact ⟨w, (Under.sameLinks_iff hs).1 hw, by rw [← (hs.2 w).2.1]; exact h1,
      by rw [← (hs.2 w).1]; exact h2⟩
  · rintro ⟨w, hw, h1, h2⟩
    exact ⟨w, (Under.sameLinks_iff hs).2 hw, by rw [(hs.2 w).2.1]; exact h1,
      by rw [(hs.2 w).1]; exact h2⟩

/-- The children loop: it throws when a child has a tagged interior node under
it, and otherwise returns a graph with the same links, provided each call
does so. -/
theorem forChildren_spec (g0 : Graph) (call : Graph → Nat → Outcome Graph) :
    ∀ (cs : List Nat) (g : Graph), SameLinks g0 g →
      (∀ c ∈ cs, ∀ h, SameLinks g0 h →
        (TaggedInterior g0 c → ∃ e, call h c = .thrown e) ∧
        (¬ TaggedInterior g0 c → ∃ k, call h c = .ok k ∧ SameLinks g0 k)) →
      ((∃ c ∈ cs, TaggedInterior g0 c) → ∃ e, forChildren call cs g = .thrown e) ∧
      ((¬ ∃ c ∈ cs, TaggedInterior g0 c) → ∃ k, forChildren call cs g = .ok k ∧ SameLinks g0 k) := by
  intro cs
  induction cs with
  | nil =>
    intro g hg _
    exact ⟨by simp, fun _ => ⟨g, rfl, hg⟩⟩
  | cons c cs ih =>
    intro g hg hcall
    have hc := hcall c (List.mem_cons_self _ _) g hg
    by_cases hbad : TaggedInterior g0 c
    · obtain ⟨e, he⟩ := hc.1 hbad
      refine ⟨fun _ => ⟨e, by simp [forChildren, he]⟩, fun hno => ?_⟩
      exact absurd ⟨c, List.mem_cons_self _ _, hbad⟩ hno
    · obtain ⟨k, hk, hks⟩ := hc.2 hbad
      have ih' := ih k hks (fun c' hc' => hcall c' (List.mem_cons_of_mem _ hc'))
      simp only [forChildren, hk]
      refine ⟨?_, ?_⟩
      · rintro ⟨c', hc', hbad'⟩
        rcases List.mem_cons.1 hc' with h | h
        · subst h; exact absurd hbad' hbad
        · exact ih'.1 ⟨c', h, hbad'⟩
      · intro hno
        exact ih'.2 (fun ⟨c', hc', hbad'⟩ => hno ⟨c', List.mem_cons_of_mem _ hc', hbad'⟩)

/-- The recursive forward pass on an acyclic graph, with fuel above the rank
of the node: it throws when a node under `v` has a child and the leaf tag,
and otherwise returns a graph with the same links. -/
theorem _rpropagate_spec (P : Prims) (g0 : Graph) (rank : Nat → Nat) (hac : Acyclic g0 rank) :
    ∀ (fuel : Nat) (g : Graph) (v : Nat), SameLinks g0 g → rank v < fuel →
      (TaggedInterior g0 v → ∃ e, _rpropagate P fuel g v = .thrown e) ∧
      (¬ TaggedInterior g0 v → ∃ k, _rpropagate P fuel g v = .ok k ∧ SameLinks g0 k) := by
  intro fuel
  induction fuel with
  | zero => intro g v _ h; omega
  | succ fuel ih =>
    intro g v hg hrank
    have hch : getChildren g v = getChildren g0 v := (hg.2 v).2.1
    by_cases hleaf : getChildren g0 v = []
    · have hnot : ¬ TaggedInterior g0 v := by
        rw [taggedInterior_iff]
        rintro (⟨h1, _⟩ | ⟨c, hc, _⟩)
        · exact h1 hleaf
        · rw [hleaf] at hc; simp at hc
      refine ⟨fun h => absurd h hnot, fun _ => ⟨g, ?_, hg⟩⟩
      simp [_rpropagate, hch, hleaf]
    · have hfor := forChildren_spec g0 (_rpropagate P fuel) (getChildren g0 v) g hg
        (fun c hc h hh => ih h c hh (by have := hac.lt hc; omega))
      simp only [_rpropagate, hch, hleaf, if_false]
      by_cases hbadc : ∃ c ∈ getChildren g0 v, TaggedInterior g0 c
      · obtain ⟨e, he⟩ := hfor.1 hbadc
        rw [he]
        refine ⟨fun _ => ⟨e, rfl⟩, fun hno => ?_⟩
        exact absurd ((taggedInterior_iff g0 v).2 (Or.inr hbadc)) hno
      · obtain ⟨k, hk, hks⟩ := hfor.2 hbadc
        rw [hk]
        simp only
        rw [(hks.2 v).1, (hks.2 v).2.1]
        by_cases hop : getOp g0 v = .none
        · rw [hop, _eval_none]
          refine ⟨fun _ => ⟨_, rfl⟩, fun hno => ?_⟩
          exact absurd ((taggedInterior_iff g0 v).2 (Or.inl ⟨hleaf, hop⟩)) hno
        · obtain ⟨m, hm⟩ := _eval_ok P k (getOp g0 v) (getChildren g0 v) hop
          rw [hm]
          refine ⟨fun hbad => ?_, fun _ => ⟨_, rfl, hks.trans (SameLinks.setValue k v m)⟩⟩
          rcases (taggedInterior_iff g0 v).1 hbad with ⟨_, h2⟩ | h
          · exact absurd h2 hop
          · exact absurd h hbadc

/-! ## The recursive forward pass evaluates the graph under the root -/

theorem operand_congr (g h : Graph) (cs : List Nat) (i : Nat)
    (hv : ∀ c ∈ cs, getValue h c = getValue g c) : operand h cs i = operand g cs i := by
  unfold operand
  cases hi : cs.get? i with
  | none => rfl
  | some c => exact hv c (List.get?_mem hi)

theorem _eval_congr (P : Prims) (g h : Graph) (op : op_type) (cs : List Nat)
    (hv : ∀ c ∈ cs, getValue h c = getValue g c) : _eval P h op cs = _eval P g op cs := by
  unfold _eval
  rw [operand_congr g h cs 0 hv, operand_congr g h cs 1 hv]

theorem Acyclic.sameLinks_acyclic {g h : Graph} {rank : Nat → Nat} (hs : SameLinks g h)
    (hac : Acyclic g rank) : Acyclic h rank := by
  intro v hv c hc
  rw [(hs.2 v).2.1] at hc
  exact hac v (by rw [← hs.1]; exact hv) c hc

theorem Settled.of_agree {P : Prims} {g h : Graph} {u : Nat} (hs : SameLinks g h)
    (hv : ∀ w, Under g u w → getValue h w = getValue g w) (hset : Settled P g u) :
    Settled P h u := by
  intro w hw hch
  have hw' : Under g u w := (Under.sameLinks_iff hs).1 hw
  rw [(hs.2 w).2.1] at hch
  rw [(hs.2 w).1, (hs.2 w).2.1, hv w hw']
  rw [_eval_congr P g h _ _ (fun c hc => hv c (Relation.ReflTransGen.tail hw' hc))]
  exact hset w hw' hch

/-- What a run of the children loop keeps, given that each call keeps it. -/
theorem forChildren_keeps (P : Prims) (call : Graph → Nat → Outcome Graph)
    (hcall : ∀ g c k, call g c = .ok k →
      SameLinks g k ∧ (∀ u, getChildren g u = [] → getValue k u = getValue g u) ∧
      (∀ u, Settled P g u → ∀ w, Under g u w → getValue k w = getValue g w)) :
    ∀ (cs : List Nat) (g k : Graph), forChildren call cs g = .ok k →
      SameLinks g k ∧ (∀ u, getChildren g u = [] → getValue k u = getValue g u) ∧
      (∀ u, Settled P g u → ∀ w, Under g u w → getValue k w = getValue g w) := by
  intro cs
  induction cs with
  | nil =>
    intro g k h
    simp only [forChildren, Outcome.ok.injEq] at h
    subst h
    exact ⟨SameLinks.refl g, fun _ _ => rfl, fun _ _ _ _ => rfl⟩
  | cons c cs ih =>
    intro g k h
    simp only [forChildren] at h
    cases hc : call g c with
    | thrown e => rw [hc] at h; cases h
    | timeout => rw [hc] at h; cases h
    | ok g1 =>
      rw [hc] at h
      obtain ⟨a1, a2, a3⟩ := hcall g c g1 hc
      obtain ⟨b1, b2, b3⟩ := ih g1 k h
      refine ⟨a1.trans b1, ?_, ?_⟩
      · intro u hu
        rw [b2 u (by rw [(a1.2 u).2.1]; exact hu), a2 u hu]
      · intro u hu w hw
        have hset1 : Settled P g1 u := Settled.of_agree a1 (a3 u hu) hu
        rw [b3 u hset1 w ((Under.sameLinks_iff a1).2 hw), a3 u hu w hw]

/-- A run of `_rpropagate` that returns keeps the links, the values of childless
nodes, and the values under every node that was already evaluated. -/
theorem _rpropagate_keeps (P : Prims) :
    ∀ (fuel : Nat) (g : Graph) (v : Nat) (k : Graph), _rpropagate P fuel g v = .ok k →
      SameLinks g k ∧ (∀ u, getChildren g u = [] → getValue k u = getValue g u) ∧
      (∀ u, Settled P g u → ∀ w, Under g u w → getValue k w = getValue g w) := by
  intro fuel
  induction fuel with
  | zero => intro g v k h; simp [_rpropagate] at h
  | succ fuel ih =>
    intro g v k h
    simp only [_rpropagate] at h
    split at h
    · cases h
      exact ⟨SameLinks.refl g, fun _ _ => rfl, fun _ _ _ _ => rfl⟩
    · rename_i hch
      cases hfor : forChildren (_rpropagate P fuel) (getChildren g v) g with
      | thrown e => rw [hfor] at h; cases h
      | timeout => rw [hfor] at h; cases h
      | ok g1 =>
        rw [hfor] at h
        simp only at h
        cases hev : _eval P g1 (getOp g1 v) (getChildren g1 v) with
        | error e => rw [hev] at h; cases h
        | ok m =>
          rw [hev] at h
          cases h
          obtain ⟨a1, a2, a3⟩ := forChildren_keeps P _ ih _ g g1 hfor
          refine ⟨a1.trans (SameLinks.setValue g1 v m), ?_, ?_⟩
          · intro u hu
            have huv : u ≠ v := by
              intro huv; rw [huv] at hu; exact hch hu
            rw [getValue_setValue_ne g1 v m u huv, a2 u hu]
          · intro u hu w hw
            by_cases hwv : w = v
            · subst hwv
              have hlt : w < g1.length := by
                rw [a1.1]; exact lt_length_of_children_ne_nil g w hch
              rw [getValue_setValue_self g1 w m hlt]
              have h1 := hu w hw hch
              rw [(a1.2 w).1, (a1.2 w).2.1] at hev
              rw [_eval_congr P g g1 _ _
                (fun c hc => a3 u hu c (Relation.ReflTransGen.tail hw hc))] at hev
              rw [h1] at hev
              cases hev
              rfl
            · rw [getValue_setValue_ne g1 v m w hwv, a3 u hu w hw]

theorem forChildren_settles (P : Prims) (rank : Nat → Nat) (fuel : Nat)
    (ih : ∀ (g : Graph) (v : Nat) (k : Graph), Acyclic g rank →
      _rpropagate P fuel g v = .ok k → Settled P k v) :
    ∀ (cs : List Nat) (g k : Graph), Acyclic g rank →
      forChildren (_rpropagate P fuel) cs g = .ok k → ∀ c ∈ cs, Settled P k c := by
  intro cs
  induction cs with
  | nil => intro g k _ _ c hc; simp at hc
  | cons c0 cs ihl =>
    intro g k hac h c hc
    simp only [forChildren] at h
    cases hc0 : _rpropagate P fuel g c0 with
    | thrown e => rw [hc0] at h; cases h
    | timeout => rw [hc0] at h; cases h
    | ok g1 =>
      rw [hc0] at h
      have hs1 : SameLinks g g1 := (_rpropagate_keeps P fuel g c0 g1 hc0).1
      have hac1 : Acyclic g1 rank := hac.sameLinks_acyclic hs1
      rcases List.mem_cons.1 hc with hcc | hcc
      · subst hcc
        have hset : Settled P g1 c := ih g c g1 hac hc0
        obtain ⟨b1, _, b3⟩ := forChildren_keeps P _ (_rpropagate_keeps P fuel) cs g1 k h
        exact Settled.of_agree b1 (b3 c hset) hset
      · exact ihl g1 k hac1 h c hcc

/-- A run of `_rpropagate` on an acyclic graph that returns leaves the graph
under the node evaluated. -/
theorem _rpropagate_settles (P : Prims) (rank : Nat → Nat) :
    ∀ (fuel : Nat) (g : Graph) (v : Nat) (k : Graph), Acyclic g rank →
      _rpropagate P fuel g v = .ok k → Settled P k v := by
  intro fuel
  induction fuel with
  | zero => intro g v k _ h; simp [_rpropagate] at h
  | succ fuel ih =>
    intro g v k hac h
    simp only [_rpropagate] at h
    split at h
    · rename_i hch
      cases h
      intro w hw hw'
      rcases Relation.ReflTransGen.cases_head hw with h1 | ⟨c, hc, _⟩
      · subst h1; exact absurd hch hw'
      · rw [hch] at hc; simp at hc
    · rename_i hch
      cases hfor : forChildren (_rpropagate P fuel) (getChildren g v) g with
      | thrown e => rw [hfor] at h; cases h
      | timeout => rw [hfor] at h; cases h
      | ok g1 =>
        rw [hfor] at h
        simp only at h
        cases hev : _eval P g1 (getOp g1 v) (getChildren g1 v) with
        | error e => rw [hev] at h; cases h
        | ok m =>
          rw [hev] at h
          cases h
          obtain ⟨a1, _, _⟩ := forChildren_keeps P _ (_rpropagate_keeps P fuel) _ g g1 hfor
          have hac1 : Acyclic g1 rank := hac.sameLinks_acyclic a1
          have hsetc := forChildren_settles P rank fuel ih _ g g1 hac hfor
          have hsl := SameLinks.setValue g1 v m
          have hlt : v < g1.length := by
            rw [a1.1]; exact lt_length_of_children_ne_nil g v hch
          intro w hw hw'
          have hw1 : Under g1 v w := (Under.sameLinks_iff hsl).1 hw
          rw [(hsl.2 w).2.1] at hw'
          rw [(hsl.2 w).1, (hsl.2 w).2.1]
          have hne : ∀ c ∈ getChildren g1 w, c ≠ v := by
            intro c hc hcv
            have h1 := hac1.lt hc
            have h2 := Under.rank_le hac1 hw1
            rw [hcv] at h1
            omega
          rw [_eval_congr P g1 _ _ _
            (fun c hc => getValue_setValue_ne g1 v m c (hne c hc))]
          rcases Relation.ReflTransGen.cases_head hw1 with h1 | ⟨c, hc, hcw⟩
          · subst h1
            rw [getValue_setValue_self g1 v m hlt]
            exact hev
          · have hwv : w ≠ v := by
              intro hwv
              have h1 := hac1.lt hc
              have h2 := Under.rank_le hac1 hcw
              rw [hwv] at h2
              omega
            rw [getValue_setValue_ne g1 v m w hwv]
            have hc' : c ∈ getChildren g v := by rw [← (a1.2 v).2.1]; exact hc
            exact hsetc c hc' w hcw hw'


/-! ## The leaf-seeded forward loop: equations and termination -/

theorem propagateLoop_nil (P : Prims) (fuel : Nat) (s : FwdState) (h : s.q = []) :
    propagateLoop P fuel s = .ok s := by
  cases fuel <;> (unfold propagateLoop; simp [h])

theorem propagateLoop_cons_zero (P : Prims) (s : FwdState) (v : Nat) (q : List Nat)
    (h : s.q = v :: q) : propagateLoop P 0 s = .timeout := by
  unfold propagateLoop; simp [h]

theorem propagateLoop_cons_succ (P : Prims) (fuel : Nat) (s : FwdState) (v : Nat)
    (q : List Nat) (h : s.q = v :: q) :
    propagateLoop P (fuel + 1) s =
      match propagateParents P (getParents s.g v) ⟨s.g, q, s.explored⟩ with
      | .ok s1 => propagateLoop P fuel s1
      | .thrown e => .thrown e
      | .timeout => .timeout := by
  rw [propagateLoop]; simp [h]

theorem propagateParents_cons (P : Prims) (p : Nat) (rest : List Nat) (s : FwdState) :
    propagateParents P (p :: rest) s =
      if numOpArgs (getOp s.g p) = s.explored p + 1 then
        match _eval P s.g (getOp s.g p) (getChildren s.g p) with
        | .ok m => propagateParents P rest
            ⟨setValue s.g p m, s.q ++ [p],
              Function.update s.explored p (s.explored p + 1)⟩
        | .error e => .thrown e
      else propagateParents P rest
        ⟨s.g, s.q, Function.update s.explored p (s.explored p + 1)⟩ := by
  simp [propagateParents]

theorem op_ne_none_of_numOpArgs_pos (op : op_type) (h : 1 ≤ numOpArgs op) : op ≠ .none := by
  intro hop; rw [hop] at h; simp [numOpArgs] at h

/-- The parents loop never throws and never increases the measure, when the
counters are non-negative. -/
theorem propagateParents_ok (P : Prims) :
    ∀ (ps : List Nat) (s : FwdState), (∀ p, 0 ≤ s.explored p) →
      ∃ s', propagateParents P ps s = .ok s' ∧ (∀ p, 0 ≤ s'.explored p) ∧
        fwdMeasure s' ≤ fwdMeasure s := by
  intro ps
  induction ps with
  | nil => intro s hs; exact ⟨s, rfl, hs, Nat.le_refl _⟩
  | cons p rest ih =>
    intro s hs
    rw [propagateParents_cons]
    have hnn : ∀ x, 0 ≤ Function.update s.explored p (s.explored p + 1) x := by
      intro x
      by_cases hx : x = p
      · subst hx; simp; have := hs x; omega
      · simp [Function.update, hx]; exact hs x
    have hup : ∀ x, Function.update s.explored p (s.explored p + 1) x
        = if x = p then s.explored p + 1 else s.explored x := by
      intro x
      by_cases hx : x = p
      · subst hx; simp
      · simp [Function.update, hx]
    split
    · rename_i heq
      have hop : getOp s.g p ≠ .none :=
        op_ne_none_of_numOpArgs_pos _ (by rw [heq]; have := hs p; omega)
      obtain ⟨m, hm⟩ := _eval_ok P s.g (getOp s.g p) (getChildren s.g p) hop
      rw [hm]
      obtain ⟨s', h1, h2, h3⟩ := ih ⟨setValue s.g p m, s.q ++ [p],
        Function.update s.explored p (s.explored p + 1)⟩ hnn
      refine ⟨s', h1, h2, Nat.le_trans h3 ?_⟩
      have hlt : p < s.g.length := lt_length_of_op_ne_none s.g p hop
      simp only [fwdMeasure, length_setValue, getOp_setValue, hup, List.length_append,
        List.length_singleton]
      have := countP_succ_le (List.range s.g.length)
        (fun x => decide ((if x = p then s.explored p + 1 else s.explored x)
          < numOpArgs (getOp s.g x)))
        (fun x => decide (s.explored x < numOpArgs (getOp s.g x))) p (List.mem_range.2 hlt)
        (by
          intro x _ hx
          by_cases hxp : x = p
          · subst hxp; simp at hx ⊢; omega
          · simpa [hxp] using hx)
        (by simp; omega) (by simp; omega)
      omega
    · obtain ⟨s', h1, h2, h3⟩ := ih ⟨s.g, s.q,
        Function.update s.explored p (s.explored p + 1)⟩ hnn
      refine ⟨s', h1, h2, Nat.le_trans h3 ?_⟩
      simp only [fwdMeasure, hup]
      have := List.countP_mono_left (l := List.range s.g.length)
        (p := fun x => decide ((if x = p then s.explored p + 1 else s.explored x)
          < numOpArgs (getOp s.g x)))
        (q := fun x => decide (s.explored x < numOpArgs (getOp s.g x)))
        (by
          intro x _ hx
          by_cases hxp : x = p
          · subst hxp; simp at hx ⊢; omega
          · simpa [hxp] using hx)
      omega

/-- The loop of `propagate(leaves)` returns on every graph: it never throws,
and fuel of the measure of the state is enough. -/
theorem propagateLoop_ok (P : Prims) :
    ∀ (fuel : Nat) (s : FwdState), fwdMeasure s ≤ fuel → (∀ p, 0 ≤ s.explored p) →
      ∃ s', propagateLoop P fuel s = .ok s' := by
  intro fuel
  induction fuel with
  | zero =>
    intro s hm _
    cases hq : s.q with
    | nil => exact ⟨s, propagateLoop_nil P 0 s hq⟩
    | cons v q => simp [fwdMeasure, hq] at hm
  | succ fuel ih =>
    intro s hm hs
    cases hq : s.q with
    | nil => exact ⟨s, propagateLoop_nil P _ s hq⟩
    | cons v q =>
      rw [propagateLoop_cons_succ P fuel s v q hq]
      obtain ⟨s1, h1, h2, h3⟩ := propagateParents_ok P (getParents s.g v)
        ⟨s.g, q, s.explored⟩ hs
      rw [h1]
      apply ih s1 _ h2
      have : fwdMeasure ⟨s.g, q, s.explored⟩ + 1 = fwdMeasure s := by
        simp [fwdMeasure, hq]; omega
      omega

/-- An invariant of the loop body holds in the final state, whose queue is
empty. -/
theorem propagateLoop_inv (P : Prims) (Inv : FwdState → Prop)
    (hbody : ∀ (s : FwdState) v q s1, Inv s → s.q = v :: q →
      propagateParents P (getParents s.g v) ⟨s.g, q, s.explored⟩ = .ok s1 → Inv s1) :
    ∀ fuel s s', Inv s → propagateLoop P fuel s = .ok s' → Inv s' ∧ s'.q = [] := by
  intro fuel
  induction fuel with
  | zero =>
    intro s s' hs hrun
    cases hq : s.q with
    | nil => rw [propagateLoop_nil P 0 s hq] at hrun; cases hrun; exact ⟨hs, hq⟩
    | cons v q => rw [propagateLoop_cons_zero P s v q hq] at hrun; cases hrun
  | succ fuel ih =>
    intro s s' hs hrun
    cases hq : s.q with
    | nil => rw [propagateLoop_nil P _ s hq] at hrun; cases hrun; exact ⟨hs, hq⟩
    | cons v q =>
      rw [propagateLoop_cons_succ P fuel s v q hq] at hrun
      cases hb : propagateParents P (getParents s.g v) ⟨s.g, q, s.explored⟩ with
      | thrown e => rw [hb] at hrun; cases hrun
      | timeout => rw [hb] at hrun; cases hrun
      | ok s1 =>
        rw [hb] at hrun
        exact ih s1 s' (hbody s v q s1 hs hq hb) hrun


/-! ## The leaf-seeded forward loop computes the values of the recursive pass -/

theorem under_lt_length (g : Graph) (root : Nat) (hroot : root < g.length)
    (hwl : WellLinked g) {v : Nat} (h : Under g root v) : v < g.length := by
  induction h with
  | refl => exact hroot
  | tail _ hstep ih => exact hwl.1 _ ih _ hstep

theorem wellLinked_count {g : Graph} (hwl : WellLinked g) (p c : Nat) :
    (getParents g c).count p = (getChildren g p).count c := by
  by_cases hp : p < g.length
  · by_cases hc : c < g.length
    · exact hwl.2.2 p hp c hc
    · rw [getParents_of_length_le g c (Nat.le_of_not_lt hc)]
      simp only [List.count_nil]
      symm
      apply List.count_eq_zero_of_not_mem
      intro hmem
      exact hc (hwl.1 p hp c hmem)
  · rw [getChildren_of_length_le g p (Nat.le_of_not_lt hp)]
    simp only [List.count_nil]
    by_cases hc : c < g.length
    · apply List.count_eq_zero_of_not_mem
      intro hmem
      exact hp (hwl.2.1 c hc p hmem)
    · rw [getParents_of_length_le g c (Nat.le_of_not_lt hc)]; rfl

theorem children_ne_nil_of_mem_parents {g : Graph} (hwl : WellLinked g) {p c : Nat}
    (h : p ∈ getParents g c) : getChildren g p ≠ [] := by
  have h1 : 0 < (getParents g c).count p := List.count_pos_iff.2 h
  rw [wellLinked_count hwl] at h1
  intro hnil
  rw [hnil] at h1
  simp at h1

theorem countP_mem_cons (l done : List Nat) (v : Nat) (hv : v ∉ done) :
    l.countP (fun c => decide (c ∈ v :: done))
      = l.count v + l.countP (fun c => decide (c ∈ done)) := by
  induction l with
  | nil => simp
  | cons a l ih =>
    simp only [List.countP_cons, List.count_cons, ih]
    by_cases hav : a = v
    · subst hav; simp [hv]; omega
    · have hva : ¬ (a == v) = true := by simpa using hav
      by_cases had : a ∈ done
      · simp [hav, had]; omega
      · simp [hav, had]

theorem mem_of_countP_eq_length (l done : List Nat)
    (h : l.length ≤ l.countP (fun c => decide (c ∈ done))) : ∀ c ∈ l, c ∈ done := by
  have h1 : l.countP (fun c => decide (c ∈ done)) = l.length :=
    Nat.le_antisymm (List.countP_le_length _) h
  intro c hc
  have := (List.countP_eq_length.1 h1) c hc
  simpa using this

theorem countP_eq_length_of_mem (l done : List Nat) (h : ∀ c ∈ l, c ∈ done) :
    l.countP (fun c => decide (c ∈ done)) = l.length :=
  List.countP_eq_length.2 (fun c hc => by simpa using h c hc)

/-- One dequeue: the invariant at the head of the loop gives the invariant at
the start of the parents loop of the dequeued node. -/
theorem FwdInv.dequeue_fwd {g0 h1 : Graph} {root : Nat} {S : List Nat} {s : FwdState}
    {done : List Nat} (hwl : WellLinked g0) (hinv : FwdInv g0 h1 root S s done [])
    {v : Nat} {q : List Nat} (hq : s.q = v :: q) :
    FwdInv g0 h1 root S ⟨s.g, q, s.explored⟩ (v :: done) (getParents g0 v) := by
  have hnd : (v :: (q ++ done)).Nodup := by
    have := hinv.nodup; rw [hq] at this; simpa using this
  have hv : v ∉ done := fun h => (List.nodup_cons.1 hnd).1 (List.mem_append_right _ h)
  have hmem : ∀ w, (w ∈ q ∨ w ∈ v :: done) ↔ (w ∈ s.q ∨ w ∈ done) := by
    intro w; rw [hq]; simp only [List.mem_cons]; tauto
  refine ⟨hinv.links, ?_, ?_, ?_, ?_, ?_, ?_, ?_⟩
  · intro w hw; exact hinv.vals w ((hmem w).1 hw)
  · intro p
    have h1 := hinv.count p
    simp only [List.count_nil, Nat.cast_zero, add_zero] at h1
    rw [countP_mem_cons _ _ _ hv, wellLinked_count hwl, h1]
    push_cast
    ring
  · exact List.nodup_middle.2 hnd
  · intro p hp1 hp2; exact (hmem p).2 (hinv.ready p hp1 hp2)
  · intro l hl; exact (hmem l).2 (hinv.seeds l hl)
  · intro p hp; exact hinv.origin p ((hmem p).1 hp)
  · intro p hp; exact children_ne_nil_of_mem_parents hwl hp

/-- The parents loop keeps the invariant. -/
theorem FwdInv.parents (P : Prims) {g0 h1 : Graph} {root : Nat} {S : List Nat}
    (har : ArityOK g0 root) (hS : ∀ l ∈ S, getChildren g0 l = [])
    (hl1 : SameLinks g0 h1) (hset : Settled P h1 root) {done : List Nat} :
    ∀ (rest : List Nat) (s s1 : FwdState), FwdInv g0 h1 root S s done rest →
      propagateParents P rest s = .ok s1 → FwdInv g0 h1 root S s1 done [] := by
  intro rest
  induction rest with
  | nil =>
    intro s s1 hinv h
    simp only [propagateParents, Outcome.ok.injEq] at h
    subst h; exact hinv
  | cons p0 rest ih =>
    intro s s1 hinv h
    rw [propagateParents_cons] at h
    have hop : getOp s.g p0 = getOp g0 p0 := (hinv.links.2 p0).1
    have hchs : getChildren s.g p0 = getChildren g0 p0 := (hinv.links.2 p0).2.1
    have hup : ∀ x, Function.update s.explored p0 (s.explored p0 + 1) x
        = if x = p0 then s.explored p0 + 1 else s.explored x := by
      intro x
      by_cases hx : x = p0
      · subst hx; simp
      · simp [Function.update, hx]
    have hcount : ∀ p, Function.update s.explored p0 (s.explored p0 + 1) p
        + (rest.count p : Int)
        = (((getChildren g0 p).countP (fun c => decide (c ∈ done)) : Nat) : Int) := by
      intro p
      have h1 := hinv.count p
      rw [hup]
      by_cases hp : p = p0
      · subst hp
        simp only [List.count_cons_self, if_true] at h1 ⊢
        push_cast at h1
        omega
      · have : ¬ (p0 == p) = true := by simpa using fun h => hp h.symm
        simp only [List.count_cons, this, if_false, hp] at h1 ⊢
        simpa using h1
    have hcons : ∀ p ∈ rest, getChildren g0 p ≠ [] :=
      fun p hp => hinv.consumers p (List.mem_cons_of_mem _ hp)
    split at h
    · rename_i heq
      cases hev : _eval P s.g (getOp s.g p0) (getChildren s.g p0) with
      | error e => rw [hev] at h; cases h
      | ok m =>
        rw [hev] at h
        simp only at h
        apply ih _ s1 _ h
        have hch0 : getChildren g0 p0 ≠ [] := hinv.consumers p0 (List.mem_cons_self _ _)
        have hnotS : p0 ∉ S := fun hmem => hch0 (hS p0 hmem)
        have hfresh : ¬ (p0 ∈ s.q ∨ p0 ∈ done) := by
          intro hmem
          rcases hinv.origin p0 hmem with h1 | h1
          · exact hnotS h1
          · rw [hop] at heq; omega
        refine ⟨hinv.links.trans (SameLinks.setValue s.g p0 m), ?_, hcount, ?_, ?_, ?_, ?_, hcons⟩
        · intro w hw hwu
          simp only [List.mem_append, List.mem_singleton] at hw
          by_cases hwp : w = p0
          · subst hwp
            have hlt : w < s.g.length := by
              rw [hinv.links.1]; exact lt_length_of_children_ne_nil g0 w hch0
            rw [getValue_setValue_self s.g w m hlt]
            have hall : ∀ c ∈ getChildren g0 w, c ∈ done := by
              apply mem_of_countP_eq_length
              have h1 := hinv.count w
              have h2 := har w hwu hch0
              rw [hop] at heq
              simp only [List.count_cons_self] at h1
              push_cast at h1
              have h3 : (0 : Int) ≤ (rest.count w : Int) := Int.natCast_nonneg _
              omega
            rw [hop, hchs] at hev
            rw [_eval_congr P h1 s.g _ _ (fun c hc =>
              hinv.vals c (Or.inr (hall c hc)) (Relation.ReflTransGen.tail hwu hc))] at hev
            have h4 := hset w ((Under.sameLinks_iff hl1).2 hwu)
              (by rw [(hl1.2 w).2.1]; exact hch0)
            rw [(hl1.2 w).1, (hl1.2 w).2.1, hev] at h4
            cases h4
            rfl
          · rw [getValue_setValue_ne s.g p0 m w hwp]
            apply hinv.vals w _ hwu
            rcases hw with (hw | hw) | hw
            · exact Or.inl hw
            · exact absurd hw hwp
            · exact Or.inr hw
        · have h1 := hinv.nodup
          rw [List.append_assoc]
          simp only [List.singleton_append]
          apply List.nodup_middle.2
          apply List.nodup_cons.2
          exact ⟨fun hmem => hfresh (List.mem_append.1 hmem), h1⟩
        · intro p hp1 hp2
          simp only [List.mem_append, List.mem_singleton]
          replace hp2 : numOpArgs (getOp g0 p)
              ≤ Function.update s.explored p0 (s.explored p0 + 1) p := hp2
          rw [hup] at hp2
          by_cases hp : p = p0
          · exact Or.inl (Or.inr hp)
          · simp only [hp, if_false] at hp2
            rcases hinv.ready p hp1 hp2 with h1 | h1
            · exact Or.inl (Or.inl h1)
            · exact Or.inr h1
        · intro l hl
          rcases hinv.seeds l hl with h1 | h1
          · exact Or.inl (List.mem_append_left _ h1)
          · exact Or.inr h1
        · intro p hp
          simp only [List.mem_append, List.mem_singleton] at hp
          show p ∈ S ∨ numOpArgs (getOp g0 p)
              ≤ Function.update s.explored p0 (s.explored p0 + 1) p
          rw [hup]
          by_cases hpp : p = p0
          · subst hpp
            right
            simp only [if_true]
            rw [hop] at heq
            omega
          · simp only [hpp, if_false]
            apply hinv.origin p
            rcases hp with (hp | hp) | hp
            · exact Or.inl hp
            · exact absurd hp hpp
            · exact Or.inr hp
    · rename_i hne
      apply ih _ s1 _ h
      refine ⟨hinv.links, hinv.vals, hcount, hinv.nodup, ?_, hinv.seeds, ?_, hcons⟩
      · intro p hp1 hp2
        replace hp2 : numOpArgs (getOp g0 p)
            ≤ Function.update s.explored p0 (s.explored p0 + 1) p := hp2
        rw [hup] at hp2
        by_cases hp : p = p0
        · subst hp
          simp only [if_true] at hp2
          rw [hop] at hne
          exact hinv.ready p hp1 (by omega)
        · simp only [hp, if_false] at hp2
          exact hinv.ready p hp1 hp2
      · intro p hp
        show p ∈ S ∨ numOpArgs (getOp g0 p)
            ≤ Function.update s.explored p0 (s.explored p0 + 1) p
        rw [hup]
        rcases hinv.origin p hp with h1 | h1
        · exact Or.inl h1
        · right
          by_cases hpp : p = p0
          · subst hpp; simp only [if_true]; omega
          · simp only [hpp, if_false]; exact h1

/-- When the queue is empty every node under the root has been dequeued. -/
theorem FwdInv.complete_fwd {g0 h1 : Graph} {root : Nat} {S : List Nat} {s : FwdState}
    {done : List Nat} {rank : Nat → Nat} (hac : Acyclic g0 rank) (har : ArityOK g0 root)
    (hleaves : ∀ l, Under g0 root l → getChildren g0 l = [] → l ∈ S)
    (hinv : FwdInv g0 h1 root S s done []) (hq : s.q = []) :
    ∀ (n w : Nat), rank w < n → Under g0 root w → w ∈ done := by
  have hmem : ∀ w, (w ∈ s.q ∨ w ∈ done) → w ∈ done := by
    intro w hw
    rcases hw with hw | hw
    · rw [hq] at hw; simp at hw
    · exact hw
  intro n
  induction n with
  | zero => intro w h; omega
  | succ n ih =>
    intro w hw hwu
    by_cases hch : getChildren g0 w = []
    · exact hmem w (hinv.seeds w (hleaves w hwu hch))
    · have hall : ∀ c ∈ getChildren g0 w, c ∈ done := fun c hc =>
        ih c (by have := hac.lt hc; omega) (Relation.ReflTransGen.tail hwu hc)
      have h1 := hinv.count w
      rw [countP_eq_length_of_mem _ _ hall] at h1
      simp only [List.count_nil, Nat.cast_zero, add_zero] at h1
      have h2 := har w hwu hch
      have h3 : 0 < (getChildren g0 w).length := List.length_pos.2 hch
      apply hmem w
      apply hinv.ready w
      · omega
      · omega


/-- The two forward passes agree: on an acyclic, consistently linked graph
whose nodes under the root have the arity of their operator, started from a
duplicate-free list of childless nodes that contains every leaf under the
root, `propagate(leaves)` returns the root value that `propagate()` returns. -/
theorem propagate_leaves_eq (P : Prims) (g : Graph) (root : Nat) (rank : Nat → Nat)
    (S : List Nat) (fuel1 fuel2 : Nat) (hac : Acyclic g rank) (hwl : WellLinked g)
    (har : ArityOK g root) (hnd : S.Nodup) (hS : ∀ l ∈ S, getChildren g l = [])
    (hleaves : ∀ l, Under g root l → getChildren g l = [] → l ∈ S)
    (hf1 : rank root < fuel1) (hf2 : S.length + g.length ≤ fuel2) :
    ∃ h1 h2 m, expression.propagate P fuel1 g root = .ok (h1, m) ∧
      expression.propagate_leaves P fuel2 g root S = .ok (h2, m) := by
  have hnot : ¬ TaggedInterior g root := by
    rintro ⟨w, hw, hch, hop⟩
    have h1 := har w hw hch
    rw [hop] at h1
    have h2 : 0 < (getChildren g w).length := List.length_pos.2 hch
    simp only [numOpArgs] at h1
    omega
  obtain ⟨h1, hrun1, hl1⟩ :=
    (_rpropagate_spec P g rank hac fuel1 g root (SameLinks.refl g) hf1).2 hnot
  have hkeep := (_rpropagate_keeps P fuel1 g root h1 hrun1).2.1
  have hset : Settled P h1 root := _rpropagate_settles P rank fuel1 g root h1 hac hrun1
  have hm0 : fwdMeasure ⟨g, S, fun _ => 0⟩ ≤ fuel2 := by
    have := List.countP_le_length
      (fun p => decide ((0 : Int) < numOpArgs (getOp g p))) (l := List.range g.length)
    simp only [List.length_range] at this
    simp only [fwdMeasure]
    omega
  obtain ⟨s', hrun2⟩ := propagateLoop_ok P fuel2 ⟨g, S, fun _ => 0⟩ hm0
    (fun _ => Int.le_refl 0)
  have hinit : ∃ done, FwdInv g h1 root S ⟨g, S, fun _ => 0⟩ done [] := by
    refine ⟨[], SameLinks.refl g, ?_, ?_, ?_, ?_, ?_, ?_, ?_⟩
    · intro w hw _
      rcases hw with hw | hw
      · exact (hkeep w (hS w hw)).symm
      · simp at hw
    · intro p; simp
    · simpa using hnd
    · intro p hp1 hp2; exfalso; simp only at hp2; omega
    · intro l hl; exact Or.inl hl
    · intro p hp
      rcases hp with hp | hp
      · exact Or.inl hp
      · simp at hp
    · intro p hp; simp at hp
  have hfin := propagateLoop_inv P (fun s => ∃ done, FwdInv g h1 root S s done [])
    (by
      rintro s v q s1 ⟨done, hinv⟩ hq hb
      have hd := hinv.dequeue_fwd hwl hq
      rw [(hinv.links.2 v).2.2] at hb
      exact ⟨v :: done, FwdInv.parents P har hS hl1 hset _ _ s1 hd hb⟩)
    fuel2 _ s' hinit hrun2
  obtain ⟨⟨done, hinv⟩, hq⟩ := hfin
  have hroot : root ∈ done :=
    FwdInv.complete_fwd hac har hleaves hinv hq (rank root + 1) root (Nat.lt_succ_self _)
      Relation.ReflTransGen.refl
  refine ⟨h1, s'.g, getValue h1 root, ?_, ?_⟩
  · simp [expression.propagate, hrun1]
  · simp only [expression.propagate_leaves, hrun2]
    rw [hinv.vals root (Or.inr hroot) Relation.ReflTransGen.refl]

/-! ## Leaf discovery -/

theorem children_nil_of_rank_zero {g : Graph} {rank : Nat → Nat} (hac : Acyclic g rank)
    {v : Nat} (h : rank v = 0) : getChildren g v = [] := by
  cases hc : getChildren g v with
  | nil => rfl
  | cons c cs =>
    have := hac.lt (show c ∈ getChildren g v by rw [hc]; exact List.mem_cons_self _ _)
    omega

theorem walkCost_stable {g : Graph} {rank : Nat → Nat} (hac : Acyclic g rank) :
    ∀ (d : Nat) (v : Nat) (d' : Nat), rank v ≤ d → rank v ≤ d' →
      walkCost g d v = walkCost g d' v := by
  intro d
  induction d with
  | zero =>
    intro v d' h _
    have hch := children_nil_of_rank_zero hac (Nat.le_zero.1 h)
    cases d' with
    | zero => rfl
    | succ k => simp [walkCost, hch]
  | succ d ih =>
    intro v d' h h'
    cases d' with
    | zero =>
      have hch := children_nil_of_rank_zero hac (Nat.le_zero.1 h')
      simp [walkCost, hch]
    | succ k =>
      simp only [walkCost]
      congr 2
      apply List.map_congr_left
      intro c hc
      have := hac.lt hc
      exact ih c k (by omega) (by omega)

theorem walkCost_interior {g : Graph} {rank : Nat → Nat} (hac : Acyclic g rank) (v : Nat)
    (hch : getChildren g v ≠ []) :
    walkCost g (rank v) v
      = 1 + ((getChildren g v).map (fun c => walkCost g (rank c) c)).sum := by
  cases hr : rank v with
  | zero => exact absurd (children_nil_of_rank_zero hac hr) hch
  | succ d =>
    simp only [walkCost]
    congr 2
    apply List.map_congr_left
    intro c hc
    have := hac.lt hc
    exact walkCost_stable hac d c (rank c) (by omega) (Nat.le_refl _)

theorem under_of_childless {g : Graph} {v l : Nat} (hch : getChildren g v = [])
    (h : Under g v l) : l = v := by
  rcases Relation.ReflTransGen.cases_head h with h1 | ⟨c, hc, _⟩
  · exact h1.symm
  · rw [hch] at hc; simp at hc

theorem mem_setInsert (s : List Nat) (v l : Nat) : l ∈ setInsert s v ↔ l ∈ s ∨ l = v := by
  unfold setInsert
  split
  · rename_i h
    constructor
    · exact Or.inl
    · rintro (h1 | h1)
      · exact h1
      · rw [h1]; exact h
  · simp

theorem nodup_setInsert (s : List Nat) (v : Nat) (h : s.Nodup) : (setInsert s v).Nodup := by
  unfold setInsert
  split
  · exact h
  · rename_i hv
    exact List.Nodup.append h (List.nodup_singleton v) (by simpa using hv)

/-- `findLeaves` on an acyclic graph: with fuel of the walk cost of the queue
the loop returns, and the set returned is the set it started with plus the
childless nodes under the queued nodes. -/
theorem findLeavesLoop_spec (g : Graph) (rank : Nat → Nat) (hac : Acyclic g rank) :
    ∀ (fuel : Nat) (q acc : List Nat),
      (q.map (fun v => walkCost g (rank v) v)).sum ≤ fuel →
      ∃ r, findLeavesLoop g fuel q acc = some r ∧
        (∀ l, l ∈ r ↔ l ∈ acc ∨ ∃ v ∈ q, Under g v l ∧ getChildren g l = []) ∧
        (acc.Nodup → r.Nodup) := by
  have hpos : ∀ v, 1 ≤ walkCost g (rank v) v := by
    intro v
    cases rank v <;> simp [walkCost]
  intro fuel
  induction fuel with
  | zero =>
    intro q acc h
    cases q with
    | nil => exact ⟨acc, by simp [findLeavesLoop], by simp, fun h => h⟩
    | cons v q =>
      have := hpos v
      simp only [List.map_cons, List.sum_cons] at h
      omega
  | succ fuel ih =>
    intro q acc h
    cases q with
    | nil => exact ⟨acc, by simp [findLeavesLoop], by simp, fun h => h⟩
    | cons v q =>
      simp only [List.map_cons, List.sum_cons] at h
      simp only [findLeavesLoop]
      split
      · rename_i hch
        have := hpos v
        obtain ⟨r, hr, hmem, hnd⟩ := ih q (setInsert acc v) (by omega)
        refine ⟨r, hr, ?_, fun hacc => hnd (nodup_setInsert acc v hacc)⟩
        intro l
        rw [hmem, mem_setInsert]
        constructor
        · rintro ((h1 | h1) | ⟨w, hw, h1⟩)
          · exact Or.inl h1
          · subst h1
            exact Or.inr ⟨l, List.mem_cons_self _ _, Relation.ReflTransGen.refl, hch⟩
          · exact Or.inr ⟨w, List.mem_cons_of_mem _ hw, h1⟩
        · rintro (h1 | ⟨w, hw, h1, h2⟩)
          · exact Or.inl (Or.inl h1)
          · rcases List.mem_cons.1 hw with h3 | h3
            · subst h3
              exact Or.inl (Or.inr (under_of_childless hch h1))
            · exact Or.inr ⟨w, h3, h1, h2⟩
      · rename_i hch
        rw [walkCost_interior hac v hch] at h
        obtain ⟨r, hr, hmem, hnd⟩ := ih (q ++ getChildren g v) acc
          (by simp only [List.map_append, List.sum_append]; omega)
        refine ⟨r, hr, ?_, hnd⟩
        intro l
        rw [hmem]
        constructor
        · rintro (h1 | ⟨w, hw, h1, h2⟩)
          · exact Or.inl h1
          · rcases List.mem_append.1 hw with h3 | h3
            · exact Or.inr ⟨w, List.mem_cons_of_mem _ h3, h1, h2⟩
            · exact Or.inr ⟨v, List.mem_cons_self _ _,
                Relation.ReflTransGen.head h3 h1, h2⟩
        · rintro (h1 | ⟨w, hw, h1, h2⟩)
          · exact Or.inl h1
          · rcases List.mem_cons.1 hw with h3 | h3
            · subst h3
              rcases Relation.ReflTransGen.cases_head h1 with h4 | ⟨c, hc, hcl⟩
              · subst h4; exact absurd h2 hch
              · exact Or.inr ⟨c, List.mem_append_right _ hc, hcl, h2⟩
            · exact Or.inr ⟨w, List.mem_append_left _ h3, h1, h2⟩

/-- `findLeaves()` on an acyclic graph returns, without duplicates, exactly
the childless nodes under the root. -/
theorem findLeaves_spec (g : Graph) (root : Nat) (rank : Nat → Nat) (hac : Acyclic g rank)
    (fuel : Nat) (hf : walkCost g (rank root) root ≤ fuel) :
    ∃ leaves, expression.findLeaves fuel g root = some leaves ∧ leaves.Nodup ∧
      ∀ l, l ∈ leaves ↔ (Under g root l ∧ getChildren g l = []) := by
  obtain ⟨r, hr, hmem, hnd⟩ := findLeavesLoop_spec g rank hac fuel [root] []
    (by simpa using hf)
  refine ⟨r, hr, hnd List.nodup_nil, ?_⟩
  intro l
  rw [hmem]
  simp


/-! ## Scalar graphs of sums, differences and products -/

theorem _eval_scalar (P : Prims) (g : Graph) (a b : Nat) (xa xb : ℚ)
    (ha : getValue g a = scalar xa) (hb : getValue g b = scalar xb) :
    _eval P g .plus [a, b] = .ok (scalar (xa + xb)) ∧
    _eval P g .minus [a, b] = .ok (scalar (xa - xb)) ∧
    _eval P g .multiply [a, b] = .ok (scalar (xa * xb)) := by
  refine ⟨?_, ?_, ?_⟩ <;>
    simp [_eval, operand, ha, hb, is_scalar, scalar, MatrixXd.size, mval, sval,
      MatrixXd.coeff, MatrixXd.map]

theorem _back_scalar (P : Prims) (g : Graph) (a b : Nat) (xa xb x : ℚ)
    (ha : getValue g a = scalar xa) (hb : getValue g b = scalar xb) :
    _back P g .plus [a, b] (scalar x) = .ok [scalar x, scalar x] ∧
    _back P g .minus [a, b] (scalar x) = .ok [scalar x, scalar (-x)] ∧
    _back P g .multiply [a, b] (scalar x) = .ok [scalar (x * xb), scalar (x * xa)] := by
  refine ⟨?_, ?_, ?_⟩ <;>
    simp [_back, _back_from, _back_single, operand, ha, hb, is_scalar, scalar,
      MatrixXd.size, mval, MatrixXd.zip, MatrixXd.sum, MatrixXd.map]

theorem sval_scalar (x : ℚ) : sval (scalar x) = x := by
  simp [sval, scalar, MatrixXd.coeff]

theorem ScalarDag.children_pair {g : Graph} {root : Nat} {rank : Nat → Nat}
    (hd : ScalarDag g root rank) {v : Nat} (hv : Under g root v)
    (hch : getChildren g v ≠ []) : ∃ a b, getChildren g v = [a, b] :=
  List.length_eq_two.1 (hd.binary v hv hch).2

theorem NodePoly.exists_of_scalarDag {g : Graph} {root : Nat} {rank : Nat → Nat}
    (hd : ScalarDag g root rank) :
    ∀ (n v : Nat), rank v < n → Under g root v → ∃ p, NodePoly g v p := by
  intro n
  induction n with
  | zero => intro v h; omega
  | succ n ih =>
    intro v hv hu
    by_cases hch : getChildren g v = []
    · exact ⟨_, NodePoly.leaf v hch⟩
    · obtain ⟨a, b, hab⟩ := hd.children_pair hu hch
      have ha : a ∈ getChildren g v := by rw [hab]; simp
      have hb : b ∈ getChildren g v := by rw [hab]; simp
      obtain ⟨p, hp⟩ := ih a (by have := hd.acyclic.lt ha; omega)
        (Relation.ReflTransGen.tail hu ha)
      obtain ⟨q, hq⟩ := ih b (by have := hd.acyclic.lt hb; omega)
        (Relation.ReflTransGen.tail hu hb)
      rcases (hd.binary v hu hch).1 with hop | hop | hop
      · exact ⟨_, NodePoly.plus v a b p q hop hab hp hq⟩
      · exact ⟨_, NodePoly.minus v a b p q hop hab hp hq⟩
      · exact ⟨_, NodePoly.multiply v a b p q hop hab hp hq⟩

theorem NodePoly.unique {g : Graph} {v : Nat} {p p' : MvPolynomial Nat ℚ}
    (h : NodePoly g v p) (h' : NodePoly g v p') : p = p' := by
  induction h generalizing p' with
  | leaf v hch =>
    cases h' with
    | leaf _ _ => rfl
    | plus _ a b _ _ _ hab _ _ => rw [hch] at hab; cases hab
    | minus _ a b _ _ _ hab _ _ => rw [hch] at hab; cases hab
    | multiply _ a b _ _ _ hab _ _ => rw [hch] at hab; cases hab
  | plus v a b p q hop hab _ _ iha ihb =>
    cases h' with
    | leaf _ hch => rw [hch] at hab; cases hab
    | plus _ a' b' p1 q1 _ hab' ha' hb' =>
      rw [hab] at hab'; cases hab'
      rw [iha ha', ihb hb']
    | minus _ a' b' _ _ hop' _ _ _ => rw [hop] at hop'; cases hop'
    | multiply _ a' b' _ _ hop' _ _ _ => rw [hop] at hop'; cases hop'
  | minus v a b p q hop hab _ _ iha ihb =>
    cases h' with
    | leaf _ hch => rw [hch] at hab; cases hab
    | minus _ a' b' p1 q1 _ hab' ha' hb' =>
      rw [hab] at hab'; cases hab'
      rw [iha ha', ihb hb']
    | plus _ a' b' _ _ hop' _ _ _ => rw [hop] at hop'; cases hop'
    | multiply _ a' b' _ _ hop' _ _ _ => rw [hop] at hop'; cases hop'
  | multiply v a b p q hop hab _ _ iha ihb =>
    cases h' with
    | leaf _ hch => rw [hch] at hab; cases hab
    | multiply _ a' b' p1 q1 _ hab' ha' hb' =>
      rw [hab] at hab'; cases hab'
      rw [iha ha', ihb hb']
    | plus _ a' b' _ _ hop' _ _ _ => rw [hop] at hop'; cases hop'
    | minus _ a' b' _ _ hop' _ _ _ => rw [hop] at hop'; cases hop'

/-- In an evaluated graph with scalar leaves, the value cached in a node under
the root is the `1 x 1` tensor holding the value of its polynomial at the
leaf values. -/
theorem NodePoly.value (P : Prims) {g h : Graph} {root : Nat}
    (hl : SameLinks g h) (hset : Settled P h root)
    (hleafv : ∀ l, Under g root l → getChildren g l = [] →
      getValue h l = scalar (leafVal g l)) {v : Nat} {p : MvPolynomial Nat ℚ}
    (hp : NodePoly g v p) (hv : Under g root v) :
    getValue h v = scalar (MvPolynomial.eval (leafVal g) p) := by
  induction hp with
  | leaf v hch => rw [MvPolynomial.eval_X]; exact hleafv v hv hch
  | plus v a b p q hop hab _ _ iha ihb =>
    have ha := iha (Relation.ReflTransGen.tail hv (by rw [hab]; simp))
    have hb := ihb (Relation.ReflTransGen.tail hv (by rw [hab]; simp))
    have h1 := hset v ((Under.sameLinks_iff hl).2 hv) (by rw [(hl.2 v).2.1, hab]; simp)
    rw [(hl.2 v).1, (hl.2 v).2.1, hop, hab, (_eval_scalar P h a b _ _ ha hb).1] at h1
    rw [← Except.ok.inj h1, map_add]
  | minus v a b p q hop hab _ _ iha ihb =>
    have ha := iha (Relation.ReflTransGen.tail hv (by rw [hab]; simp))
    have hb := ihb (Relation.ReflTransGen.tail hv (by rw [hab]; simp))
    have h1 := hset v ((Under.sameLinks_iff hl).2 hv) (by rw [(hl.2 v).2.1, hab]; simp)
    rw [(hl.2 v).1, (hl.2 v).2.1, hop, hab, (_eval_scalar P h a b _ _ ha hb).2.1] at h1
    rw [← Except.ok.inj h1, map_sub]
  | multiply v a b p q hop hab _ _ iha ihb =>
    have ha := iha (Relation.ReflTransGen.tail hv (by rw [hab]; simp))
    have hb := ihb (Relation.ReflTransGen.tail hv (by rw [hab]; simp))
    have h1 := hset v ((Under.sameLinks_iff hl).2 hv) (by rw [(hl.2 v).2.1, hab]; simp)
    rw [(hl.2 v).1, (hl.2 v).2.1, hop, hab, (_eval_scalar P h a b _ _ ha hb).2.2] at h1
    rw [← Except.ok.inj h1, map_mul]


/-! ## The backward loop on a scalar graph: scheduling -/

theorem ScalarDag.root_no_parents {g : Graph} {root : Nat} {rank : Nat → Nat}
    (hd : ScalarDag g root rank) : getParents g root = [] := by
  cases hp : getParents g root with
  | nil => rfl
  | cons p ps =>
    have hmem : p ∈ getParents g root := by rw [hp]; exact List.mem_cons_self _ _
    have h1 : Under g root p := hd.closed root Relation.ReflTransGen.refl p hmem
    have h2 := Under.rank_le hd.acyclic h1
    have h3 : 0 < (getParents g root).count p := List.count_pos_iff.2 hmem
    rw [wellLinked_count hd.linked] at h3
    have h4 := hd.acyclic.lt (List.count_pos_iff.1 h3)
    omega

theorem mem_parents_of_mem_children {g : Graph} (hwl : WellLinked g) {p c : Nat}
    (h : c ∈ getChildren g p) : p ∈ getParents g c := by
  have h1 : 0 < (getChildren g p).count c := List.count_pos_iff.2 h
  rw [← wellLinked_count hwl] at h1
  exact List.count_pos_iff.1 h1

theorem pending_update (g : Graph) (q : List Nat) (d : Nat → Option MatrixXd)
    (e : Nat → Option Int) (c0 : Nat) (k : Int) (c : Nat) :
    pending g ⟨q, d, Function.update e c0 (some k)⟩ c
      = if c = c0 then k else pending g ⟨q, d, e⟩ c := by
  by_cases h : c = c0
  · subst h; simp [pending]
  · simp [pending, Function.update, h]

theorem pending_eq_zero_of_explored {g : Graph} {s : BackState} {c : Nat}
    (h : s.explored c = some 0) : pending g s c = 0 := by
  simp [pending, h]

/-- One dequeue in the backward loop. -/
theorem BackInv.dequeue_back {g : Graph} {root : Nat} {rank : Nat → Nat} {s : BackState}
    {done : List Nat} (hd : ScalarDag g root rank) (hinv : BackInv g root s done [])
    {v : Nat} {q : List Nat} (hq : s.q = v :: q) :
    BackInv g root ⟨q, s.derivatives, s.explored⟩ (v :: done) (getChildren g v) ∧ v ∉ done ∧
      (∀ c ∈ getChildren g v, c ∉ v :: done) := by
  have hnd : (v :: (q ++ done)).Nodup := by
    have := hinv.nodup; rw [hq] at this; simpa using this
  have hv : v ∉ done := fun h => (List.nodup_cons.1 hnd).1 (List.mem_append_right _ h)
  have hmem : ∀ w, (w ∈ q ∨ w ∈ v :: done) ↔ (w ∈ s.q ∨ w ∈ done) := by
    intro w; rw [hq]; simp only [List.mem_cons]; tauto
  have hvu : Under g root v := hinv.under v (by rw [hq]; simp)
  have hnoroot : root ∉ getChildren g v := by
    intro h
    have := mem_parents_of_mem_children hd.linked h
    rw [hd.root_no_parents] at this
    simp at this
  refine ⟨⟨List.nodup_middle.2 hnd, ?_, ?_, hnoroot, ?_, ?_, ?_, ?_, hinv.touched, hinv.entry,
    hinv.noEntry⟩, hv, ?_⟩
  · intro w hw; exact hinv.under w ((hmem w).1 hw)
  · intro c hc; exact Relation.ReflTransGen.tail hvu hc
  · intro c
    have h1 := hinv.count c
    simp only [List.count_nil, Nat.cast_zero, add_zero] at h1
    rw [countP_mem_cons _ _ _ hv, wellLinked_count hd.linked]
    have h2 : pending g ⟨q, s.derivatives, s.explored⟩ c = pending g s c := rfl
    rw [h2]
    push_cast
    omega
  · intro c hc1 hc2; exact (hmem c).2 (hinv.ready c hc1 hc2)
  · intro c hc; exact hinv.origin c ((hmem c).1 hc)
  · exact (hmem root).2 hinv.rootIn
  · intro c hc hcd
    rcases List.mem_cons.1 hcd with h1 | h1
    · have := hd.acyclic.lt hc
      rw [h1] at this
      omega
    · rcases hinv.origin c (Or.inr h1) with h2 | h2
      · rw [h2] at hc; exact hnoroot hc
      · have h3 := hinv.count c
        rw [pending_eq_zero_of_explored h2] at h3
        simp only [List.count_nil, Nat.cast_zero, add_zero, zero_add] at h3
        have h4 := mem_of_countP_eq_length (getParents g c) done (by omega)
        exact hv (h4 v (mem_parents_of_mem_children hd.linked hc))

/-- The children loop keeps the scheduling invariant, for contributions that
are `1 x 1` tensors to children whose values are `1 x 1` tensors. -/
theorem BackInv.children {g : Graph} {root : Nat} {done : List Nat}
    (hval : ∀ v, Under g root v → ∃ x, getValue g v = scalar x) :
    ∀ (l : List (Nat × MatrixXd)) (s : BackState),
      BackInv g root s done (l.map Prod.fst) → (∀ cd ∈ l, ∃ y, cd.2 = scalar y) →
      BackInv g root (backChildren g l s) done [] := by
  intro l
  induction l with
  | nil => intro s hinv _; exact hinv
  | cons hd0 l ih =>
    intro s hinv hcd
    obtain ⟨c0, cd0⟩ := hd0
    rw [backChildren_cons]
    simp only [List.map_cons] at hinv
    have hc0u : Under g root c0 := hinv.restUnder c0 (List.mem_cons_self _ _)
    have hc0r : c0 ≠ root := fun h => hinv.restNoRoot (by rw [h]; exact List.mem_cons_self _ _)
    have hpos : 1 ≤ pending g s c0 := by
      have h1 := hinv.count c0
      have h2 : (getParents g c0).countP (fun p => decide (p ∈ done)) ≤ (getParents g c0).length :=
        List.countP_le_length _
      simp only [List.count_cons_self] at h1
      push_cast at h1
      have h3 : (0 : Int) ≤ ((l.map Prod.fst).count c0 : Int) := Int.natCast_nonneg _
      omega
    have hfresh : ¬ (c0 ∈ s.q ∨ c0 ∈ done) := by
      intro hmem
      rcases hinv.origin c0 hmem with h1 | h1
      · exact hc0r h1
      · rw [pending_eq_zero_of_explored h1] at hpos; omega
    obtain ⟨y0, hy0⟩ := hcd (c0, cd0) (List.mem_cons_self _ _)
    simp only at hy0
    obtain ⟨x0, hx0⟩ := hval c0 hc0u
    apply ih
    · refine ⟨?_, ?_, ?_, ?_, ?_, ?_, ?_, ?_, ?_, ?_, ?_⟩
      · simp only
        split
        · rw [List.append_assoc]
          simp only [List.singleton_append]
          apply List.nodup_middle.2
          exact List.nodup_cons.2 ⟨fun h => hfresh (List.mem_append.1 h), hinv.nodup⟩
        · exact hinv.nodup
      · intro w hw
        simp only at hw
        split at hw
        · rcases hw with hw | hw
          · rcases List.mem_append.1 hw with h1 | h1
            · exact hinv.under w (Or.inl h1)
            · have : w = c0 := by simpa using h1
              rw [this]; exact hc0u
          · exact hinv.under w (Or.inr hw)
        · exact hinv.under w hw
      · intro c hc; exact hinv.restUnder c (List.mem_cons_of_mem _ hc)
      · intro h; exact hinv.restNoRoot (List.mem_cons_of_mem _ h)
      · intro c
        have h1 := hinv.count c
        rw [pending_update]
        by_cases hc : c = c0
        · subst hc
          simp only [List.count_cons_self, if_true] at h1 ⊢
          push_cast at h1
          have h2 : pending g ⟨s.q, s.derivatives, s.explored⟩ c = pending g s c := rfl
          omega
        · have hne : ¬ (c0 == c) = true := by simpa using fun h => hc h.symm
          simp only [List.count_cons, hne, if_false, hc] at h1 ⊢
          have h2 : ∀ q d, pending g ⟨q, d, s.explored⟩ c = pending g s c := fun _ _ => rfl
          rw [h2]
          simpa using h1
      · intro c hc1 hc2
        simp only at hc2 ⊢
        by_cases hc : c = c0
        · subst hc
          simp only [Function.update_same, Option.some.injEq] at hc2
          rw [if_pos ⟨hc1, hc2⟩]
          exact Or.inl (List.mem_append_right _ (List.mem_singleton_self _))
        · simp only [Function.update, hc, dite_false] at hc2
          rcases hinv.ready c hc1 hc2 with h1 | h1
          · left
            split
            · exact List.mem_append_left _ h1
            · exact h1
          · exact Or.inr h1
      · intro c hc
        simp only at hc ⊢
        by_cases hcc : c = c0
        · subst hcc
          right
          split at hc
          · rename_i hpush
            simp only [Function.update_same, hpush.2]
          · exact absurd hc hfresh
        · simp only [Function.update, hcc, dite_false]
          apply hinv.origin c
          split at hc
          · rcases hc with hc | hc
            · rcases List.mem_append.1 hc with h1 | h1
              · exact Or.inl h1
              · exact absurd (by simpa using h1) hcc
            · exact Or.inr hc
          · exact hc
      · simp only
        rcases hinv.rootIn with h1 | h1
        · left
          split
          · exact List.mem_append_left _ h1
          · exact h1
        · exact Or.inr h1
      · intro c hc
        simp only at hc
        by_cases hcc : c = c0
        · rw [hcc]; exact hc0u
        · simp only [Function.update, hcc, dite_false] at hc
          exact hinv.touched c hc
      · intro c hc
        simp only at hc ⊢
        by_cases hcc : c = c0
        · subst hcc
          simp only [Function.update_same, Option.some.injEq]
          cases hdc : s.derivatives c with
          | none =>
            simp only [hx0, hy0]
            exact ⟨0 + y0, by simp [zeros_like, MatrixXd.const, MatrixXd.zip, scalar]⟩
          | some m =>
            have hc' : c = root ∨ s.explored c ≠ none := by
              by_contra hcon
              push_neg at hcon
              have := hinv.noEntry c hcon.1 hcon.2
              rw [hdc] at this
              cases this
            obtain ⟨x, hx⟩ := hinv.entry c hc'
            rw [hdc] at hx
            cases hx
            exact ⟨x + y0, by simp [hy0, MatrixXd.zip, scalar]⟩
        · simp only [Function.update, hcc, dite_false] at hc ⊢
          exact hinv.entry c hc
      · intro c hc1 hc2
        simp only at hc2 ⊢
        by_cases hcc : c = c0
        · subst hcc
          simp only [Function.update_same] at hc2
          cases hc2
        · simp only [Function.update, hcc, dite_false] at hc2 ⊢
          exact hinv.noEntry c hc1 hc2
    · intro cd hcd'; exact hcd cd (List.mem_cons_of_mem _ hcd')


/-! ## The backward loop on a scalar graph: the accumulated gradients -/

theorem mem_children_of_mem_parents {g : Graph} (hwl : WellLinked g) {p c : Nat}
    (h : p ∈ getParents g c) : c ∈ getChildren g p := by
  have h1 : 0 < (getParents g c).count p := List.count_pos_iff.2 h
  rw [wellLinked_count hwl] at h1
  exact List.count_pos_iff.1 h1

theorem sval_derivAt_none (d : Nat → Option MatrixXd) (c : Nat) (h : d c = none) :
    sval (derivAt d c) = 0 := by
  simp [derivAt, h, sval, MatrixXd.coeff, MatrixXd.empty]

theorem BackInv.entries_scalar {g : Graph} {root : Nat} {s : BackState} {done rest : List Nat}
    (hinv : BackInv g root s done rest) (c : Nat) (m : MatrixXd)
    (h : s.derivatives c = some m) : ∃ x, m = scalar x := by
  have hc' : c = root ∨ s.explored c ≠ none := by
    by_contra hcon
    push_neg at hcon
    have := hinv.noEntry c hcon.1 hcon.2
    rw [h] at this
    cases this
  obtain ⟨x, hx⟩ := hinv.entry c hc'
  rw [h] at hx
  exact ⟨x, Option.some.inj hx⟩

/-- The accumulated gradient of a node after the children loop is what it was
plus the contributions addressed to the node. -/
theorem backChildren_sval (g : Graph) :
    ∀ (l : List (Nat × MatrixXd)) (s : BackState),
      (∀ cd ∈ l, ∃ x, getValue g cd.1 = scalar x) → (∀ cd ∈ l, ∃ y, cd.2 = scalar y) →
      (∀ c m, s.derivatives c = some m → ∃ x, m = scalar x) →
      ∀ c, sval (derivAt (backChildren g l s).derivatives c)
        = sval (derivAt s.derivatives c)
          + ((l.filter (fun cd => decide (cd.1 = c))).map (fun cd => sval cd.2)).sum := by
  intro l
  induction l with
  | nil => intro s _ _ _ c; simp [backChildren]
  | cons hd0 l ih =>
    intro s hval hcd hs c
    obtain ⟨c0, cd0⟩ := hd0
    obtain ⟨x0, hx0⟩ := hval (c0, cd0) (List.mem_cons_self _ _)
    obtain ⟨y0, hy0⟩ := hcd (c0, cd0) (List.mem_cons_self _ _)
    simp only at hx0 hy0
    rw [backChildren_cons]
    have hnew : (s.derivatives c0).getD (zeros_like (getValue g c0))
        = scalar (sval (derivAt s.derivatives c0)) := by
      cases hdc : s.derivatives c0 with
      | none =>
        simp [derivAt, hdc, hx0, zeros_like, MatrixXd.const, scalar, sval, MatrixXd.coeff,
          MatrixXd.empty]
      | some m =>
        obtain ⟨x, hx⟩ := hs c0 m hdc
        simp [derivAt, hdc, hx, sval_scalar]
    rw [ih _ (fun cd h => hval cd (List.mem_cons_of_mem _ h))
      (fun cd h => hcd cd (List.mem_cons_of_mem _ h)) ?_ c]
    · simp only [hnew, hy0]
      by_cases hc : c0 = c
      · subst hc
        simp [derivAt, MatrixXd.zip, scalar, sval, MatrixXd.coeff, List.filter_cons]
        ring
      · have hc' : c ≠ c0 := fun h => hc h.symm
        simp [derivAt, Function.update, hc, hc', List.filter_cons]
    · intro c' m hm
      simp only at hm
      by_cases hc : c' = c0
      · subst hc
        simp only [Function.update_same, Option.some.injEq] at hm
        rw [← hm, hnew, hy0]
        exact ⟨_, by simp [MatrixXd.zip, scalar]; rfl⟩
      · simp only [Function.update, hc, dite_false] at hm
        exact hs c' m hm


theorem gradientSum_cons_childless (g : Graph) (s : BackState) (done : List Nat)
    (dv : Nat → ℚ) (v : Nat) (hch : getChildren g v = []) :
    gradientSum g s (v :: done) dv = gradientSum g s done dv := by
  unfold gradientSum
  apply Finset.sum_congr rfl
  intro c _
  by_cases hcv : c = v
  · subst hcv; simp [hch]
  · simp [hcv]

/-- Processing a node with the children `a`, `b` changes the sum by the
contributions minus the term of the node. -/
theorem gradientSum_step (g : Graph) (s s1 : BackState) (done : List Nat) (dv : Nat → ℚ)
    (v a b : Nat) (x ya yb : ℚ) (hv : v < g.length) (ha : a < g.length) (hb : b < g.length)
    (hvd : v ∉ done) (had : a ∉ v :: done) (hbd : b ∉ v :: done)
    (hch : getChildren g v ≠ []) (hx : sval (derivAt s.derivatives v) = x)
    (h1 : ∀ c, sval (derivAt s1.derivatives c)
      = sval (derivAt s.derivatives c) + ((if a = c then ya else 0) + (if b = c then yb else 0))) :
    gradientSum g s1 (v :: done) dv
      = gradientSum g s done dv + (ya * dv a + yb * dv b - x * dv v) := by
  have hav : a ≠ v := fun h => had (by rw [h]; exact List.mem_cons_self _ _)
  have hbv : b ≠ v := fun h => hbd (by rw [h]; exact List.mem_cons_self _ _)
  have had' : a ∉ done := fun h => had (List.mem_cons_of_mem _ h)
  have hbd' : b ∉ done := fun h => hbd (List.mem_cons_of_mem _ h)
  have hpt : ∀ c ∈ Finset.range g.length,
      (if c ∈ v :: done ∧ getChildren g c ≠ [] then 0
        else sval (derivAt s1.derivatives c) * dv c)
      = (if c ∈ done ∧ getChildren g c ≠ [] then 0
          else sval (derivAt s.derivatives c) * dv c)
        + ((if c = a then ya * dv a else 0) + (if c = b then yb * dv b else 0)
          - (if c = v then x * dv v else 0)) := by
    intro c _
    rw [h1 c]
    by_cases hcv : c = v
    · subst hcv
      have h2 : ¬ c = a := fun h => hav h.symm
      have h3 : ¬ c = b := fun h => hbv h.symm
      simp [hch, hvd, h2, h3, hx]
    · by_cases hcd : c ∈ done
      · have h2 : ¬ c = a := fun h => had' (h ▸ hcd)
        have h3 : ¬ c = b := fun h => hbd' (h ▸ hcd)
        have h2' : ¬ a = c := fun h => h2 h.symm
        have h3' : ¬ b = c := fun h => h3 h.symm
        by_cases hcc : getChildren g c = []
        · simp [hcv, hcd, hcc, h2, h3, h2', h3']
        · simp [hcv, hcd, hcc, h2, h3]
      · by_cases hca : c = a
        · subst hca
          by_cases hcb : c = b
          · subst hcb
            simp [hcv, hcd]
            ring
          · have hcb' : ¬ b = c := fun h => hcb h.symm
            simp [hcv, hcd, hcb, hcb']
            ring
        · have hca' : ¬ a = c := fun h => hca h.symm
          by_cases hcb : c = b
          · subst hcb
            simp [hcv, hcd, hca, hca']
            ring
          · have hcb' : ¬ b = c := fun h => hcb h.symm
            simp [hcv, hcd, hca, hca', hcb, hcb']
  unfold gradientSum
  rw [Finset.sum_congr rfl hpt, Finset.sum_add_distrib, Finset.sum_sub_distrib,
    Finset.sum_add_distrib, Finset.sum_ite_eq', Finset.sum_ite_eq', Finset.sum_ite_eq']
  simp [hv, ha, hb]

/-- The body of the unrestricted loop, on a scalar graph, keeps the scheduling
invariant and the gradient sum. -/
theorem backBody_scalar (P : Prims) {g : Graph} {root : Nat} {rank : Nat → Nat}
    (hd : ScalarDag g root rank) (val : Nat → ℚ)
    (hval : ∀ v, Under g root v → getValue g v = scalar (val v))
    (l : Nat) (dv : Nat → ℚ) (hr : DerivRules g root val l dv)
    {s s1 : BackState} {done : List Nat} {v : Nat} {q : List Nat}
    (hinv : BackInv g root s done []) (hT : gradientSum g s done dv = dv root)
    (hq : s.q = v :: q)
    (hb : backBody P g none v ⟨q, s.derivatives, s.explored⟩ = .ok s1) :
    BackInv g root s1 (v :: done) [] ∧ gradientSum g s1 (v :: done) dv = dv root := by
  obtain ⟨hdq, hvd, hfresh⟩ := hinv.dequeue_back hd hq
  have hvu : Under g root v := hinv.under v (by rw [hq]; simp)
  have hval' : ∀ w, Under g root w → ∃ x, getValue g w = scalar x :=
    fun w hw => ⟨_, hval w hw⟩
  by_cases hch : getChildren g v = []
  · have hs1 : s1 = ⟨q, s.derivatives, s.explored⟩ := by
      simp only [backBody, hch, _back, _back_from, List.zip_nil_left, backChildren,
        Except.ok.injEq] at hb
      exact hb.symm
    rw [hs1]
    rw [hch] at hdq
    refine ⟨hdq, ?_⟩
    rw [gradientSum_cons_childless g _ done dv v hch]
    exact hT
  · obtain ⟨a, b, hab⟩ := hd.children_pair hvu hch
    have ham : a ∈ getChildren g v := by rw [hab]; simp
    have hbm : b ∈ getChildren g v := by rw [hab]; simp
    have hau : Under g root a := Relation.ReflTransGen.tail hvu ham
    have hbu : Under g root b := Relation.ReflTransGen.tail hvu hbm
    obtain ⟨x, hx⟩ := hinv.entry v (by
      rcases hinv.origin v (by rw [hq]; simp) with h | h
      · exact Or.inl h
      · exact Or.inr (by rw [h]; simp))
    have hdx : derivAt s.derivatives v = scalar x := by simp [derivAt, hx]
    have hback := _back_scalar P g a b (val a) (val b) x (hval a hau) (hval b hbu)
    have key : ∀ ya yb, _back P g (getOp g v) [a, b] (scalar x) = .ok [scalar ya, scalar yb] →
        ya * dv a + yb * dv b = x * dv v →
        BackInv g root s1 (v :: done) [] ∧ gradientSum g s1 (v :: done) dv = dv root := by
      intro ya yb hbk hchain
      have hs1 : s1 = backChildren g [(a, scalar ya), (b, scalar yb)]
          ⟨q, s.derivatives, s.explored⟩ := by
        simp only [backBody, hab, hdx, hbk, List.zip_cons_cons, List.zip_nil_right,
          Except.ok.injEq] at hb
        exact hb.symm
      have hcds : ∀ cd ∈ [(a, scalar ya), (b, scalar yb)], ∃ y, cd.2 = scalar y := by
        intro cd hcd
        simp only [List.mem_cons, List.mem_singleton, List.not_mem_nil, or_false] at hcd
        rcases hcd with h | h <;> (rw [h]; exact ⟨_, rfl⟩)
      have hvals : ∀ cd ∈ [(a, scalar ya), (b, scalar yb)],
          ∃ x, getValue g cd.1 = scalar x := by
        intro cd hcd
        simp only [List.mem_cons, List.mem_singleton, List.not_mem_nil, or_false] at hcd
        rcases hcd with h | h
        · rw [h]; exact ⟨_, hval a hau⟩
        · rw [h]; exact ⟨_, hval b hbu⟩
      rw [hab] at hdq
      have hinv1 := BackInv.children hval' [(a, scalar ya), (b, scalar yb)] _ hdq hcds
      rw [← hs1] at hinv1
      refine ⟨hinv1, ?_⟩
      have hsv := backChildren_sval g [(a, scalar ya), (b, scalar yb)]
        ⟨q, s.derivatives, s.explored⟩ hvals hcds (fun c m h => hinv.entries_scalar c m h)
      rw [← hs1] at hsv
      have hlt : ∀ {w : Nat}, Under g root w → w < g.length :=
        fun hw => under_lt_length g root hd.root_lt hd.linked hw
      rw [gradientSum_step g s s1 done dv v a b x ya yb (hlt hvu) (hlt hau) (hlt hbu) hvd
        (hfresh a ham) (hfresh b hbm) hch (by rw [hdx, sval_scalar]) ?_, hT, hchain]
      · ring
      · intro c
        rw [hsv c]
        by_cases hac : a = c <;> by_cases hbc : b = c <;>
          simp [List.filter_cons, hac, hbc, sval_scalar]
    rcases (hd.binary v hvu hch).1 with hop | hop | hop
    · rw [hop] at key
      apply key x x hback.1
      rw [hr.plus v a b hvu hop hab]; ring
    · rw [hop] at key
      apply key x (-x) hback.2.1
      rw [hr.minus v a b hvu hop hab]; ring
    · rw [hop] at key
      apply key (x * val b) (x * val a) hback.2.2
      rw [hr.multiply v a b hvu hop hab]; ring


theorem backLoop_q_nil (P : Prims) (g : Graph) (r : Option (List Nat)) :
    ∀ fuel s s', backLoop P g r fuel s = .ok s' → s'.q = [] := by
  intro fuel
  induction fuel with
  | zero =>
    intro s s' hrun
    cases hq : s.q with
    | nil => rw [backLoop_nil P g r 0 s hq] at hrun; cases hrun; exact hq
    | cons v q => rw [backLoop_cons_zero P g r s v q hq] at hrun; cases hrun
  | succ fuel ih =>
    intro s s' hrun
    cases hq : s.q with
    | nil => rw [backLoop_nil P g r _ s hq] at hrun; cases hrun; exact hq
    | cons v q =>
      rw [backLoop_cons_succ P g r fuel s v q hq] at hrun
      cases hb : backBody P g r v ⟨q, s.derivatives, s.explored⟩ with
      | error e => rw [hb] at hrun; cases hrun
      | ok s1 => rw [hb] at hrun; exact ih s1 s' hrun

theorem BackInv.init {g : Graph} {root : Nat} (x : ℚ) (hroot : getValue g root = scalar x) :
    BackInv g root (backInit g root) [] [] := by
  refine ⟨by simp [backInit], ?_, by simp, by simp, ?_, ?_, ?_, by simp [backInit], ?_, ?_, ?_⟩
  · intro v hv
    have : v = root := by simpa [backInit] using hv
    rw [this]; exact Relation.ReflTransGen.refl
  · intro c; simp [pending, backInit]
  · intro c _ h; simp [backInit] at h
  · intro c hc
    left; simpa [backInit] using hc
  · intro c hc; simp [backInit] at hc
  · intro c hc
    rcases hc with hc | hc
    · subst hc
      exact ⟨1, by simp [backInit, hroot, ones_like, MatrixXd.const, scalar]⟩
    · simp [backInit] at hc
  · intro c hc _
    simp [backInit, Function.update, hc]

theorem gradientSum_init {g : Graph} {root : Nat} (x : ℚ) (hroot : getValue g root = scalar x)
    (hlt : root < g.length) (dv : Nat → ℚ) :
    gradientSum g (backInit g root) [] dv = dv root := by
  unfold gradientSum
  rw [Finset.sum_eq_single root]
  · simp [backInit, derivAt, hroot, ones_like, MatrixXd.const, sval, MatrixXd.coeff, scalar]
  · intro c _ hc
    simp [backInit, derivAt, Function.update, hc, sval, MatrixXd.coeff, MatrixXd.empty]
  · intro h; exact absurd (Finset.mem_range.2 hlt) h

/-- When the queue is empty, every node under the root that has children has
been processed. -/
theorem BackInv.complete_back {g : Graph} {root : Nat} {rank : Nat → Nat} {s : BackState}
    {done : List Nat} (hd : ScalarDag g root rank) (hinv : BackInv g root s done [])
    (hq : s.q = []) :
    ∀ (k v : Nat), rank root - rank v < k → Under g root v → getChildren g v ≠ [] →
      v ∈ done := by
  have hmem : ∀ w, (w ∈ s.q ∨ w ∈ done) → w ∈ done := by
    intro w hw
    rcases hw with hw | hw
    · rw [hq] at hw; simp at hw
    · exact hw
  intro k
  induction k with
  | zero => intro v h; omega
  | succ k ih =>
    intro v hk hvu hch
    by_cases hvr : v = root
    · rw [hvr]; exact hmem root hinv.rootIn
    · have hpar : ∀ p ∈ getParents g v, p ∈ done := by
        intro p hp
        have hpu := hd.closed v hvu p hp
        have hvp := mem_children_of_mem_parents hd.linked hp
        have h1 := hd.acyclic.lt hvp
        have h2 := Under.rank_le hd.acyclic hpu
        exact ih p (by omega) hpu (by intro h; rw [h] at hvp; simp at hvp)
      have hcnt := hinv.count v
      rw [countP_eq_length_of_mem _ _ hpar] at hcnt
      simp only [List.count_nil, Nat.cast_zero, add_zero] at hcnt
      have hpend : pending g s v = 0 := by omega
      have hne : getParents g v ≠ [] := by
        rcases Relation.ReflTransGen.cases_tail hvu with h | ⟨p, _, hpv⟩
        · exact absurd h hvr
        · intro hnil
          have := mem_parents_of_mem_children hd.linked hpv
          rw [hnil] at this
          simp at this
      have hexp : s.explored v = some 0 := by
        unfold pending at hpend
        cases he : s.explored v with
        | none =>
          rw [he] at hpend
          simp only at hpend
          have : 0 < (getParents g v).length := List.length_pos.2 hne
          omega
        | some j =>
          rw [he] at hpend
          simp only at hpend
          rw [hpend]
      have hop : getOp g v ≠ .none := by
        rcases (hd.binary v hvu hch).1 with h | h | h <;> (rw [h]; decide)
      exact hmem v (hinv.ready v hop hexp)

/-- The unrestricted backward loop on an evaluated scalar graph: the gradient
accumulated for a leaf `l` under the root is the derivative of the root with
respect to `l`, for every `dv` that obeys the derivative rules. -/
theorem backLoop_scalar (P : Prims) {g : Graph} {root : Nat} {rank : Nat → Nat}
    (hd : ScalarDag g root rank) (val : Nat → ℚ)
    (hval : ∀ v, Under g root v → getValue g v = scalar (val v))
    (l : Nat) (dv : Nat → ℚ) (hr : DerivRules g root val l dv)
    (hl : Under g root l) (hlch : getChildren g l = [])
    (fuel : Nat) (s' : BackState)
    (hrun : backLoop P g none fuel (backInit g root) = .ok s') :
    derivAt s'.derivatives l = scalar (dv root) := by
  have hq := backLoop_q_nil P g none fuel _ s' hrun
  have hfin := backLoop_inv P g none
    (fun s => ∃ done, BackInv g root s done [] ∧ gradientSum g s done dv = dv root)
    (by
      rintro s v q s1 ⟨done, hinv, hT⟩ hq hb
      exact ⟨v :: done, backBody_scalar P hd val hval l dv hr hinv hT hq hb⟩)
    fuel (backInit g root) s'
    ⟨[], BackInv.init _ (hval root Relation.ReflTransGen.refl),
      gradientSum_init _ (hval root Relation.ReflTransGen.refl) hd.root_lt dv⟩ hrun
  obtain ⟨done, hinv, hT⟩ := hfin
  have hcomp := BackInv.complete_back hd hinv hq
  have hlt : ∀ {w : Nat}, Under g root w → w < g.length :=
    fun hw => under_lt_length g root hd.root_lt hd.linked hw
  -- the sum reduces to the term of `l`
  have hsum : gradientSum g s' done dv = sval (derivAt s'.derivatives l) := by
    unfold gradientSum
    rw [Finset.sum_eq_single l]
    · simp [hlch, hr.leaf l hl hlch]
    · intro c _ hcl
      by_cases hcu : Under g root c
      · by_cases hcc : getChildren g c = []
        · simp [hcc, hr.leaf c hcu hcc, hcl]
        · have := hcomp (rank root - rank c + 1) c (Nat.lt_succ_self _) hcu hcc
          simp [this, hcc]
      · have hnone : s'.derivatives c = none := by
          apply hinv.noEntry c
          · intro h; rw [h] at hcu; exact hcu Relation.ReflTransGen.refl
          · by_contra h
            exact hcu (hinv.touched c h)
        rw [sval_derivAt_none _ _ hnone]
        simp
    · intro h; exact absurd (Finset.mem_range.2 (hlt hl)) h
  -- `l` has an entry
  have hentry : ∃ x, s'.derivatives l = some (scalar x) := by
    apply hinv.entry l
    by_cases hlr : l = root
    · exact Or.inl hlr
    · right
      rcases Relation.ReflTransGen.cases_tail hl with h | ⟨p, hpu, hpl⟩
      · exact absurd h hlr
      · have hpd : p ∈ done := hcomp (rank root - rank p + 1) p (Nat.lt_succ_self _) hpu
          (by intro h; rw [h] at hpl; simp at hpl)
        have hpp := mem_parents_of_mem_children hd.linked hpl
        have hcnt := hinv.count l
        simp only [List.count_nil, Nat.cast_zero, add_zero] at hcnt
        have hpos : 0 < (getParents g l).countP (fun p => decide (p ∈ done)) :=
          List.countP_pos_iff.2 ⟨p, hpp, by simpa using hpd⟩
        intro hnone
        simp only [pending, hnone] at hcnt
        omega
  obtain ⟨x, hx⟩ := hentry
  have h1 : derivAt s'.derivatives l = scalar x := by simp [derivAt, hx]
  rw [h1, sval_scalar] at hsum
  rw [h1, ← hT, hsum]


/-! ## C1: multi-path accumulation -/

theorem multiPath_propagate (P : Prims) (x c1 c2 : ℚ) (vP vQ vR : MatrixXd) (k : Nat) :
    expression.propagate P (k + 3) (multiPathGraph x c1 c2 vP vQ vR) 5
      = .ok (multiPathGraph x c1 c2 (scalar (x * c1)) (scalar (x * c2))
          (scalar (x * c1 + x * c2)), scalar (x * c1 + x * c2)) := by
  simp [expression.propagate, _rpropagate, forChildren, multiPathGraph, getChildren, Graph.node, getOp,
    _eval, operand, getValue, is_scalar, sval, mval, scalar, setValue, MatrixXd.size,
    MatrixXd.map, MatrixXd.coeff]

theorem multiPath_backLoop (P : Prims) (x c1 c2 vP vQ vR : ℚ) (k : Nat) :
    ∃ s, backLoop P (multiPathGraph x c1 c2 (scalar vP) (scalar vQ) (scalar vR)) none (k + 3)
        (backInit (multiPathGraph x c1 c2 (scalar vP) (scalar vQ) (scalar vR)) 5) = .ok s
      ∧ s.derivatives 0 = some (scalar (c1 + c2)) := by
  simp [backLoop, backBody, backInit, backChildren, _back, _back_from, _back_single, multiPathGraph,
    getChildren, Graph.node, getOp, operand, getValue, is_scalar, sval, mval, scalar,
    MatrixXd.size, ones_like, zeros_like, MatrixXd.const, derivAt, MatrixXd.map,
    MatrixXd.coeff, MatrixXd.zip, MatrixXd.sum, getParents, Function.update, pending]

/-- C1. Multi-path accumulation: on `root = P + Q`, `P = X * c1`, `Q = X * c2`
with scalar leaves, whatever the interior nodes cached before, `propagate()`
followed by the unrestricted `backpropagate` returns normally and the
gradient written for `X` is the `1 x 1` tensor `c1 + c2`, the sum of the
contribution through `P` and the one through `Q`. -/
theorem C1_multi_path_accumulation (P : Prims) (x c1 c2 : ℚ) (vP vQ vR : MatrixXd)
    (leaves : List (Nat × MatrixXd)) (fuel1 fuel2 : Nat)
    (h1 : 3 ≤ fuel1) (h2 : 3 ≤ fuel2) :
    ∃ h rv d,
      expression.propagate P fuel1 (multiPathGraph x c1 c2 vP vQ vR) 5 = .ok (h, rv)
      ∧ expression.backpropagate P fuel2 h 5 leaves = (.ok (), writeBack d leaves)
      ∧ derivAt d 0 = scalar (c1 + c2) := by
  obtain ⟨k1, rfl⟩ := Nat.exists_eq_add_of_le h1
  obtain ⟨k2, rfl⟩ := Nat.exists_eq_add_of_le h2
  obtain ⟨s, hs, hd⟩ := multiPath_backLoop P x c1 c2 (x * c1) (x * c2) (x * c1 + x * c2) k2
  refine ⟨multiPathGraph x c1 c2 (scalar (x * c1)) (scalar (x * c2)) (scalar (x * c1 + x * c2)),
    scalar (x * c1 + x * c2), s.derivatives, ?_, ?_, ?_⟩
  · rw [Nat.add_comm 3 k1]; exact multiPath_propagate P x c1 c2 vP vQ vR k1
  · rw [Nat.add_comm 3 k2]
    simp only [expression.backpropagate, backpropagateWith, hs]
  · simp [derivAt, hd]

/-- C1 at `x = 7`, `c1 = 2`, `c2 = 3`: the mapping `X ↦ _` comes back as
`X ↦ 5`. -/
theorem C1_multi_path_accumulation_witness :
    ∃ h rv d,
      expression.propagate Prims.placeholder 3
          (multiPathGraph 7 2 3 MatrixXd.empty MatrixXd.empty MatrixXd.empty) 5 = .ok (h, rv)
      ∧ expression.backpropagate Prims.placeholder 3 h 5 [(0, MatrixXd.empty)]
          = (.ok (), writeBack d [(0, MatrixXd.empty)])
      ∧ derivAt d 0 = scalar (2 + 3) :=
  C1_multi_path_accumulation Prims.placeholder 7 2 3 _ _ _ _ 3 3 (by decide) (by decide)

/-! ## C6: failure atomicity of `backpropagate` -/

theorem backpropagateWith_thrown (P : Prims) (r : Option (List Nat)) (fuel : Nat)
    (g : Graph) (root : Nat) (leaves : List (Nat × MatrixXd)) (e : Exn)
    (h : (backpropagateWith P r fuel g root leaves).1 = .thrown e) :
    (backpropagateWith P r fuel g root leaves).2 = leaves := by
  unfold backpropagateWith at h ⊢
  cases hrun : backLoop P g r fuel (backInit g root) with
  | ok s => rw [hrun] at h; simp at h
  | thrown e1 => rfl
  | timeout => rfl

theorem inverse_propagate (P : Prims) (A vR : MatrixXd) (k : Nat) :
    expression.propagate P (k + 2) (inverseGraph A vR) 1
      = .ok (inverseGraph A (P.inverse A), P.inverse A) := by
  simp [expression.propagate, _rpropagate, forChildren, inverseGraph, getChildren, Graph.node, getOp,
    _eval, operand, getValue, mval, setValue]

theorem inverse_backpropagate (P : Prims) (A vR : MatrixXd) (k : Nat)
    (leaves : List (Nat × MatrixXd)) :
    expression.backpropagate P (k + 1) (inverseGraph A vR) 1 leaves
      = (.thrown .inverse_derivative, leaves) := by
  simp [expression.backpropagate, backpropagateWith, backLoop, backBody, backInit, _back,
    _back_from, _back_single, inverseGraph, getChildren, Graph.node, getOp]

/-- C6. Failure atomicity (Scenario E).  On `root = inverse(A)`, for every value
of the leaf `A`, `propagate()` returns the inverse and the unrestricted
`backpropagate` throws; and on every graph, whenever `backpropagate`
(unrestricted or restricted) throws, the caller's mapping is exactly what it
was before the call. -/
theorem C6_failure_atomicity :
    (∀ (P : Prims) (A vR : MatrixXd) (leaves : List (Nat × MatrixXd)) (fuel1 fuel2 : Nat),
      2 ≤ fuel1 → 1 ≤ fuel2 →
      ∃ h, expression.propagate P fuel1 (inverseGraph A vR) 1 = .ok (h, P.inverse A)
        ∧ expression.backpropagate P fuel2 h 1 leaves = (.thrown .inverse_derivative, leaves))
    ∧ (∀ (P : Prims) (fuel : Nat) (g : Graph) (root : Nat) (leaves : List (Nat × MatrixXd))
        (e : Exn), (expression.backpropagate P fuel g root leaves).1 = .thrown e →
        (expression.backpropagate P fuel g root leaves).2 = leaves)
    ∧ (∀ (P : Prims) (fuel : Nat) (g : Graph) (root : Nat) (leaves : List (Nat × MatrixXd))
        (nonconsts : List Nat) (e : Exn),
        (expression.backpropagate_nonconsts P fuel g root leaves nonconsts).1 = .thrown e →
        (expression.backpropagate_nonconsts P fuel g root leaves nonconsts).2 = leaves) := by
  refine ⟨?_, ?_, ?_⟩
  · intro P A vR leaves fuel1 fuel2 h1 h2
    obtain ⟨k1, rfl⟩ := Nat.exists_eq_add_of_le h1
    obtain ⟨k2, rfl⟩ := Nat.exists_eq_add_of_le h2
    refine ⟨inverseGraph A (P.inverse A), ?_, ?_⟩
    · rw [Nat.add_comm 2 k1]; exact inverse_propagate P A vR k1
    · rw [Nat.add_comm 1 k2]; exact inverse_backpropagate P A _ k2 leaves
  · intro P fuel g root leaves e h
    exact backpropagateWith_thrown P none fuel g root leaves e h
  · intro P fuel g root leaves nonconsts e h
    exact backpropagateWith_thrown P (some nonconsts) fuel g root leaves e h

/-! ## C8: the leaf tag on a node with children, backward pass -/

/-- The unrestricted body does not throw `none_op` at a node whose tag is not
`none`, and every node it enqueues has a tag other than `none`. -/
theorem backLoop_none_op_root (P : Prims) (g : Graph) (root : Nat) (fuel : Nat) (e : Exn)
    (h : backLoop P g none fuel (backInit g root) = .thrown e) (he : e = .none_op) :
    getOp g root = .none ∧ getChildren g root ≠ [] := by
  have hinv : ∀ (s : BackState) v q s1, (∀ w ∈ s.q, w = root ∨ getOp g w ≠ .none) →
      s.q = v :: q →
      backBody P g none v ⟨q, s.derivatives, s.explored⟩ = .ok s1 →
      (∀ w ∈ s1.q, w = root ∨ getOp g w ≠ .none) := by
    intro s v q s1 hs hq hb w hw
    rcases backBody_ok P g none v _ s1 hb with h1 | ⟨ds, h1⟩
    · rw [h1] at hw
      exact hs w (by rw [hq]; exact List.mem_cons_of_mem _ hw)
    · rw [h1] at hw
      rcases backChildren_q_mem g _ _ w hw with h2 | h2
      · exact hs w (by rw [hq]; exact List.mem_cons_of_mem _ h2)
      · exact Or.inr h2.2
  obtain ⟨s0, v, q, hs0, hq, hb⟩ :=
    backLoop_thrown P g none (fun s => ∀ w ∈ s.q, w = root ∨ getOp g w ≠ .none) hinv
      fuel (backInit g root) e (by intro w hw; left; simpa [backInit] using hw) h
  obtain ⟨hch, hop⟩ := backBody_error P g none v _ e hb
  subst he
  rcases hop with ⟨hop, _⟩ | ⟨_, hne⟩
  · rcases hs0 v (by rw [hq]; exact List.mem_cons_self _ _) with hv | hv
    · subst hv; exact ⟨hop, hch⟩
    · exact absurd hop hv
  · cases hne

theorem backLoop_root_none (P : Prims) (g : Graph) (root : Nat) (k : Nat)
    (hop : getOp g root = .none) (hch : getChildren g root ≠ []) :
    backLoop P g none (k + 1) (backInit g root) = .thrown .none_op := by
  rw [backLoop_cons_succ P g none k (backInit g root) root [] rfl]
  cases hc : getChildren g root with
  | nil => exact absurd hc hch
  | cons c cs => simp [backBody, _back, _back_from, _back_single, hop, hc]

/-- C8 (amended). The unrestricted `backpropagate` throws the invalid-graph
exception exactly when the root itself carries the leaf tag and has children.
A leaf-tagged node with children below the root is never dequeued, so it
raises nothing. -/
theorem C8_backward_invalid_graph_only_at_root (P : Prims) (g : Graph) (root : Nat)
    (leaves : List (Nat × MatrixXd)) (fuel : Nat) (hf : 1 ≤ fuel) :
    (expression.backpropagate P fuel g root leaves).1 = .thrown .none_op ↔
      (getOp g root = .none ∧ getChildren g root ≠ []) := by
  obtain ⟨k, rfl⟩ := Nat.exists_eq_add_of_le hf
  rw [Nat.add_comm 1 k]
  constructor
  · intro h
    unfold expression.backpropagate backpropagateWith at h
    cases hrun : backLoop P g none (k + 1) (backInit g root) with
    | ok s => rw [hrun] at h; simp at h
    | timeout => rw [hrun] at h; simp at h
    | thrown e =>
      rw [hrun] at h
      simp only [Outcome.thrown.injEq] at h
      exact backLoop_none_op_root P g root (k + 1) e hrun h
  · rintro ⟨hop, hch⟩
    unfold expression.backpropagate backpropagateWith
    rw [backLoop_root_none P g root k hop hch]

/-- C8 (amended) at the graph whose root is tagged `none` and has the child 0. -/
theorem C8_backward_invalid_graph_only_at_root_witness :
    (expression.backpropagate Prims.placeholder 1
        [⟨.none, scalar 3, [], [1]⟩, ⟨.none, scalar 3, [0], []⟩] 1 []).1 = .thrown .none_op ↔
      (getOp [⟨.none, scalar 3, [], [1]⟩, ⟨.none, scalar 3, [0], []⟩] 1 = .none ∧
        getChildren [⟨.none, scalar 3, [], [1]⟩, ⟨.none, scalar 3, [0], []⟩] 1 ≠ []) :=
  C8_backward_invalid_graph_only_at_root Prims.placeholder _ 1 [] 1 (by decide)

/-- C8 fails as stated: in `taggedInteriorGraph` the node `M` (handle 1) has
a child, is under the root and carries the leaf tag, and the unrestricted
`backpropagate` returns normally, writing a gradient for `b` and the empty
tensor for `a`. -/
theorem C8_counterexample :
    (Under taggedInteriorGraph 3 1 ∧ getChildren taggedInteriorGraph 1 ≠ [] ∧
      getOp taggedInteriorGraph 1 = .none) ∧
    expression.backpropagate Prims.placeholder 5 taggedInteriorGraph 3
        [(0, scalar 0), (2, scalar 0)]
      = (.ok (), [(0, MatrixXd.empty), (2, scalar 1)]) := by
  refine ⟨⟨?_, by decide, by decide⟩, ?_⟩
  · exact Relation.ReflTransGen.single (by decide)
  · simp [expression.backpropagate, backpropagateWith, backLoop, backBody, backInit,
      backChildren, _back, _back_from, _back_single, taggedInteriorGraph, writeBack,
      getChildren, Graph.node, getOp, operand, getValue, is_scalar, scalar,
      MatrixXd.size, ones_like, zeros_like, MatrixXd.const, derivAt,
      MatrixXd.zip, MatrixXd.sum, getParents, Function.update, pending, MatrixXd.empty]


/-! ## C10: the write-back -/

/-- In the restricted loop, the accumulator entry of a node outside
`nonconsts`, other than the root, is absent or is the zero tensor shaped like
the node. -/
theorem backLoop_nonconsts_zero (P : Prims) (g : Graph) (nonconsts : List Nat)
    (root : Nat) (fuel : Nat) (s' : BackState)
    (h : backLoop P g (some nonconsts) fuel (backInit g root) = .ok s') :
    ∀ k, k ∉ nonconsts → k ≠ root →
      s'.derivatives k = none ∨ s'.derivatives k = some (zeros_like (getValue g k)) := by
  have hinv : ∀ (s : BackState) v q s1,
      (∀ k, k ∉ nonconsts → k ≠ root →
        s.derivatives k = none ∨ s.derivatives k = some (zeros_like (getValue g k))) →
      s.q = v :: q → backBody P g (some nonconsts) v ⟨q, s.derivatives, s.explored⟩ = .ok s1 →
      (∀ k, k ∉ nonconsts → k ≠ root →
        s1.derivatives k = none ∨ s1.derivatives k = some (zeros_like (getValue g k))) := by
    intro s v q s1 hs hq hb k hk hkr
    unfold backBody at hb
    simp only at hb
    split at hb
    · cases hb; exact hs k hk hkr
    · split at hb
      · cases hb
      · rename_i ds hds
        cases hb
        refine backChildren_zero g k _ ⟨q, s.derivatives, s.explored⟩ ?_ (hs k hk hkr)
        intro cd hcd hcdk
        have := _back_nonconsts_from_zero P g _ _ _ _ _ 0 ds hds cd hcd (by rw [hcdk]; exact hk)
        rw [this, hcdk]
  refine backLoop_inv P g (some nonconsts) _ hinv fuel (backInit g root) s' ?_ h
  intro k _ hkr
  left
  simp [backInit, Function.update, hkr]

/-- C5 fails as stated, in two ways.  On the evaluated multi-path graph with
`S = [c1]`, `findNonConsts(S)` is `{c1, P, root}`; the leaf `c2` (handle 2)
is outside it and the restricted pass writes the empty `0 x 0` tensor for it,
which is not the zero tensor shaped like `c2`.  On the graph made of one leaf
with `S = []`, the root is a leaf outside `findNonConsts(S) = {}` and the
gradient written for it is the one-filled tensor. -/
theorem C5_counterexample :
    (expression.findNonConsts 10 (multiPathGraph 7 2 3 (scalar 14) (scalar 21) (scalar 35)) [1]
        = some [1, 3, 5]
      ∧ expression.backpropagate_nonconsts Prims.placeholder 7
          (multiPathGraph 7 2 3 (scalar 14) (scalar 21) (scalar 35)) 5
          [(0, scalar 0), (2, scalar 0)] [1, 3, 5]
        = (.ok (), [(0, scalar 0), (2, MatrixXd.empty)])
      ∧ MatrixXd.empty
          ≠ zeros_like (getValue (multiPathGraph 7 2 3 (scalar 14) (scalar 21) (scalar 35)) 2))
    ∧ (expression.findNonConsts 10 singleLeafGraph [] = some []
      ∧ expression.backpropagate_nonconsts Prims.placeholder 2 singleLeafGraph 0
          [(0, scalar 0)] [] = (.ok (), [(0, scalar 1)])
      ∧ scalar 1 ≠ zeros_like (getValue singleLeafGraph 0)) := by
  refine ⟨⟨?_, ?_, by decide⟩, ?_, ?_, by decide⟩
  · decide
  · simp [expression.backpropagate_nonconsts, backpropagateWith, backLoop, backBody, backInit,
      backChildren, _back_nonconsts, _back_nonconsts_from, _back_single, multiPathGraph,
      writeBack, getChildren, Graph.node, getOp, operand, getValue, is_scalar, scalar,
      MatrixXd.size, ones_like, zeros_like, MatrixXd.const, derivAt,
      MatrixXd.zip, MatrixXd.sum, getParents, Function.update, pending, MatrixXd.empty, mval]
  · decide
  · simp [expression.backpropagate_nonconsts, backpropagateWith, backLoop, backBody, backInit,
      singleLeafGraph, writeBack, ones_like, MatrixXd.const, derivAt, Function.update,
      getValue, Graph.node, scalar]


/-! ## C4: reachability closure -/

theorem sum_map_add_le (l : List Nat) (f f' : Nat → Nat) (v : Nat) (d : Nat) (hv : v ∈ l)
    (hle : ∀ i ∈ l, f' i ≤ f i) (hd : f' v + d ≤ f v) :
    (l.map f').sum + d ≤ (l.map f).sum := by
  induction l with
  | nil => simp at hv
  | cons a l ih =>
    simp only [List.map_cons, List.sum_cons]
    by_cases hav : a = v
    · subst hav
      have : (l.map f').sum ≤ (l.map f).sum :=
        List.sum_le_sum (fun i hi => hle i (List.mem_cons_of_mem _ hi))
      omega
    · have hv' : v ∈ l := by
        rcases List.mem_cons.1 hv with h | h
        · exact absurd h.symm hav
        · exact h
      have := ih hv' (fun i hi => hle i (List.mem_cons_of_mem _ hi))
      have := hle a (List.mem_cons_self _ _)
      omega

theorem unvisitedParents_insert (g : Graph) (nc : List Nat) (v : Nat) (hv : v ∉ nc) :
    unvisitedParents g (nc ++ [v]) + (getParents g v).length ≤ unvisitedParents g nc := by
  by_cases hlt : v < g.length
  · apply sum_map_add_le _ _ _ v _ (List.mem_range.2 hlt)
    · intro i _
      by_cases hi : i ∈ nc
      · simp [hi]
      · by_cases hiv : i = v
        · simp [hiv]
        · simp [hi, hiv]
    · simp [hv]
  · rw [getParents_of_length_le g v (Nat.le_of_not_lt hlt)]
    simp only [List.length_nil, Nat.add_zero, unvisitedParents]
    apply List.sum_le_sum
    intro i hi
    by_cases hi' : i ∈ nc
    · simp [hi']
    · have : i ≠ v := by
        intro h; rw [h] at hi; exact hlt (List.mem_range.1 hi)
      simp [hi', this]

/-- `findNonConsts` terminates: fuel of the length of the queue plus the number
of parent entries of unvisited nodes is enough. -/
theorem findNonConstsLoop_terminates (g : Graph) :
    ∀ (fuel : Nat) (q nc : List Nat), q.length + unvisitedParents g nc ≤ fuel →
      ∃ r, findNonConstsLoop g fuel q nc = some r := by
  intro fuel
  induction fuel with
  | zero =>
    intro q nc h
    cases q with
    | nil => exact ⟨nc, by simp [findNonConstsLoop]⟩
    | cons v q => simp at h
  | succ fuel ih =>
    intro q nc h
    cases q with
    | nil => exact ⟨nc, by simp [findNonConstsLoop]⟩
    | cons v q =>
      simp only [findNonConstsLoop]
      split
      · apply ih
        simp only [List.length_cons] at h
        omega
      · rename_i hv
        apply ih
        have := unvisitedParents_insert g nc v hv
        simp only [List.length_cons] at h
        simp only [List.length_append]
        omega

/-- The invariant of the loop of `findNonConsts`. -/
theorem findNonConstsLoop_inv (g : Graph) (leaves : List Nat) :
    ∀ (fuel : Nat) (q nc r : List Nat), findNonConstsLoop g fuel q nc = some r →
      ((∀ v ∈ nc, ∃ l ∈ leaves, ParentReach g l v) ∧ (∀ v ∈ q, ∃ l ∈ leaves, ParentReach g l v) ∧
        (∀ l ∈ leaves, l ∈ nc ∨ l ∈ q) ∧
        (∀ v ∈ nc, ∀ p ∈ getParents g v, p ∈ nc ∨ p ∈ q) ∧ nc.Nodup) →
      ((∀ v ∈ r, ∃ l ∈ leaves, ParentReach g l v) ∧ (∀ l ∈ leaves, l ∈ r) ∧
        (∀ v ∈ r, ∀ p ∈ getParents g v, p ∈ r) ∧ r.Nodup) := by
  intro fuel
  induction fuel with
  | zero =>
    intro q nc r h
    cases q with
    | nil =>
      simp only [findNonConstsLoop, Option.some.injEq] at h
      subst h
      rintro ⟨h1, _, h3, h4, h5⟩
      exact ⟨h1, fun l hl => (h3 l hl).resolve_right (by simp),
        fun v hv p hp => (h4 v hv p hp).resolve_right (by simp), h5⟩
    | cons v q => simp [findNonConstsLoop] at h
  | succ fuel ih =>
    intro q nc r h
    cases q with
    | nil =>
      simp only [findNonConstsLoop, Option.some.injEq] at h
      subst h
      rintro ⟨h1, _, h3, h4, h5⟩
      exact ⟨h1, fun l hl => (h3 l hl).resolve_right (by simp),
        fun v hv p hp => (h4 v hv p hp).resolve_right (by simp), h5⟩
    | cons v q =>
      simp only [findNonConstsLoop] at h
      rintro ⟨h1, h2, h3, h4, h5⟩
      split at h
      · rename_i hv
        apply ih q nc r h
        refine ⟨h1, fun w hw => h2 w (List.mem_cons_of_mem _ hw), ?_, ?_, h5⟩
        · intro l hl
          rcases h3 l hl with h | h
          · exact Or.inl h
          · rcases List.mem_cons.1 h with h | h
            · subst h; exact Or.inl hv
            · exact Or.inr h
        · intro w hw p hp
          rcases h4 w hw p hp with h | h
          · exact Or.inl h
          · rcases List.mem_cons.1 h with h | h
            · subst h; exact Or.inl hv
            · exact Or.inr h
      · rename_i hv
        apply ih (q ++ getParents g v) (nc ++ [v]) r h
        have hvr : ∃ l ∈ leaves, ParentReach g l v := h2 v (List.mem_cons_self _ _)
        refine ⟨?_, ?_, ?_, ?_, ?_⟩
        · intro w hw
          rcases List.mem_append.1 hw with h | h
          · exact h1 w h
          · have : w = v := by simpa using h
            subst this; exact hvr
        · intro w hw
          rcases List.mem_append.1 hw with h | h
          · exact h2 w (List.mem_cons_of_mem _ h)
          · obtain ⟨l, hl, hlv⟩ := hvr
            exact ⟨l, hl, Relation.ReflTransGen.tail hlv h⟩
        · intro l hl
          rcases h3 l hl with h | h
          · exact Or.inl (List.mem_append_left _ h)
          · rcases List.mem_cons.1 h with h | h
            · subst h; exact Or.inl (by simp)
            · exact Or.inr (List.mem_append_left _ h)
        · intro w hw p hp
          rcases List.mem_append.1 hw with h | h
          · rcases h4 w h p hp with h' | h'
            · exact Or.inl (List.mem_append_left _ h')
            · rcases List.mem_cons.1 h' with h'' | h''
              · subst h''; exact Or.inl (by simp)
              · exact Or.inr (List.mem_append_left _ h'')
          · have : w = v := by simpa using h
            subst this
            exact Or.inr (List.mem_append_right _ hp)
        · exact List.Nodup.append h5 (List.nodup_singleton v) (by simpa using hv)

/-- C4. Reachability closure: on every graph and for every list `leaves`,
`findNonConsts(leaves)` terminates (fuel of the number of supplied leaves plus
the number of parent entries of the arena is enough) and returns, without
duplicates, exactly the nodes reached from a supplied leaf by following parent
links zero or more times: it contains every supplied leaf, it contains every
parent of each member, and each member is reached that way. -/
theorem C4_reachability_closure (g : Graph) (leaves : List Nat) (fuel : Nat)
    (hf : leaves.length + parentEntries g ≤ fuel) :
    ∃ nonconsts, expression.findNonConsts fuel g leaves = some nonconsts ∧
      nonconsts.Nodup ∧
      (∀ l ∈ leaves, l ∈ nonconsts) ∧
      (∀ v ∈ nonconsts, ∀ p ∈ getParents g v, p ∈ nonconsts) ∧
      (∀ v, v ∈ nonconsts ↔ ∃ l ∈ leaves, ParentReach g l v) := by
  obtain ⟨r, hr⟩ := findNonConstsLoop_terminates g fuel leaves [] hf
  obtain ⟨h1, h2, h3, h4⟩ := findNonConstsLoop_inv g leaves fuel leaves [] r hr
    ⟨by simp, fun v hv => ⟨v, hv, Relation.ReflTransGen.refl⟩, fun l hl => Or.inr hl,
      by simp, List.nodup_nil⟩
  refine ⟨r, hr, h4, h2, h3, ?_⟩
  intro v
  constructor
  · exact h1 v
  · rintro ⟨l, hl, hlv⟩
    induction hlv with
    | refl => exact h2 l hl
    | tail _ hstep ih => exact h3 _ ih _ hstep

/-- C4 on the multi-path graph from the leaf `c1`. -/
theorem C4_reachability_closure_witness :
    ∃ nonconsts, expression.findNonConsts 10
        (multiPathGraph 7 2 3 (scalar 14) (scalar 21) (scalar 35)) [1] = some nonconsts ∧
      nonconsts.Nodup ∧
      (∀ l ∈ [1], l ∈ nonconsts) ∧
      (∀ v ∈ nonconsts, ∀ p ∈ getParents
        (multiPathGraph 7 2 3 (scalar 14) (scalar 21) (scalar 35)) v, p ∈ nonconsts) ∧
      (∀ v, v ∈ nonconsts ↔ ∃ l ∈ [1],
        ParentReach (multiPathGraph 7 2 3 (scalar 14) (scalar 21) (scalar 35)) l v) :=
  C4_reachability_closure _ [1] 10 (by decide)


/-! ## C7: the leaf tag on a node with children, forward pass -/

/-- C7. On an acyclic graph, with the tensor primitives total and fuel above
the rank of the root, `propagate()` does not run out of fuel, and it throws if
and only if some node under the root has at least one child and carries the
leaf tag; in particular a graph whose leaf-tagged nodes are all childless
returns its root value. -/
theorem C7_forward_invalid_graph (P : Prims) (g : Graph) (root : Nat) (rank : Nat → Nat)
    (fuel : Nat) (hac : Acyclic g rank) (hf : rank root < fuel) :
    expression.propagate P fuel g root ≠ .timeout ∧
    ((∃ e, expression.propagate P fuel g root = .thrown e) ↔ TaggedInterior g root) ∧
    ((∀ v, Under g root v → getOp g v = .none → getChildren g v = []) →
      ∃ h rv, expression.propagate P fuel g root = .ok (h, rv)) := by
  have hspec := _rpropagate_spec P g rank hac fuel g root (SameLinks.refl g) hf
  unfold expression.propagate
  by_cases hbad : TaggedInterior g root
  · obtain ⟨e, he⟩ := hspec.1 hbad
    rw [he]
    refine ⟨by simp, ⟨fun _ => hbad, fun _ => ⟨e, rfl⟩⟩, fun hall => ?_⟩
    obtain ⟨w, hw, h1, h2⟩ := hbad
    exact absurd (hall w hw h2) h1
  · obtain ⟨k, hk, _⟩ := hspec.2 hbad
    rw [hk]
    refine ⟨by simp, ⟨fun ⟨e, he⟩ => by simp at he, fun h => absurd h hbad⟩, fun _ => ⟨_, _, rfl⟩⟩

/-- C7 on `taggedInteriorGraph`, whose node `M` has a child and the leaf tag. -/
theorem C7_forward_invalid_graph_witness :
    expression.propagate Prims.placeholder 4 taggedInteriorGraph 3 ≠ .timeout ∧
    ((∃ e, expression.propagate Prims.placeholder 4 taggedInteriorGraph 3 = .thrown e) ↔
      TaggedInterior taggedInteriorGraph 3) ∧
    ((∀ v, Under taggedInteriorGraph 3 v → getOp taggedInteriorGraph v = .none →
        getChildren taggedInteriorGraph v = []) →
      ∃ h rv, expression.propagate Prims.placeholder 4 taggedInteriorGraph 3 = .ok (h, rv)) :=
  C7_forward_invalid_graph Prims.placeholder taggedInteriorGraph 3 id 4
    (by unfold Acyclic; decide) (by decide)


/-! ## C2: strategy equivalence -/

theorem arityOK_of_all (g : Graph) (root : Nat)
    (h : ∀ v < g.length, getChildren g v ≠ [] →
      numOpArgs (getOp g v) = ((getChildren g v).length : Int)) : ArityOK g root :=
  fun v _ hch => h v (lt_length_of_children_ne_nil g v hch) hch

/-- C2. Strategy equivalence: on an acyclic expression graph (consistent
parent and child links, every node under the root that has children having
the arity of its operator), whatever the interior nodes cache, `findLeaves()`
returns, `propagate()` returns, and `propagate(leaves)` called with the leaves
found, taken in any order, returns the same root value. -/
theorem C2_strategy_equivalence (P : Prims) (g : Graph) (root : Nat) (rank : Nat → Nat)
    (fuelL fuel1 : Nat) (hac : Acyclic g rank) (hwl : WellLinked g) (har : ArityOK g root)
    (hfL : walkCost g (rank root) root ≤ fuelL) (hf1 : rank root < fuel1) :
    ∃ leaves h1 m, expression.findLeaves fuelL g root = some leaves ∧
      expression.propagate P fuel1 g root = .ok (h1, m) ∧
      ∀ ls fuel2, ls.Perm leaves → ls.length + g.length ≤ fuel2 →
        ∃ h2, expression.propagate_leaves P fuel2 g root ls = .ok (h2, m) := by
  obtain ⟨leaves, hfind, hnd, hmem⟩ := findLeaves_spec g root rank hac fuelL hfL
  obtain ⟨h1, _, m, hp, _⟩ := propagate_leaves_eq P g root rank leaves fuel1
    (leaves.length + g.length) hac hwl har hnd (fun l hl => ((hmem l).1 hl).2)
    (fun l h1 h2 => (hmem l).2 ⟨h1, h2⟩) hf1 (Nat.le_refl _)
  refine ⟨leaves, h1, m, hfind, hp, ?_⟩
  intro ls fuel2 hperm hf2
  obtain ⟨h1', h2, m', hp', hq'⟩ := propagate_leaves_eq P g root rank ls fuel1 fuel2
    hac hwl har (hperm.nodup_iff.2 hnd)
    (fun l hl => ((hmem l).1 (hperm.mem_iff.1 hl)).2)
    (fun l h1 h2 => hperm.mem_iff.2 ((hmem l).2 ⟨h1, h2⟩)) hf1 hf2
  rw [hp] at hp'
  cases hp'
  exact ⟨h2, hq'⟩

/-- C2 on the multi-path graph with nothing cached in the interior nodes. -/
theorem C2_strategy_equivalence_witness :
    ∃ leaves h1 m,
      expression.findLeaves 7
        (multiPathGraph 7 2 3 MatrixXd.empty MatrixXd.empty MatrixXd.empty) 5 = some leaves ∧
      expression.propagate Prims.placeholder 6
        (multiPathGraph 7 2 3 MatrixXd.empty MatrixXd.empty MatrixXd.empty) 5 = .ok (h1, m) ∧
      ∀ ls fuel2, ls.Perm leaves →
        ls.length
          + (multiPathGraph 7 2 3 MatrixXd.empty MatrixXd.empty MatrixXd.empty).length
          ≤ fuel2 →
        ∃ h2, expression.propagate_leaves Prims.placeholder fuel2
          (multiPathGraph 7 2 3 MatrixXd.empty MatrixXd.empty MatrixXd.empty) 5 ls
          = .ok (h2, m) :=
  C2_strategy_equivalence Prims.placeholder _ 5 id 7 6 (by unfold Acyclic; decide)
    (by unfold WellLinked; decide) (arityOK_of_all _ _ (by decide)) (by decide) (by decide)

/-! ## C9: re-evaluation from a subset of the leaves -/

/-- C9 (amended). `propagate(S)` returns the root value of `propagate()`,
whatever the interior nodes cache, when `S` is a duplicate-free list of
childless nodes that contains every leaf under the root of an acyclic,
consistently linked graph whose nodes have the arity of their operator. -/
theorem C9_reevaluation_from_all_leaves (P : Prims) (g : Graph) (root : Nat)
    (rank : Nat → Nat) (S : List Nat) (fuel1 fuel2 : Nat) (hac : Acyclic g rank)
    (hwl : WellLinked g) (har : ArityOK g root) (hnd : S.Nodup)
    (hS : ∀ l ∈ S, getChildren g l = [])
    (hleaves : ∀ l, Under g root l → getChildren g l = [] → l ∈ S)
    (hf1 : rank root < fuel1) (hf2 : S.length + g.length ≤ fuel2) :
    ∃ h1 h2 m, expression.propagate P fuel1 g root = .ok (h1, m) ∧
      expression.propagate_leaves P fuel2 g root S = .ok (h2, m) :=
  propagate_leaves_eq P g root rank S fuel1 fuel2 hac hwl har hnd hS hleaves hf1 hf2

/-- C9 (amended) on the stale sum graph with `S = [b, a]`. -/
theorem C9_reevaluation_from_all_leaves_witness :
    ∃ h1 h2 m, expression.propagate Prims.placeholder 3 staleSumGraph 2 = .ok (h1, m) ∧
      expression.propagate_leaves Prims.placeholder 5 staleSumGraph 2 [1, 0] = .ok (h2, m) :=
  C9_reevaluation_from_all_leaves Prims.placeholder staleSumGraph 2 id [1, 0] 3 5
    (by unfold Acyclic; decide) (by unfold WellLinked; decide)
    (arityOK_of_all _ _ (by decide)) (by decide) (by decide)
    (fun l hl hch => by
      have hlt : l < 3 :=
        under_lt_length staleSumGraph 2 (by decide) (by unfold WellLinked; decide) hl
      have : l = 0 ∨ l = 1 ∨ l = 2 := by omega
      rcases this with h | h | h
      · subst h; decide
      · subst h; decide
      · subst h; exact absurd hch (by decide))
    (by decide) (by decide)

/-- C9 fails as stated: `sumGraph` is fully evaluated (`propagate()` returns 7
and changes nothing); after the value of `a` is changed from 3 to 5,
`propagate([a])` leaves the root untouched and returns the stale 7, because
the counter of the root reaches 1 and not its arity 2, while `propagate()`
returns 9. -/
theorem C9_counterexample :
    expression.propagate Prims.placeholder 3 sumGraph 2 = .ok (sumGraph, scalar 7) ∧
    setValue sumGraph 0 (scalar 5) = staleSumGraph ∧
    expression.propagate_leaves Prims.placeholder 5 staleSumGraph 2 [0]
      = .ok (staleSumGraph, scalar 7) ∧
    expression.propagate Prims.placeholder 3 staleSumGraph 2
      = .ok (setValue staleSumGraph 2 (scalar 9), scalar 9) ∧
    scalar 7 ≠ scalar 9 := by
  refine ⟨?_, ?_, ?_, ?_, by decide⟩
  · simp [expression.propagate, _rpropagate, forChildren, sumGraph, getChildren, Graph.node,
      getOp, _eval, operand, getValue, is_scalar, sval, mval, scalar, setValue,
      MatrixXd.size, MatrixXd.map, MatrixXd.coeff]
    norm_num
  · simp [setValue, sumGraph, staleSumGraph, Graph.node]
  · simp [expression.propagate_leaves, propagateLoop, propagateParents, staleSumGraph,
      getParents, Graph.node, getOp, numOpArgs, getValue, Function.update]
  · simp [expression.propagate, _rpropagate, forChildren, staleSumGraph, getChildren,
      Graph.node, getOp, _eval, operand, getValue, is_scalar, sval, mval, scalar, setValue,
      MatrixXd.size, MatrixXd.map, MatrixXd.coeff]
    norm_num


/-! ## C3: gradient correctness in exact arithmetic -/

theorem WellLinked.sameLinks_linked {g h : Graph} (hs : SameLinks g h) (hwl : WellLinked g) :
    WellLinked h := by
  refine ⟨?_, ?_, ?_⟩
  · intro v hv c hc
    rw [(hs.2 v).2.1] at hc
    rw [hs.1] at hv ⊢
    exact hwl.1 v hv c hc
  · intro v hv p hp
    rw [(hs.2 v).2.2] at hp
    rw [hs.1] at hv ⊢
    exact hwl.2.1 v hv p hp
  · intro p hp c hc
    rw [(hs.2 c).2.2, (hs.2 p).2.1]
    rw [hs.1] at hp hc
    exact hwl.2.2 p hp c hc

theorem ScalarDag.sameLinks_dag {g h : Graph} {root : Nat} {rank : Nat → Nat}
    (hs : SameLinks g h) (hd : ScalarDag g root rank) : ScalarDag h root rank := by
  refine ⟨hd.acyclic.sameLinks_acyclic hs, hd.linked.sameLinks_linked hs, ?_, ?_, ?_⟩
  · intro v hv p hp
    rw [(hs.2 v).2.2] at hp
    exact (Under.sameLinks_iff hs).2 (hd.closed v ((Under.sameLinks_iff hs).1 hv) p hp)
  · intro v hv hch
    rw [(hs.2 v).2.1] at hch ⊢
    rw [(hs.2 v).1]
    exact hd.binary v ((Under.sameLinks_iff hs).1 hv) hch
  · rw [hs.1]; exact hd.root_lt

theorem pderiv_mul_eval (ρ : Nat → ℚ) (l : Nat) (p q : MvPolynomial Nat ℚ) :
    MvPolynomial.eval ρ (MvPolynomial.pderiv l (p * q))
      = MvPolynomial.eval ρ (MvPolynomial.pderiv l p) * MvPolynomial.eval ρ q
        + MvPolynomial.eval ρ p * MvPolynomial.eval ρ (MvPolynomial.pderiv l q) := by
  rw [Derivation.leibniz]
  simp only [smul_eq_mul, map_add, map_mul]
  ring

theorem pderiv_X_eval (ρ : Nat → ℚ) (l v : Nat) :
    MvPolynomial.eval ρ (MvPolynomial.pderiv l (MvPolynomial.X v : MvPolynomial Nat ℚ))
      = if v = l then 1 else 0 := by
  rw [MvPolynomial.pderiv_X]
  by_cases h : v = l
  · subst h; simp
  · have h' : ¬ l = v := fun e => h e.symm
    simp [Pi.single_apply, h, h']

/-- The evaluated derivatives of the node polynomials obey the derivative
rules. -/
theorem derivRules_of_poly {g h : Graph} {root : Nat} (hs : SameLinks g h)
    (poly : Nat → MvPolynomial Nat ℚ) (hpoly : ∀ v, Under g root v → NodePoly g v (poly v))
    (ρ : Nat → ℚ) (l : Nat) :
    DerivRules h root (fun v => MvPolynomial.eval ρ (poly v)) l
      (fun v => MvPolynomial.eval ρ (MvPolynomial.pderiv l (poly v))) := by
  refine ⟨?_, ?_, ?_, ?_⟩
  · intro v hv hch
    have hv' := (Under.sameLinks_iff hs).1 hv
    rw [(hs.2 v).2.1] at hch
    rw [NodePoly.unique (hpoly v hv') (NodePoly.leaf v hch)]
    exact pderiv_X_eval ρ l v
  · intro v a b hv hop hab
    have hv' := (Under.sameLinks_iff hs).1 hv
    rw [(hs.2 v).1] at hop
    rw [(hs.2 v).2.1] at hab
    have ha := hpoly a (Relation.ReflTransGen.tail hv' (by rw [hab]; simp))
    have hb := hpoly b (Relation.ReflTransGen.tail hv' (by rw [hab]; simp))
    rw [NodePoly.unique (hpoly v hv') (NodePoly.plus v a b _ _ hop hab ha hb)]
    simp only [map_add]
  · intro v a b hv hop hab
    have hv' := (Under.sameLinks_iff hs).1 hv
    rw [(hs.2 v).1] at hop
    rw [(hs.2 v).2.1] at hab
    have ha := hpoly a (Relation.ReflTransGen.tail hv' (by rw [hab]; simp))
    have hb := hpoly b (Relation.ReflTransGen.tail hv' (by rw [hab]; simp))
    rw [NodePoly.unique (hpoly v hv') (NodePoly.minus v a b _ _ hop hab ha hb)]
    simp only [map_sub]
  · intro v a b hv hop hab
    have hv' := (Under.sameLinks_iff hs).1 hv
    rw [(hs.2 v).1] at hop
    rw [(hs.2 v).2.1] at hab
    have ha := hpoly a (Relation.ReflTransGen.tail hv' (by rw [hab]; simp))
    have hb := hpoly b (Relation.ReflTransGen.tail hv' (by rw [hab]; simp))
    rw [NodePoly.unique (hpoly v hv') (NodePoly.multiply v a b _ _ hop hab ha hb)]
    exact pderiv_mul_eval ρ l _ _

/-- C3. Gradient correctness in exact arithmetic.  On a finite acyclic graph
whose nodes under the root are scalar leaves and binary `plus`, `minus` and
`multiply` nodes, with one parent entry per consuming operand slot and every
parent of a node under the root itself under the root, `propagate()` returns
the value of the polynomial `p` that the root denotes in the leaf values, and
the unrestricted `backpropagate` then returns normally and writes, for every
leaf `l` under the root, the `1 x 1` tensor holding the partial derivative of
`p` with respect to `l` at the leaf values, shared nodes included. -/
theorem C3_gradient_correctness (P : Prims) (g : Graph) (root : Nat) (rank : Nat → Nat)
    (leaves : List (Nat × MatrixXd)) (fuel1 fuel2 : Nat) (hd : ScalarDag g root rank)
    (hleaf : ∀ l, Under g root l → getChildren g l = [] → ∃ x, getValue g l = scalar x)
    (hf1 : rank root < fuel1) (hf2 : g.length < fuel2) :
    ∃ h m d p, expression.propagate P fuel1 g root = .ok (h, m) ∧
      NodePoly g root p ∧ m = scalar (MvPolynomial.eval (leafVal g) p) ∧
      expression.backpropagate P fuel2 h root leaves = (.ok (), writeBack d leaves) ∧
      ∀ l, Under g root l → getChildren g l = [] →
        derivAt d l = scalar (MvPolynomial.eval (leafVal g) (MvPolynomial.pderiv l p)) := by
  -- the forward pass
  have hnot : ¬ TaggedInterior g root := by
    rintro ⟨w, hw, hch, hop⟩
    rcases (hd.binary w hw hch).1 with h | h | h <;> (rw [h] at hop; cases hop)
  obtain ⟨h, hrun1, hs⟩ :=
    (_rpropagate_spec P g rank hd.acyclic fuel1 g root (SameLinks.refl g) hf1).2 hnot
  have hkeep := (_rpropagate_keeps P fuel1 g root h hrun1).2.1
  have hset : Settled P h root := _rpropagate_settles P rank fuel1 g root h hd.acyclic hrun1
  have hleafv : ∀ l, Under g root l → getChildren g l = [] →
      getValue h l = scalar (leafVal g l) := by
    intro l hl hch
    obtain ⟨x, hx⟩ := hleaf l hl hch
    rw [hkeep l hch, leafVal, hx, sval_scalar]
  -- the polynomials of the nodes
  have hex : ∀ v, ∃ q, Under g root v → NodePoly g v q := by
    intro v
    by_cases hv : Under g root v
    · obtain ⟨q, hq⟩ := NodePoly.exists_of_scalarDag hd (rank v + 1) v (Nat.lt_succ_self _) hv
      exact ⟨q, fun _ => hq⟩
    · exact ⟨0, fun hv' => absurd hv' hv⟩
  choose poly hpoly using hex
  have hd' : ScalarDag h root rank := hd.sameLinks_dag hs
  have hval : ∀ v, Under h root v →
      getValue h v = scalar (MvPolynomial.eval (leafVal g) (poly v)) := by
    intro v hv
    have hv' := (Under.sameLinks_iff hs).1 hv
    exact NodePoly.value P hs hset hleafv (hpoly v hv') hv'
  have hrules := fun l => derivRules_of_poly hs poly hpoly (leafVal g) l
  -- the backward loop returns
  have hlen : h.length < fuel2 := by rw [hs.1]; exact hf2
  have hnt := backLoop_ne_timeout P h none fuel2 (backInit h root)
    (Nat.le_trans (backInit_measure h root) hlen)
  have hok : ∃ s', backLoop P h none fuel2 (backInit h root) = .ok s' := by
    cases hrun : backLoop P h none fuel2 (backInit h root) with
    | ok s' => exact ⟨s', rfl⟩
    | timeout => exact absurd hrun hnt
    | thrown e =>
      exfalso
      obtain ⟨s0, v, q, ⟨done, hinv, _⟩, hq, hb⟩ := backLoop_thrown P h none
        (fun s => ∃ done, BackInv h root s done [] ∧
          gradientSum h s done (fun v => MvPolynomial.eval (leafVal g)
            (MvPolynomial.pderiv 0 (poly v)))
          = MvPolynomial.eval (leafVal g) (MvPolynomial.pderiv 0 (poly root)))
        (by
          rintro s v q s1 ⟨done, hinv, hT⟩ hq hb
          exact ⟨v :: done, backBody_scalar P hd' _ hval 0 _ (hrules 0) hinv hT hq hb⟩)
        fuel2 (backInit h root) e
        ⟨[], BackInv.init _ (hval root Relation.ReflTransGen.refl),
          gradientSum_init _ (hval root Relation.ReflTransGen.refl) hd'.root_lt _⟩ hrun
      have hvu : Under h root v := hinv.under v (by rw [hq]; simp)
      obtain ⟨hch, hop⟩ := backBody_error P h none v _ e hb
      rcases (hd'.binary v hvu hch).1 with h1 | h1 | h1 <;>
        rcases hop with ⟨h2, _⟩ | ⟨h2, _⟩ <;> (rw [h1] at h2; cases h2)
  obtain ⟨s', hrun2⟩ := hok
  refine ⟨h, getValue h root, s'.derivatives, poly root, ?_,
    hpoly root Relation.ReflTransGen.refl, hval root Relation.ReflTransGen.refl, ?_, ?_⟩
  · simp [expression.propagate, hrun1]
  · simp [expression.backpropagate, backpropagateWith, hrun2]
  · intro l hl hlch
    exact backLoop_scalar P hd' _ hval l _ (hrules l) ((Under.sameLinks_iff hs).2 hl)
      (by rw [(hs.2 l).2.1]; exact hlch) fuel2 s' hrun2

theorem multiPath_scalarDag :
    ScalarDag (multiPathGraph 7 2 3 MatrixXd.empty MatrixXd.empty MatrixXd.empty) 5 id := by
  have hwl : WellLinked (multiPathGraph 7 2 3 MatrixXd.empty MatrixXd.empty MatrixXd.empty) := by unfold WellLinked; decide
  have h3 : Under (multiPathGraph 7 2 3 MatrixXd.empty MatrixXd.empty MatrixXd.empty) 5 3 :=
    Relation.ReflTransGen.single (by decide)
  have h4 : Under (multiPathGraph 7 2 3 MatrixXd.empty MatrixXd.empty MatrixXd.empty) 5 4 :=
    Relation.ReflTransGen.single (by decide)
  have hall : ∀ v, v < 6 → Under (multiPathGraph 7 2 3 MatrixXd.empty MatrixXd.empty MatrixXd.empty) 5 v := by
    intro v hv
    have : v = 0 ∨ v = 1 ∨ v = 2 ∨ v = 3 ∨ v = 4 ∨ v = 5 := by omega
    rcases this with h | h | h | h | h | h <;> subst h
    · exact Relation.ReflTransGen.tail h3 (by decide)
    · exact Relation.ReflTransGen.tail h3 (by decide)
    · exact Relation.ReflTransGen.tail h4 (by decide)
    · exact h3
    · exact h4
    · exact Relation.ReflTransGen.refl
  refine ⟨by unfold Acyclic; decide, hwl, ?_, ?_, by decide⟩
  · intro v hv p hp
    have hvlt := under_lt_length _ 5 (by decide) hwl hv
    exact hall p (hwl.2.1 v hvlt p hp)
  · intro v _ hch
    have hvlt := lt_length_of_children_ne_nil _ v hch
    have hv6 : v < 6 := hvlt
    have : v = 0 ∨ v = 1 ∨ v = 2 ∨ v = 3 ∨ v = 4 ∨ v = 5 := by omega
    rcases this with h | h | h | h | h | h <;> subst h <;>
      first
        | exact absurd rfl hch
        | exact ⟨by decide, by decide⟩

/-- C3 on the multi-path graph `root = X*2 + X*3` at `X = 7`. -/
theorem C3_gradient_correctness_witness :
    ∃ h m d p,
      expression.propagate Prims.placeholder 6
        (multiPathGraph 7 2 3 MatrixXd.empty MatrixXd.empty MatrixXd.empty) 5 = .ok (h, m) ∧
      NodePoly (multiPathGraph 7 2 3 MatrixXd.empty MatrixXd.empty MatrixXd.empty) 5 p ∧
      m = scalar (MvPolynomial.eval
        (leafVal (multiPathGraph 7 2 3 MatrixXd.empty MatrixXd.empty MatrixXd.empty)) p) ∧
      expression.backpropagate Prims.placeholder 7 h 5 [(0, MatrixXd.empty)]
        = (.ok (), writeBack d [(0, MatrixXd.empty)]) ∧
      ∀ l, Under (multiPathGraph 7 2 3 MatrixXd.empty MatrixXd.empty MatrixXd.empty) 5 l →
        getChildren (multiPathGraph 7 2 3 MatrixXd.empty MatrixXd.empty MatrixXd.empty) l = [] →
        derivAt d l = scalar (MvPolynomial.eval
          (leafVal (multiPathGraph 7 2 3 MatrixXd.empty MatrixXd.empty MatrixXd.empty))
          (MvPolynomial.pderiv l p)) :=
  C3_gradient_correctness Prims.placeholder _ 5 id [(0, MatrixXd.empty)] 6 7
    multiPath_scalarDag
    (fun l hl hch => by
      have hwl : WellLinked
          (multiPathGraph 7 2 3 MatrixXd.empty MatrixXd.empty MatrixXd.empty) := by
        unfold WellLinked; decide
      have hlt : l < 6 := under_lt_length _ 5 (by decide) hwl hl
      have : l = 0 ∨ l = 1 ∨ l = 2 ∨ l = 3 ∨ l = 4 ∨ l = 5 := by omega
      rcases this with h | h | h | h | h | h <;> subst h <;>
        first
          | exact ⟨_, rfl⟩
          | exact absurd hch (by decide))
    (by decide) (by decide)

/-! ## C11: the gradient distributor -/

theorem _back_nonconsts_from_ok (P : Prims) (g : Graph) (op : op_type)
    (operands nonconsts : List Nat) (dx : MatrixXd) :
    ∀ (rest : List Nat) (i : Nat) (ds : List MatrixXd),
      _back_nonconsts_from P g op operands nonconsts dx i rest = .ok ds →
      ds.length = rest.length ∧
      ∀ j v, rest[j]? = some v →
        (v ∉ nonconsts → ds[j]? = some (zeros_like (getValue g v))) ∧
        (v ∈ nonconsts → ∃ d, ds[j]? = some d ∧
          _back_single P g op dx operands (i + j) = .ok d) := by
  intro rest
  induction rest with
  | nil =>
    intro i ds h
    simp only [_back_nonconsts_from, Except.ok.injEq] at h
    subst h
    exact ⟨rfl, fun j v hv => by simp at hv⟩
  | cons w rest ih =>
    intro i ds h
    simp only [_back_nonconsts_from] at h
    split at h
    · rename_i hw
      cases h2 : _back_nonconsts_from P g op operands nonconsts dx (i + 1) rest with
      | error e => rw [h2] at h; cases h
      | ok ds2 =>
        rw [h2] at h
        cases h
        obtain ⟨hlen, hent⟩ := ih (i + 1) ds2 h2
        refine ⟨by simp [hlen], ?_⟩
        intro j v hv
        cases j with
        | zero =>
          simp only [List.getElem?_cons_zero, Option.some.injEq] at hv
          subst hv
          exact ⟨fun _ => by simp, fun hin => absurd hin hw⟩
        | succ j =>
          simp only [List.getElem?_cons_succ] at hv ⊢
          have := hent j v hv
          rw [show i + (j + 1) = i + 1 + j by omega]
          exact this
    · rename_i hw
      cases h1 : _back_single P g op dx operands i with
      | error e1 => rw [h1] at h; cases h
      | ok d =>
        rw [h1] at h
        cases h2 : _back_nonconsts_from P g op operands nonconsts dx (i + 1) rest with
        | error e => rw [h2] at h; cases h
        | ok ds2 =>
          rw [h2] at h
          cases h
          obtain ⟨hlen, hent⟩ := ih (i + 1) ds2 h2
          refine ⟨by simp [hlen], ?_⟩
          intro j v hv
          cases j with
          | zero =>
            simp only [List.getElem?_cons_zero, Option.some.injEq] at hv
            subst hv
            exact ⟨fun hout => absurd hout hw, fun _ => ⟨d, by simp, h1⟩⟩
          | succ j =>
            simp only [List.getElem?_cons_succ] at hv ⊢
            have := hent j v hv
            rw [show i + (j + 1) = i + 1 + j by omega]
            exact this

theorem _back_nonconsts_from_thrown (P : Prims) (g : Graph) (op : op_type)
    (operands nonconsts : List Nat) (dx : MatrixXd) (e : Exn) :
    ∀ (rest : List Nat) (i : Nat),
      _back_nonconsts_from P g op operands nonconsts dx i rest = .error e →
      ∃ j v, rest[j]? = some v ∧ v ∈ nonconsts ∧
        _back_single P g op dx operands (i + j) = .error e := by
  intro rest
  induction rest with
  | nil => intro i h; simp [_back_nonconsts_from] at h
  | cons w rest ih =>
    intro i h
    simp only [_back_nonconsts_from] at h
    split at h
    · cases h2 : _back_nonconsts_from P g op operands nonconsts dx (i + 1) rest with
      | error e2 =>
        rw [h2] at h; cases h
        obtain ⟨j, v, hv, hin, hj⟩ := ih (i + 1) h2
        exact ⟨j + 1, v, by simpa using hv, hin, by rw [show i + (j + 1) = i + 1 + j by omega]; exact hj⟩
      | ok ds => rw [h2] at h; cases h
    · rename_i hw
      cases h1 : _back_single P g op dx operands i with
      | error e1 =>
        rw [h1] at h; cases h
        exact ⟨0, w, by simp, not_not.1 hw, h1⟩
      | ok d =>
        rw [h1] at h
        cases h2 : _back_nonconsts_from P g op operands nonconsts dx (i + 1) rest with
        | error e2 =>
          rw [h2] at h; cases h
          obtain ⟨j, v, hv, hin, hj⟩ := ih (i + 1) h2
          exact ⟨j + 1, v, by simpa using hv, hin, by rw [show i + (j + 1) = i + 1 + j by omega]; exact hj⟩
        | ok ds => rw [h2] at h; cases h

theorem _back_nonconsts_from_eq (P : Prims) (g : Graph) (op : op_type)
    (operands nonconsts : List Nat) (dx : MatrixXd) :
    ∀ (rest : List Nat) (i : Nat), (∀ v ∈ rest, v ∈ nonconsts) →
      _back_nonconsts_from P g op operands nonconsts dx i rest
        = _back_from P g op operands dx i rest := by
  intro rest
  induction rest with
  | nil => intro i _; rfl
  | cons w rest ih =>
    intro i h
    have hw : w ∈ nonconsts := h w (List.mem_cons_self _ _)
    simp only [_back_nonconsts_from, _back_from, hw, not_true_eq_false, if_false]
    rw [ih (i + 1) (fun v hv => h v (List.mem_cons_of_mem _ hv))]

theorem _back_nonconsts_from_all_out (P : Prims) (g : Graph) (op : op_type)
    (operands nonconsts : List Nat) (dx : MatrixXd) :
    ∀ (rest : List Nat) (i : Nat), (∀ v ∈ rest, v ∉ nonconsts) →
      _back_nonconsts_from P g op operands nonconsts dx i rest
        = .ok (rest.map (fun v => zeros_like (getValue g v))) := by
  intro rest
  induction rest with
  | nil => intro i _; rfl
  | cons w rest ih =>
    intro i h
    have hw : w ∉ nonconsts := h w (List.mem_cons_self _ _)
    simp only [_back_nonconsts_from, hw, not_false_eq_true, if_true]
    rw [ih (i + 1) (fun v hv => h v (List.mem_cons_of_mem _ hv))]
    rfl

/-- C11. Gradient distributor.  When the restricted `_back` returns, it returns
one contribution per operand, in operand order: the zero tensor shaped like
operand `i` when operand `i` is outside `nonconsts`, and what
`_back_single(op, dx, operands, i)` returns otherwise.  It throws only what
`_back_single` throws for an operand in `nonconsts`; the rule is not invoked
for an operand outside `nonconsts`, so with every operand outside the call
returns the zero tensors under every operator, `inverse` and `none` included.
When every operand is in `nonconsts` the restricted and the unrestricted
`_back` are the same. -/
theorem C11_gradient_distributor (P : Prims) (g : Graph) (op : op_type)
    (operands nonconsts : List Nat) (dx : MatrixXd) :
    (∀ ds, _back_nonconsts P g op operands nonconsts dx = .ok ds →
      ds.length = operands.length ∧
      ∀ i v, operands[i]? = some v →
        (v ∉ nonconsts → ds[i]? = some (zeros_like (getValue g v))) ∧
        (v ∈ nonconsts → ∃ d, ds[i]? = some d ∧
          _back_single P g op dx operands i = .ok d)) ∧
    (∀ e, _back_nonconsts P g op operands nonconsts dx = .error e →
      ∃ i v, operands[i]? = some v ∧ v ∈ nonconsts ∧
        _back_single P g op dx operands i = .error e) ∧
    ((∀ v ∈ operands, v ∉ nonconsts) →
      _back_nonconsts P g op operands nonconsts dx
        = .ok (operands.map (fun v => zeros_like (getValue g v)))) ∧
    ((∀ v ∈ operands, v ∈ nonconsts) →
      _back_nonconsts P g op operands nonconsts dx = _back P g op operands dx) := by
  refine ⟨?_, ?_, ?_, ?_⟩
  · intro ds h
    have := _back_nonconsts_from_ok P g op operands nonconsts dx operands 0 ds h
    simpa using this
  · intro e h
    have := _back_nonconsts_from_thrown P g op operands nonconsts dx e operands 0 h
    simpa using this
  · intro h
    exact _back_nonconsts_from_all_out P g op operands nonconsts dx operands 0 h
  · intro h
    exact _back_nonconsts_from_eq P g op operands nonconsts dx operands 0 h

/-! ## C15: the local gradient rule throws exactly for `inverse` and `none` -/

/-- C15. For every upstream gradient, operand list and operand index,
`_back_single` throws if and only if the operator is `inverse` or the leaf
tag `none` (`inverse_derivative` for the first, `none_op` for the second);
for each of the other ten operators it returns a tensor. -/
theorem C15_local_rule_raises_iff_unsupported (P : Prims) (g : Graph) (op : op_type)
    (dx : MatrixXd) (operands : List Nat) (i : Nat) :
    ((∃ e, _back_single P g op dx operands i = .error e) ↔ (op = .inverse ∨ op = .none)) ∧
    (op ≠ .inverse → op ≠ .none → ∃ m, _back_single P g op dx operands i = .ok m) ∧
    _back_single P g .inverse dx operands i = .error .inverse_derivative ∧
    _back_single P g .none dx operands i = .error .none_op := by
  have hok : op ≠ .inverse → op ≠ .none → ∃ m, _back_single P g op dx operands i = .ok m := by
    intro h1 h2
    unfold _back_single
    cases op <;> simp only <;> (try split_ifs) <;> first
      | exact ⟨_, rfl⟩
      | exact absurd rfl h1
      | exact absurd rfl h2
  refine ⟨⟨?_, ?_⟩, hok, rfl, rfl⟩
  · rintro ⟨e, he⟩
    rcases _back_single_error P g op dx operands i e he with ⟨h, _⟩ | ⟨h, _⟩
    · exact Or.inr h
    · exact Or.inl h
  · rintro (h | h)
    · subst h; exact ⟨_, rfl⟩
    · subst h; exact ⟨_, rfl⟩

/-! ## Coefficient lists -/

theorem zipWith_replicate_left {α β γ : Type} (f : α → β → γ) (c : α) :
    ∀ (l : List β) (n : Nat), l.length ≤ n →
      List.zipWith f (List.replicate n c) l = l.map (f c) := by
  intro l
  induction l with
  | nil => intro n _; simp
  | cons b l ih =>
    intro n hn
    cases n with
    | zero => simp at hn
    | succ n =>
      simp only [List.replicate_succ, List.zipWith_cons_cons, List.map_cons]
      rw [ih n (by simpa using hn)]

/-! ## C14: sum reduction -/

theorem sumReduce_propagate (P : Prims) (A vR : MatrixXd) (k : Nat) :
    expression.propagate P (k + 2) (sumReduceGraph A vR) 1
      = .ok (sumReduceGraph A (scalar A.sum), scalar A.sum) := by
  simp [expression.propagate, _rpropagate, forChildren, sumReduceGraph, getChildren,
    Graph.node, getOp, _eval, operand, getValue, mval, setValue]

theorem sumReduce_backLoop (P : Prims) (A : MatrixXd) (x : ℚ) (k : Nat) :
    ∃ s, backLoop P (sumReduceGraph A (scalar x)) none (k + 1)
        (backInit (sumReduceGraph A (scalar x)) 1) = .ok s
      ∧ s.derivatives 0 = some (MatrixXd.const A.rows A.cols 1) := by
  simp [backLoop, backBody, backInit, backChildren, _back, _back_from, _back_single,
    sumReduceGraph, getChildren, Graph.node, getOp, operand, getValue, sval, mval, scalar,
    ones_like, zeros_like, MatrixXd.const, MatrixXd.map, MatrixXd.coeff, MatrixXd.zip,
    getParents, Function.update, pending, derivAt]

/-- C14. Sum reduction (Scenario D generalised): for every leaf tensor `A`, on
`root = sum(A)` the forward pass returns the `1 x 1` tensor holding the sum of
the entries of `A`, and the unrestricted `backpropagate` returns and writes
for `A` the tensor shaped like `A` with every entry 1. -/
theorem C14_sum_reduction (P : Prims) (A vR : MatrixXd) (leaves : List (Nat × MatrixXd))
    (fuel1 fuel2 : Nat) (h1 : 2 ≤ fuel1) (h2 : 1 ≤ fuel2) :
    ∃ h d, expression.propagate P fuel1 (sumReduceGraph A vR) 1 = .ok (h, scalar A.sum) ∧
      expression.backpropagate P fuel2 h 1 leaves = (.ok (), writeBack d leaves) ∧
      derivAt d 0 = MatrixXd.const A.rows A.cols 1 := by
  obtain ⟨k1, rfl⟩ := Nat.exists_eq_add_of_le h1
  obtain ⟨k2, rfl⟩ := Nat.exists_eq_add_of_le h2
  rw [Nat.add_comm 2 k1, Nat.add_comm 1 k2]
  obtain ⟨s, hs, hd⟩ := sumReduce_backLoop P A A.sum k2
  refine ⟨sumReduceGraph A (scalar A.sum), s.derivatives, sumReduce_propagate P A vR k1, ?_, ?_⟩
  · simp only [expression.backpropagate, backpropagateWith, hs]
  · simp [derivAt, hd]

/-- C14 at `A = [[1,2],[3,4]]`: the sum is 10 and the gradient is all ones. -/
theorem C14_sum_reduction_witness :
    ∃ h d, expression.propagate Prims.placeholder 2
        (sumReduceGraph ⟨2, 2, [1, 2, 3, 4]⟩ MatrixXd.empty) 1
        = .ok (h, scalar (MatrixXd.sum ⟨2, 2, [1, 2, 3, 4]⟩)) ∧
      expression.backpropagate Prims.placeholder 1 h 1 [(0, MatrixXd.empty)]
        = (.ok (), writeBack d [(0, MatrixXd.empty)]) ∧
      derivAt d 0 = MatrixXd.const (MatrixXd.rows ⟨2, 2, [1, 2, 3, 4]⟩)
        (MatrixXd.cols ⟨2, 2, [1, 2, 3, 4]⟩) 1 :=
  C14_sum_reduction Prims.placeholder ⟨2, 2, [1, 2, 3, 4]⟩ MatrixXd.empty _ 2 1
    (by decide) (by decide)

/-! ## C12: scalar-broadcast multiply -/

theorem scalarTimes_propagate (P : Prims) (a : ℚ) (B vR : MatrixXd) (k : Nat) :
    expression.propagate P (k + 2) (scalarTimesGraph a B vR) 2
      = .ok (scalarTimesGraph a B (B.map (fun x => a * x)), B.map (fun x => a * x)) := by
  simp [expression.propagate, _rpropagate, forChildren, scalarTimesGraph, getChildren,
    Graph.node, getOp, _eval, operand, getValue, mval, setValue, is_scalar, scalar,
    MatrixXd.size, sval, MatrixXd.coeff]

theorem scalarTimes_backLoop (P : Prims) (a : ℚ) (B : MatrixXd) (hB : B.WF) (k : Nat) :
    ∃ s, backLoop P (scalarTimesGraph a B (B.map (fun x => a * x))) none (k + 1)
        (backInit (scalarTimesGraph a B (B.map (fun x => a * x))) 2) = .ok s
      ∧ s.derivatives 0 = some (scalar B.sum)
      ∧ s.derivatives 1 = some (MatrixXd.const B.rows B.cols a) := by
  obtain ⟨r, c, l⟩ := B
  simp only [MatrixXd.WF] at hB
  by_cases hs : r * c = 1
  · obtain ⟨rfl, rfl⟩ : r = 1 ∧ c = 1 := by simpa using hs
    obtain ⟨x, rfl⟩ : ∃ x, l = [x] := List.length_eq_one.mp (by simpa using hB)
    simp [backLoop, backBody, backInit, backChildren, _back, _back_from, _back_single,
      scalarTimesGraph, getChildren, Graph.node, getOp, operand, getValue, is_scalar, sval,
      mval, scalar, MatrixXd.size, ones_like, zeros_like, MatrixXd.const, derivAt,
      MatrixXd.map, MatrixXd.coeff, MatrixXd.zip, MatrixXd.sum, getParents, Function.update,
      pending]
  · simp [backLoop, backBody, backInit, backChildren, _back, _back_from, _back_single,
      scalarTimesGraph, getChildren, Graph.node, getOp, operand, getValue, is_scalar, sval,
      mval, scalar, MatrixXd.size, ones_like, zeros_like, MatrixXd.const, derivAt,
      MatrixXd.map, MatrixXd.coeff, MatrixXd.zip, MatrixXd.sum, getParents, Function.update,
      pending, hs, zipWith_replicate_left, hB]

/-- C12. Scalar-broadcast multiply (Scenario B generalised): for every scalar
leaf `a` and every leaf matrix `B`, on `root = a * B` the forward pass returns
the matrix with entries `a * B[i][j]`, and the unrestricted `backpropagate`
returns and writes for `a` the `1 x 1` tensor holding the sum of the entries
of `B`, and for `B` the matrix shaped like `B` with every entry `a`. -/
theorem C12_scalar_broadcast_multiply (P : Prims) (a : ℚ) (B vR : MatrixXd)
    (leaves : List (Nat × MatrixXd)) (fuel1 fuel2 : Nat)
    (hB : B.WF) (h1 : 2 ≤ fuel1) (h2 : 1 ≤ fuel2) :
    ∃ h d, expression.propagate P fuel1 (scalarTimesGraph a B vR) 2
        = .ok (h, B.map (fun x => a * x)) ∧
      expression.backpropagate P fuel2 h 2 leaves = (.ok (), writeBack d leaves) ∧
      derivAt d 0 = scalar B.sum ∧
      derivAt d 1 = MatrixXd.const B.rows B.cols a := by
  obtain ⟨k1, rfl⟩ := Nat.exists_eq_add_of_le h1
  obtain ⟨k2, rfl⟩ := Nat.exists_eq_add_of_le h2
  rw [Nat.add_comm 2 k1, Nat.add_comm 1 k2]
  obtain ⟨s, hs, hd0, hd1⟩ := scalarTimes_backLoop P a B hB k2
  refine ⟨scalarTimesGraph a B (B.map (fun x => a * x)), s.derivatives,
    scalarTimes_propagate P a B vR k1, ?_, ?_, ?_⟩
  · simp only [expression.backpropagate, backpropagateWith, hs]
  · simp [derivAt, hd0]
  · simp [derivAt, hd1]

/-- C12 at `a = 2`, `B = [[1,2],[3,4]]`: the value is `[[2,4],[6,8]]`,
`da = 10` and `dB = [[2,2],[2,2]]`. -/
theorem C12_scalar_broadcast_multiply_witness :
    (∃ h d, expression.propagate Prims.placeholder 2
        (scalarTimesGraph 2 ⟨2, 2, [1, 2, 3, 4]⟩ MatrixXd.empty) 2
        = .ok (h, MatrixXd.map (fun x => 2 * x) ⟨2, 2, [1, 2, 3, 4]⟩) ∧
      expression.backpropagate Prims.placeholder 1 h 2 [(0, MatrixXd.empty), (1, MatrixXd.empty)]
        = (.ok (), writeBack d [(0, MatrixXd.empty), (1, MatrixXd.empty)]) ∧
      derivAt d 0 = scalar (MatrixXd.sum ⟨2, 2, [1, 2, 3, 4]⟩) ∧
      derivAt d 1 = MatrixXd.const (MatrixXd.rows ⟨2, 2, [1, 2, 3, 4]⟩)
        (MatrixXd.cols ⟨2, 2, [1, 2, 3, 4]⟩) 2) ∧
    MatrixXd.map (fun x => 2 * x) ⟨2, 2, [1, 2, 3, 4]⟩ = ⟨2, 2, [2, 4, 6, 8]⟩ ∧
    scalar (MatrixXd.sum ⟨2, 2, [1, 2, 3, 4]⟩) = scalar 10 ∧
    MatrixXd.const 2 2 2 = ⟨2, 2, [2, 2, 2, 2]⟩ :=
  ⟨C12_scalar_broadcast_multiply Prims.placeholder 2 ⟨2, 2, [1, 2, 3, 4]⟩ MatrixXd.empty _ 2 1
      (by simp [MatrixXd.WF]) (by decide) (by decide),
    by simp [MatrixXd.map]; norm_num,
    by simp [MatrixXd.sum]; norm_num,
    by simp [MatrixXd.const, List.replicate]⟩

/-! ## C13: elementwise divide -/

theorem divide_propagate (P : Prims) (a b vR : MatrixXd) (hns : a.rows * a.cols ≠ 1)
    (hsh : SameShape a b) (k : Nat) :
    expression.propagate P (k + 2) (divideGraph a b vR) 2
      = .ok (divideGraph a b (MatrixXd.zip (fun x y => x / y) a b),
          MatrixXd.zip (fun x y => x / y) a b) := by
  have hnb : b.rows * b.cols ≠ 1 := by rw [← hsh.1, ← hsh.2]; exact hns
  simp [expression.propagate, _rpropagate, forChildren, divideGraph, getChildren,
    Graph.node, getOp, _eval, operand, getValue, mval, setValue, is_scalar,
    MatrixXd.size, hns, hnb]

theorem divide_backLoop (P : Prims) (a b : MatrixXd) (ha : a.WF) (hb : b.WF)
    (hsh : SameShape a b) (hns : a.rows * a.cols ≠ 1) (k : Nat) :
    ∃ s, backLoop P (divideGraph a b (MatrixXd.zip (fun x y => x / y) a b)) none (k + 1)
        (backInit (divideGraph a b (MatrixXd.zip (fun x y => x / y) a b)) 2) = .ok s
      ∧ s.derivatives 0 = some ⟨a.rows, a.cols, b.data.map (fun y => 1 / y)⟩
      ∧ s.derivatives 1
          = some ⟨b.rows, b.cols, List.zipWith (fun x y => -x / y ^ 2) a.data b.data⟩ := by
  obtain ⟨r, c, la⟩ := a
  obtain ⟨r2, c2, lb⟩ := b
  obtain ⟨rfl, rfl⟩ : r = r2 ∧ c = c2 := hsh
  simp only [MatrixXd.WF] at ha hb
  simp only at hns
  simp [backLoop, backBody, backInit, backChildren, _back, _back_from, _back_single,
    divideGraph, getChildren, Graph.node, getOp, operand, getValue, is_scalar, sval,
    mval, MatrixXd.size, ones_like, zeros_like, MatrixXd.const, derivAt,
    MatrixXd.map, MatrixXd.coeff, MatrixXd.zip, getParents, Function.update,
    pending, hns, zipWith_replicate_left, ha, hb]

/-- C13. Elementwise divide (Scenario C generalised), in exact rational
arithmetic: for equal-shaped non-scalar leaf tensors `a`, `b` with every entry
of `b` non-zero, on `root = a / b` the forward pass returns the tensor with
entries `a[i] / b[i]`, and the unrestricted `backpropagate` returns and writes
`da[i] = 1 / b[i]` and `db[i] = -a[i] / b[i]^2`. -/
theorem C13_elementwise_divide (P : Prims) (a b vR : MatrixXd)
    (leaves : List (Nat × MatrixXd)) (fuel1 fuel2 : Nat)
    (ha : a.WF) (hb : b.WF) (hsh : SameShape a b) (hns : a.rows * a.cols ≠ 1)
    (_hnz : ∀ y ∈ b.data, y ≠ 0) (h1 : 2 ≤ fuel1) (h2 : 1 ≤ fuel2) :
    ∃ h d, expression.propagate P fuel1 (divideGraph a b vR) 2
        = .ok (h, ⟨a.rows, a.cols, List.zipWith (fun x y => x / y) a.data b.data⟩) ∧
      expression.backpropagate P fuel2 h 2 leaves = (.ok (), writeBack d leaves) ∧
      derivAt d 0 = ⟨a.rows, a.cols, b.data.map (fun y => 1 / y)⟩ ∧
      derivAt d 1 = ⟨b.rows, b.cols, List.zipWith (fun x y => -x / y ^ 2) a.data b.data⟩ := by
  obtain ⟨k1, rfl⟩ := Nat.exists_eq_add_of_le h1
  obtain ⟨k2, rfl⟩ := Nat.exists_eq_add_of_le h2
  rw [Nat.add_comm 2 k1, Nat.add_comm 1 k2]
  obtain ⟨s, hs, hd0, hd1⟩ := divide_backLoop P a b ha hb hsh hns k2
  refine ⟨divideGraph a b (MatrixXd.zip (fun x y => x / y) a b), s.derivatives,
    divide_propagate P a b vR hns hsh k1, ?_, ?_, ?_⟩
  · simp only [expression.backpropagate, backpropagateWith, hs]
  · simp [derivAt, hd0]
  · simp [derivAt, hd1]

/-- C13 at `a = [1,2]`, `b = [2,4]`: the value is `[1/2,1/2]`,
`da = [1/2,1/4]` and `db = [-1/4,-1/8]`. -/
theorem C13_elementwise_divide_witness :
    (∃ h d, expression.propagate Prims.placeholder 2
        (divideGraph ⟨1, 2, [1, 2]⟩ ⟨1, 2, [2, 4]⟩ MatrixXd.empty) 2
        = .ok (h, ⟨MatrixXd.rows ⟨1, 2, [1, 2]⟩, MatrixXd.cols ⟨1, 2, [1, 2]⟩,
            List.zipWith (fun x y => x / y) (MatrixXd.data ⟨1, 2, [1, 2]⟩)
              (MatrixXd.data ⟨1, 2, [2, 4]⟩)⟩) ∧
      expression.backpropagate Prims.placeholder 1 h 2 [(0, MatrixXd.empty), (1, MatrixXd.empty)]
        = (.ok (), writeBack d [(0, MatrixXd.empty), (1, MatrixXd.empty)]) ∧
      derivAt d 0 = ⟨MatrixXd.rows ⟨1, 2, [1, 2]⟩, MatrixXd.cols ⟨1, 2, [1, 2]⟩,
        (MatrixXd.data ⟨1, 2, [2, 4]⟩).map (fun y => 1 / y)⟩ ∧
      derivAt d 1 = ⟨MatrixXd.rows ⟨1, 2, [2, 4]⟩, MatrixXd.cols ⟨1, 2, [2, 4]⟩,
        List.zipWith (fun x y => -x / y ^ 2) (MatrixXd.data ⟨1, 2, [1, 2]⟩)
          (MatrixXd.data ⟨1, 2, [2, 4]⟩)⟩) ∧
    List.zipWith (fun x y => x / y) [(1 : ℚ), 2] [2, 4] = [1 / 2, 1 / 2] ∧
    List.map (fun y => 1 / y) [(2 : ℚ), 4] = [1 / 2, 1 / 4] ∧
    List.zipWith (fun x y => -x / y ^ 2) [(1 : ℚ), 2] [2, 4] = [-1 / 4, -1 / 8] :=
  ⟨C13_elementwise_divide Prims.placeholder ⟨1, 2, [1, 2]⟩ ⟨1, 2, [2, 4]⟩ MatrixXd.empty _ 2 1
      (by simp [MatrixXd.WF]) (by simp [MatrixXd.WF]) ⟨rfl, rfl⟩ (by decide)
      (by simp) (by decide) (by decide),
    by norm_num, by norm_num, by norm_num⟩

/-! ## C18: leaf discovery -/

/-- C18. Leaf discovery: on an acyclic graph `findLeaves()` terminates (the
number of nodes counted once per path from the root is enough fuel) and
returns a list without duplicates whose members are exactly the childless
nodes reachable from the root by child links; when the root has no children
the list is the root alone. -/
theorem C18_leaf_discovery (g : Graph) (root : Nat) (rank : Nat → Nat)
    (hac : Acyclic g rank) (fuel : Nat) (hf : walkCost g (rank root) root ≤ fuel) :
    ∃ leaves, expression.findLeaves fuel g root = some leaves ∧ leaves.Nodup ∧
      (∀ l, l ∈ leaves ↔ (Under g root l ∧ getChildren g l = [])) ∧
      (getChildren g root = [] → leaves = [root]) := by
  obtain ⟨leaves, hr, hnd, hmem⟩ := findLeaves_spec g root rank hac fuel hf
  refine ⟨leaves, hr, hnd, hmem, ?_⟩
  intro hroot
  have hpos : 1 ≤ walkCost g (rank root) root := by
    cases rank root <;> simp [walkCost]
  obtain ⟨k, rfl⟩ : ∃ k, fuel = k + 1 := ⟨fuel - 1, by omega⟩
  have : expression.findLeaves (k + 1) g root = some [root] := by
    simp [expression.findLeaves, findLeavesLoop, hroot, setInsert]
  rw [this] at hr
  exact (Option.some.inj hr).symm

/-- C18 on the multi-path graph, where the leaf `X` (handle 0) is reached along
two paths: the leaves found are `X`, `c1`, `c2`, each once. -/
theorem C18_leaf_discovery_witness :
    (∃ leaves, expression.findLeaves 7
        (multiPathGraph 7 2 3 MatrixXd.empty MatrixXd.empty MatrixXd.empty) 5 = some leaves ∧
      leaves.Nodup ∧
      (∀ l, l ∈ leaves ↔
        (Under (multiPathGraph 7 2 3 MatrixXd.empty MatrixXd.empty MatrixXd.empty) 5 l ∧
          getChildren (multiPathGraph 7 2 3 MatrixXd.empty MatrixXd.empty MatrixXd.empty) l
            = [])) ∧
      (getChildren (multiPathGraph 7 2 3 MatrixXd.empty MatrixXd.empty MatrixXd.empty) 5 = [] →
        leaves = [5])) ∧
    expression.findLeaves 7
        (multiPathGraph 7 2 3 MatrixXd.empty MatrixXd.empty MatrixXd.empty) 5
      = some [0, 1, 2] :=
  ⟨C18_leaf_discovery _ 5 id (by unfold Acyclic; decide) 7 (by decide), by decide⟩

/-! ## C20: the shape of a local gradient -/

theorem is_scalar_iff (m : MatrixXd) : is_scalar m = true ↔ m.rows = 1 ∧ m.cols = 1 := by
  simp [is_scalar, MatrixXd.size]

theorem is_scalar_false_iff (m : MatrixXd) :
    is_scalar m = false ↔ ¬ (m.rows = 1 ∧ m.cols = 1) := by
  rw [← is_scalar_iff]; simp

/-- C20. Gradient shape invariant: for every operator other than `inverse` and
the leaf tag, every operand list of the operator's arity whose values are in
a valid shape relation, every `dx` shaped like `_eval(op, operands)` and every
operand index `i`, `_back_single(op, dx, operands, i)` returns a tensor with
exactly the shape of operand `i`; so an accumulator shaped like the child (the
zero-initialised one in particular) is added to a tensor of equal shape and
keeps the shape of the child. -/
theorem C20_gradient_shape (P : Prims) (g : Graph) (op : op_type) (operands : List Nat)
    (dx r : MatrixXd) (i : Nat)
    (hinv : op ≠ .inverse) (hnone : op ≠ .none)
    (harity : (operands.length : Int) = numOpArgs op) (hi : i < operands.length)
    (hsh : ValidShapes op (operand g operands 0) (operand g operands 1))
    (hr : _eval P g op operands = .ok r) (hdx : SameShape dx r) :
    ∃ d, _back_single P g op dx operands i = .ok d ∧
      SameShape d (operand g operands i) ∧
      SameShape (zeros_like (operand g operands i)) (operand g operands i) ∧
      ∀ acc, SameShape acc (operand g operands i) →
        SameShape acc d ∧
        SameShape (MatrixXd.zip (fun x y => x + y) acc d) (operand g operands i) := by
  have key : ∃ d, _back_single P g op dx operands i = .ok d ∧
      SameShape d (operand g operands i) := by
    have hi2 : i = 0 ∨ (i = 1 ∧ numOpArgs op = 2) := by
      cases op <;> simp only [numOpArgs] at harity ⊢ <;> simp <;> omega
    generalize ho0 : operand g operands 0 = o0 at *
    generalize ho1 : operand g operands 1 = o1 at *
    obtain ⟨dr, dc, dl⟩ := dx
    obtain ⟨rr, rc, rl⟩ := r
    obtain ⟨r0, c0, l0⟩ := o0
    obtain ⟨r1, c1, l1⟩ := o1
    obtain ⟨rfl, rfl⟩ : dr = rr ∧ dc = rc := hdx
    clear harity hi
    rcases hi2 with rfl | ⟨rfl, h2⟩
    · cases op <;>
        simp only [_back_single, _eval, ho0, ho1, ValidShapes, SameShape, mval,
          Nat.sub_zero, ne_eq, not_true_eq_false, reduceCtorEq, not_false_eq_true,
          is_scalar_iff, Bool.not_eq_true, is_scalar_false_iff] at * <;>
        by_cases h0 : r0 = 1 ∧ c0 = 1 <;> by_cases h1 : r1 = 1 ∧ c1 = 1 <;>
        simp [h0, h1, MatrixXd.map, MatrixXd.zip, scalar, MatrixXd.transpose, MatrixXd.mul,
          ones_like, MatrixXd.const, is_scalar, MatrixXd.size] at hr hsh ⊢ <;>
        omega
    · cases op <;> simp only [numOpArgs] at h2 <;> try omega
      all_goals
        simp only [_back_single, _eval, ho0, ho1, ValidShapes, SameShape, mval,
          Nat.sub_self, ne_eq, not_true_eq_false, reduceCtorEq, not_false_eq_true,
          is_scalar_iff, Bool.not_eq_true, is_scalar_false_iff] at *
        by_cases h0 : r0 = 1 ∧ c0 = 1 <;> by_cases h1 : r1 = 1 ∧ c1 = 1 <;>
        simp [h0, h1, MatrixXd.map, MatrixXd.zip, scalar, MatrixXd.transpose, MatrixXd.mul,
          ones_like, MatrixXd.const, is_scalar, MatrixXd.size] at hr hsh ⊢ <;>
        omega
  obtain ⟨d, hd, hs⟩ := key
  refine ⟨d, hd, hs, ⟨rfl, rfl⟩, ?_⟩
  intro acc hacc
  exact ⟨⟨hacc.1.trans hs.1.symm, hacc.2.trans hs.2.symm⟩, hacc⟩

/-- C20 on `root = a * B` with `a = 2` and `B = [[1,2],[3,4]]`, for the operand
`B` and the all-ones upstream gradient. -/
theorem C20_gradient_shape_witness :
    ∃ d, _back_single Prims.placeholder (scalarTimesGraph 2 ⟨2, 2, [1, 2, 3, 4]⟩ MatrixXd.empty)
        .multiply (MatrixXd.const 2 2 1) [0, 1] 1 = .ok d ∧
      SameShape d (operand (scalarTimesGraph 2 ⟨2, 2, [1, 2, 3, 4]⟩ MatrixXd.empty) [0, 1] 1) ∧
      SameShape
        (zeros_like (operand (scalarTimesGraph 2 ⟨2, 2, [1, 2, 3, 4]⟩ MatrixXd.empty) [0, 1] 1))
        (operand (scalarTimesGraph 2 ⟨2, 2, [1, 2, 3, 4]⟩ MatrixXd.empty) [0, 1] 1) ∧
      ∀ acc,
        SameShape acc (operand (scalarTimesGraph 2 ⟨2, 2, [1, 2, 3, 4]⟩ MatrixXd.empty) [0, 1] 1) →
        SameShape acc d ∧
        SameShape (MatrixXd.zip (fun x y => x + y) acc d)
          (operand (scalarTimesGraph 2 ⟨2, 2, [1, 2, 3, 4]⟩ MatrixXd.empty) [0, 1] 1) :=
  C20_gradient_shape Prims.placeholder (scalarTimesGraph 2 ⟨2, 2, [1, 2, 3, 4]⟩ MatrixXd.empty)
    .multiply [0, 1] (MatrixXd.const 2 2 1) (MatrixXd.map (fun x => 2 * x) ⟨2, 2, [1, 2, 3, 4]⟩) 1
    (by decide) (by decide) (by decide) (by decide)
    (by simp [ValidShapes, operand, scalarTimesGraph, getValue, Graph.node, is_scalar,
      MatrixXd.size, scalar])
    (by simp [_eval, operand, scalarTimesGraph, getValue, Graph.node, is_scalar,
      MatrixXd.size, scalar, mval, sval, MatrixXd.coeff])
    ⟨rfl, rfl⟩

/-! ## C19: the restricted backward pass agrees with the unrestricted one on `nonconsts` -/

theorem backChildren_outside (g : Graph) (nc : List Nat) :
    ∀ (l : List (Nat × MatrixXd)) (sU sR : BackState),
      (∀ c ∈ l.map Prod.fst, c ∉ nc) → AgreeOn nc sU sR →
      AgreeOn nc (backChildren g l sU) sR := by
  intro l
  induction l with
  | nil => intro sU sR _ h; simpa [backChildren] using h
  | cons a rest ih =>
    obtain ⟨c, cd⟩ := a
    intro sU sR hout h
    rw [backChildren_cons]
    have hc : c ∉ nc := hout c (by simp)
    apply ih _ _ (fun x hx => hout x (by simp only [List.map_cons, List.mem_cons]; exact Or.inr hx))
    obtain ⟨hq, hd, he⟩ := h
    refine ⟨?_, ?_, ?_⟩
    · show List.filter _ (if _ then _ else _) = _
      split
      · rw [List.filter_append, hq]; simp [hc]
      · exact hq
    · intro v hv
      have hne : v ≠ c := fun h => hc (h ▸ hv)
      show Function.update sU.derivatives c _ v = _
      rw [Function.update_noteq hne]; exact hd v hv
    · intro v hv
      have hne : v ≠ c := fun h => hc (h ▸ hv)
      show Function.update sU.explored c _ v = _
      rw [Function.update_noteq hne]; exact he v hv

theorem pending_congr (g : Graph) (sU sR : BackState) (c : Nat)
    (h : sU.explored c = sR.explored c) : pending g sU c = pending g sR c := by
  simp [pending, h]

theorem backChildren_agree (g : Graph) (nc : List Nat) :
    ∀ (lU lR : List (Nat × MatrixXd)), AgreeContribs nc lU lR →
      ∀ (sU sR : BackState), AgreeOn nc sU sR →
        AgreeOn nc (backChildren g lU sU) (backChildren g lR sR) := by
  intro lU lR hl
  induction hl with
  | nil => intro sU sR h; simpa [backChildren] using h
  | @cons a b lU lR hab _ ih =>
    obtain ⟨c, cdU⟩ := a
    obtain ⟨c', cdR⟩ := b
    obtain ⟨hcc, hcd⟩ := hab
    simp only at hcc hcd
    subst hcc
    intro sU sR h
    rw [backChildren_cons, backChildren_cons]
    apply ih
    obtain ⟨hq, hd, he⟩ := h
    by_cases hc : c ∈ nc
    · have hp := pending_congr g sU sR c (he c hc)
      rw [hp, hd c hc, hcd hc]
      refine ⟨?_, ?_, ?_⟩
      · show List.filter _ (if _ then _ else _) = List.filter _ (if _ then _ else _)
        split
        · rw [List.filter_append, List.filter_append, hq]
        · exact hq
      · intro v hv
        show Function.update sU.derivatives c _ v = Function.update sR.derivatives c _ v
        by_cases hvc : v = c
        · subst hvc; simp
        · rw [Function.update_noteq hvc, Function.update_noteq hvc]; exact hd v hv
      · intro v hv
        show Function.update sU.explored c _ v = Function.update sR.explored c _ v
        by_cases hvc : v = c
        · subst hvc; simp
        · rw [Function.update_noteq hvc, Function.update_noteq hvc]; exact he v hv
    · refine ⟨?_, ?_, ?_⟩
      · show List.filter _ (if _ then _ else _) = List.filter _ (if _ then _ else _)
        have e1 : ∀ q : List Nat, List.filter (fun v => decide (v ∈ nc)) (q ++ [c])
            = List.filter (fun v => decide (v ∈ nc)) q := by
          intro q; rw [List.filter_append]; simp [hc]
        split <;> split <;> first | exact hq | (simp only [e1]; exact hq)
      · intro v hv
        have hne : v ≠ c := fun h => hc (h ▸ hv)
        show Function.update sU.derivatives c _ v = Function.update sR.derivatives c _ v
        rw [Function.update_noteq hne, Function.update_noteq hne]; exact hd v hv
      · intro v hv
        have hne : v ≠ c := fun h => hc (h ▸ hv)
        show Function.update sU.explored c _ v = Function.update sR.explored c _ v
        rw [Function.update_noteq hne, Function.update_noteq hne]; exact he v hv

theorem _back_from_agree (P : Prims) (g : Graph) (op : op_type) (operands nc : List Nat)
    (dx : MatrixXd) :
    ∀ (rest : List Nat) (i : Nat) (dsU dsR : List MatrixXd),
      _back_from P g op operands dx i rest = .ok dsU →
      _back_nonconsts_from P g op operands nc dx i rest = .ok dsR →
      AgreeContribs nc (rest.zip dsU) (rest.zip dsR) := by
  intro rest
  induction rest with
  | nil => intro i dsU dsR _ _; exact List.Forall₂.nil
  | cons v rest ih =>
    intro i dsU dsR hU hR
    simp only [_back_from] at hU
    simp only [_back_nonconsts_from] at hR
    cases hs : _back_single P g op dx operands i with
    | error e => simp [hs] at hU
    | ok d =>
      cases hU' : _back_from P g op operands dx (i + 1) rest with
      | error e => simp [hs, hU'] at hU
      | ok dsU' =>
        simp only [hs, hU'] at hU
        cases hR' : _back_nonconsts_from P g op operands nc dx (i + 1) rest with
        | error e => split at hR <;> simp [hs, hR'] at hR
        | ok dsR' =>
          have hrec := ih (i + 1) dsU' dsR' hU' hR'
          rw [← Except.ok.inj hU]
          by_cases hv : v ∈ nc
          · simp only [hv, not_true_eq_false, if_false, hs, hR'] at hR
            rw [← Except.ok.inj hR]
            exact List.Forall₂.cons ⟨rfl, fun _ => rfl⟩ hrec
          · simp only [hv, not_false_eq_true, if_true, hR'] at hR
            rw [← Except.ok.inj hR]
            exact List.Forall₂.cons ⟨rfl, fun h => absurd h hv⟩ hrec

theorem agreeContribs_back (P : Prims) (g : Graph) (op : op_type) (children nc : List Nat)
    (dx : MatrixXd) (dsU dsR : List MatrixXd)
    (hU : _back P g op children dx = .ok dsU)
    (hR : _back_nonconsts P g op children nc dx = .ok dsR) :
    AgreeContribs nc (children.zip dsU) (children.zip dsR) :=
  _back_from_agree P g op children nc dx children 0 dsU dsR hU hR

/-- Stuttering simulation: the restricted loop and the unrestricted loop,
started from states that agree on a set `nc` closed under parents, end in
states that agree on `nc`. -/
theorem backLoop_agree (P : Prims) (g : Graph) (nc : List Nat) (hwl : WellLinked g)
    (hcl : ∀ v ∈ nc, ∀ p ∈ getParents g v, p ∈ nc) :
    ∀ (n fU fR : Nat) (sU sR tU tR : BackState), fU + fR ≤ n → AgreeOn nc sU sR →
      backLoop P g none fU sU = .ok tU → backLoop P g (some nc) fR sR = .ok tR →
      AgreeOn nc tU tR := by
  intro n
  induction n with
  | zero =>
    intro fU fR sU sR tU tR hn h hU hR
    obtain ⟨rfl, rfl⟩ : fU = 0 ∧ fR = 0 := by omega
    have hqU : sU.q = [] := by
      cases hq : sU.q with
      | nil => rfl
      | cons v q => rw [backLoop_cons_zero P g none sU v q hq] at hU; cases hU
    have hqR : sR.q = [] := by
      cases hq : sR.q with
      | nil => rfl
      | cons v q => rw [backLoop_cons_zero P g (some nc) sR v q hq] at hR; cases hR
    rw [backLoop_nil P g none 0 sU hqU] at hU
    rw [backLoop_nil P g (some nc) 0 sR hqR] at hR
    cases hU; cases hR; exact h
  | succ n ih =>
    intro fU fR sU sR tU tR hn h hU hR
    -- a step of the restricted loop that skips a node outside `nc`
    have skip : ∀ w q', sR.q = w :: q' → w ∉ nc → AgreeOn nc tU tR := by
      intro w q' hq hw
      cases fR with
      | zero => rw [backLoop_cons_zero P g (some nc) sR w q' hq] at hR; cases hR
      | succ fR =>
        rw [backLoop_cons_succ P g (some nc) fR sR w q' hq] at hR
        have hb : backBody P g (some nc) w ⟨q', sR.derivatives, sR.explored⟩
            = .ok ⟨q', sR.derivatives, sR.explored⟩ := by simp [backBody, hw]
        rw [hb] at hR
        refine ih fU fR sU ⟨q', sR.derivatives, sR.explored⟩ tU tR (by omega) ?_ hU hR
        refine ⟨?_, h.2.1, h.2.2⟩
        rw [h.1, hq]
        simp [hw]
    cases hqU : sU.q with
    | nil =>
      cases hqR : sR.q with
      | nil =>
        rw [backLoop_nil P g none fU sU hqU] at hU
        rw [backLoop_nil P g (some nc) fR sR hqR] at hR
        cases hU; cases hR; exact h
      | cons w q' =>
        apply skip w q' hqR
        intro hw
        have := h.1
        rw [hqU, hqR] at this
        simp [hw] at this
    | cons v q =>
      cases fU with
      | zero => rw [backLoop_cons_zero P g none sU v q hqU] at hU; cases hU
      | succ fU =>
        by_cases hv : v ∈ nc
        · -- the restricted queue holds `v` as its first member of `nc`
          cases hqR : sR.q with
          | nil =>
            have := h.1
            rw [hqU, hqR] at this
            simp [hv] at this
          | cons w q' =>
            by_cases hw : w ∈ nc
            · have hf := h.1
              rw [hqU, hqR] at hf
              simp only [List.filter_cons, hv, hw, decide_True, if_true, List.cons.injEq] at hf
              obtain ⟨hvw, hf⟩ := hf
              subst hvw
              cases fR with
              | zero => rw [backLoop_cons_zero P g (some nc) sR v q' hqR] at hR; cases hR
              | succ fR =>
                rw [backLoop_cons_succ P g none fU sU v q hqU] at hU
                rw [backLoop_cons_succ P g (some nc) fR sR v q' hqR] at hR
                have hdv : derivAt sU.derivatives v = derivAt sR.derivatives v := by
                  simp [derivAt, h.2.1 v hv]
                cases hbU : _back P g (getOp g v) (getChildren g v) (derivAt sU.derivatives v) with
                | error e => simp [backBody, hbU] at hU
                | ok dsU =>
                  cases hbR : _back_nonconsts P g (getOp g v) (getChildren g v) nc
                      (derivAt sR.derivatives v) with
                  | error e => simp [backBody, hbR, hv] at hR
                  | ok dsR =>
                    simp only [backBody, hbU] at hU
                    simp only [backBody, hv, not_true_eq_false, if_false, hbR] at hR
                    refine ih fU fR _ _ tU tR (by omega) ?_ hU hR
                    apply backChildren_agree g nc _ _
                      (agreeContribs_back P g _ _ nc _ dsU dsR hbU (hdv ▸ hbR))
                    exact ⟨hf, h.2.1, h.2.2⟩
            · exact skip w q' hqR hw
        · -- the unrestricted loop processes a node outside `nc`
          rw [backLoop_cons_succ P g none fU sU v q hqU] at hU
          cases hbU : _back P g (getOp g v) (getChildren g v) (derivAt sU.derivatives v) with
          | error e => simp [backBody, hbU] at hU
          | ok dsU =>
            simp only [backBody, hbU] at hU
            refine ih fU fR _ sR tU tR (by omega) ?_ hU hR
            apply backChildren_outside g nc
            · intro c hc hcn
              have hc' : c ∈ getChildren g v := mem_of_mem_zip_fst _ _ _ hc
              exact hv (hcl c hcn v (mem_parents_of_mem_children hwl hc'))
            · refine ⟨?_, h.2.1, h.2.2⟩
              rw [← h.1, hqU]
              simp [hv]

theorem backLoop_ne_thrown (P : Prims) (g : Graph) (r : Option (List Nat))
    (hops : ∀ v < g.length, getOp g v = .plus ∨ getOp g v = .minus ∨
      getOp g v = .multiply ∨ (getOp g v = .none ∧ getChildren g v = []))
    (fuel : Nat) (s : BackState) (e : Exn) : backLoop P g r fuel s ≠ .thrown e := by
  intro h
  obtain ⟨s0, v, q, _, _, hb⟩ :=
    backLoop_thrown P g r (fun _ => True) (fun _ _ _ _ _ _ _ => trivial) fuel s e trivial h
  obtain ⟨hch, hop⟩ := backBody_error P g r v _ e hb
  have hv : v < g.length := lt_length_of_children_ne_nil g v hch
  rcases hops v hv with h1 | h1 | h1 | ⟨_, h1⟩
  · rcases hop with ⟨h2, _⟩ | ⟨h2, _⟩ <;> rw [h1] at h2 <;> cases h2
  · rcases hop with ⟨h2, _⟩ | ⟨h2, _⟩ <;> rw [h1] at h2 <;> cases h2
  · rcases hop with ⟨h2, _⟩ | ⟨h2, _⟩ <;> rw [h1] at h2 <;> cases h2
  · exact hch h1

theorem backLoop_returns (P : Prims) (g : Graph) (r : Option (List Nat))
    (hops : ∀ v < g.length, getOp g v = .plus ∨ getOp g v = .minus ∨
      getOp g v = .multiply ∨ (getOp g v = .none ∧ getChildren g v = []))
    (root fuel : Nat) (hf : g.length < fuel) :
    ∃ s, backLoop P g r fuel (backInit g root) = .ok s := by
  cases h : backLoop P g r fuel (backInit g root) with
  | ok s => exact ⟨s, rfl⟩
  | thrown e => exact absurd h (backLoop_ne_thrown P g r hops fuel _ e)
  | timeout =>
    exact absurd h (backLoop_ne_timeout P g r fuel _
      (le_trans (backInit_measure g root) (by omega)))

/-- C19. Pruning soundness: on a consistently linked graph whose nodes are
childless leaves and add/sub/mul nodes, for every list `S` and
`nonconsts = findNonConsts(S)`, the analysis and both variants of
`backpropagate` return, and the restricted variant writes for every key in `S`
(for every member of `nonconsts`, in fact) the gradient that the unrestricted
variant writes for it. -/
theorem C19_pruning_soundness (P : Prims) (g : Graph) (root : Nat) (S : List Nat)
    (leaves : List (Nat × MatrixXd)) (fuelN fuelU fuelR : Nat) (hwl : WellLinked g)
    (hops : ∀ v < g.length, getOp g v = .plus ∨ getOp g v = .minus ∨
      getOp g v = .multiply ∨ (getOp g v = .none ∧ getChildren g v = []))
    (hfN : S.length + parentEntries g ≤ fuelN) (hfU : g.length < fuelU)
    (hfR : g.length < fuelR) :
    ∃ nonconsts dU dR, expression.findNonConsts fuelN g S = some nonconsts ∧
      expression.backpropagate P fuelU g root leaves = (.ok (), writeBack dU leaves) ∧
      expression.backpropagate_nonconsts P fuelR g root leaves nonconsts
        = (.ok (), writeBack dR leaves) ∧
      (∀ l ∈ S, l ∈ nonconsts) ∧
      (∀ l ∈ nonconsts, derivAt dR l = derivAt dU l) ∧
      (∀ kv ∈ writeBack dR leaves, kv.1 ∈ S → kv ∈ writeBack dU leaves) := by
  obtain ⟨nc, hnc⟩ := findNonConstsLoop_terminates g fuelN S [] hfN
  obtain ⟨_, hS, hcl, _⟩ := findNonConstsLoop_inv g S fuelN S [] nc hnc
    ⟨by simp, fun v hv => ⟨v, hv, Relation.ReflTransGen.refl⟩, fun l hl => Or.inr hl,
      by simp, List.nodup_nil⟩
  obtain ⟨tU, hU⟩ := backLoop_returns P g none hops root fuelU hfU
  obtain ⟨tR, hR⟩ := backLoop_returns P g (some nc) hops root fuelR hfR
  have hag : AgreeOn nc tU tR :=
    backLoop_agree P g nc hwl hcl (fuelU + fuelR) fuelU fuelR _ _ tU tR (le_refl _)
      ⟨rfl, fun _ _ => rfl, fun _ _ => rfl⟩ hU hR
  have heq : ∀ l ∈ nc, derivAt tR.derivatives l = derivAt tU.derivatives l := by
    intro l hl
    simp [derivAt, hag.2.1 l hl]
  refine ⟨nc, tU.derivatives, tR.derivatives, hnc, ?_, ?_, hS, heq, ?_⟩
  · simp only [expression.backpropagate, backpropagateWith, hU]
  · simp only [expression.backpropagate_nonconsts, backpropagateWith, hR]
  · intro kv hkv hin
    simp only [writeBack, List.mem_map] at hkv ⊢
    obtain ⟨a, ha, rfl⟩ := hkv
    exact ⟨a, ha, by rw [heq a.1 (hS a.1 hin)]⟩

/-- C19 on the multi-path graph `root = X * c1 + X * c2` with `S = [X]`. -/
theorem C19_pruning_soundness_witness :
    ∃ nonconsts dU dR,
      expression.findNonConsts 7 (multiPathGraph 7 2 3 (scalar 14) (scalar 21) (scalar 35)) [0]
        = some nonconsts ∧
      expression.backpropagate Prims.placeholder 7
        (multiPathGraph 7 2 3 (scalar 14) (scalar 21) (scalar 35)) 5
        [(0, MatrixXd.empty), (1, MatrixXd.empty)] =
        (.ok (), writeBack dU [(0, MatrixXd.empty), (1, MatrixXd.empty)]) ∧
      expression.backpropagate_nonconsts Prims.placeholder 7
        (multiPathGraph 7 2 3 (scalar 14) (scalar 21) (scalar 35)) 5
        [(0, MatrixXd.empty), (1, MatrixXd.empty)] nonconsts =
        (.ok (), writeBack dR [(0, MatrixXd.empty), (1, MatrixXd.empty)]) ∧
      (∀ l ∈ [0], l ∈ nonconsts) ∧
      (∀ l ∈ nonconsts, derivAt dR l = derivAt dU l) ∧
      (∀ kv ∈ writeBack dR [(0, MatrixXd.empty), (1, MatrixXd.empty)], kv.1 ∈ [0] →
        kv ∈ writeBack dU [(0, MatrixXd.empty), (1, MatrixXd.empty)]) :=
  C19_pruning_soundness Prims.placeholder _ 5 [0] _ 7 7 7 (by unfold WellLinked; decide)
    (by decide) (by decide) (by decide) (by decide)

/-! ## C16: the schedule of the backward loop -/

theorem backLoopTraced_fst (P : Prims) (g : Graph) (r : Option (List Nat)) :
    ∀ (fuel : Nat) (s : BackState) (tr : List Nat),
      (backLoopTraced P g r fuel s tr).1 = backLoop P g r fuel s := by
  intro fuel
  induction fuel with
  | zero =>
    intro s tr
    unfold backLoopTraced backLoop
    cases s.q <;> rfl
  | succ fuel ih =>
    intro s tr
    unfold backLoopTraced backLoop
    cases hq : s.q with
    | nil => rfl
    | cons v q =>
      simp only
      cases backBody P g r v ⟨q, s.derivatives, s.explored⟩ with
      | ok s1 => exact ih s1 _
      | error e => rfl

theorem root_no_parents_of_closed {g : Graph} {root : Nat} {rank : Nat → Nat}
    (hac : Acyclic g rank) (hwl : WellLinked g)
    (hcl : ∀ v, Under g root v → ∀ p ∈ getParents g v, Under g root p) :
    getParents g root = [] := by
  cases hp : getParents g root with
  | nil => rfl
  | cons p ps =>
    have hmem : p ∈ getParents g root := by rw [hp]; exact List.mem_cons_self _ _
    have h1 : Under g root p := hcl root Relation.ReflTransGen.refl p hmem
    have h2 := Under.rank_le hac h1
    have h4 := hac.lt (mem_children_of_mem_parents hwl hmem)
    omega

/-- One dequeue in the backward loop. -/
theorem SchedInv.dequeue_sched {g : Graph} {root : Nat} {s : BackState}
    {done : List Nat} (hwl : WellLinked g)
    (hroot : getParents g root = []) (hinv : SchedInv g root s done [])
    {v : Nat} {q : List Nat} (hq : s.q = v :: q) :
    SchedInv g root ⟨q, s.derivatives, s.explored⟩ (v :: done) (getChildren g v) := by
  have hnd : (v :: (q ++ done)).Nodup := by
    have := hinv.nodup; rw [hq] at this; simpa using this
  have hv : v ∉ done := fun h => (List.nodup_cons.1 hnd).1 (List.mem_append_right _ h)
  have hmem : ∀ w, (w ∈ q ∨ w ∈ v :: done) ↔ (w ∈ s.q ∨ w ∈ done) := by
    intro w; rw [hq]; simp only [List.mem_cons]; tauto
  have hvu : Under g root v := hinv.under v (by rw [hq]; simp)
  have hnoroot : root ∉ getChildren g v := by
    intro h
    have := mem_parents_of_mem_children hwl h
    rw [hroot] at this
    simp at this
  have hpar : ∀ p ∈ getParents g v, p ∈ done := by
    rcases hinv.origin v (Or.inl (by rw [hq]; simp)) with h1 | h1
    · intro p hp; rw [h1, hroot] at hp; simp at hp
    · have h3 := hinv.count v
      rw [pending_eq_zero_of_explored h1] at h3
      simp only [List.count_nil, Nat.cast_zero, add_zero, zero_add] at h3
      exact mem_of_countP_eq_length (getParents g v) done (by omega)
  refine ⟨List.nodup_middle.2 hnd, ?_, ?_, hnoroot, ?_, ?_, ?_, ?_, ?_⟩
  · intro w hw; exact hinv.under w ((hmem w).1 hw)
  · intro c hc; exact Relation.ReflTransGen.tail hvu hc
  · intro c
    have h1 := hinv.count c
    simp only [List.count_nil, Nat.cast_zero, add_zero] at h1
    rw [countP_mem_cons _ _ _ hv, wellLinked_count hwl]
    have h2 : pending g ⟨q, s.derivatives, s.explored⟩ c = pending g s c := rfl
    rw [h2]
    push_cast
    omega
  · intro c hc1 hc2; exact (hmem c).2 (hinv.ready c hc1 hc2)
  · intro c hc; exact hinv.origin c ((hmem c).1 hc)
  · exact (hmem root).2 hinv.rootIn
  · intro pre w post hdec p hp
    cases pre with
    | nil =>
      simp only [List.nil_append, List.cons.injEq] at hdec
      obtain ⟨rfl, rfl⟩ := hdec
      exact hpar p hp
    | cons x pre =>
      simp only [List.cons_append, List.cons.injEq] at hdec
      exact hinv.order pre w post hdec.2 p hp

/-- The children loop keeps the scheduling invariant. -/
theorem SchedInv.children_sched {g : Graph} {root : Nat} {done : List Nat} :
    ∀ (l : List (Nat × MatrixXd)) (s : BackState),
      SchedInv g root s done (l.map Prod.fst) → SchedInv g root (backChildren g l s) done [] := by
  intro l
  induction l with
  | nil => intro s hinv; exact hinv
  | cons hd0 l ih =>
    intro s hinv
    obtain ⟨c0, cd0⟩ := hd0
    rw [backChildren_cons]
    simp only [List.map_cons] at hinv
    have hc0u : Under g root c0 := hinv.restUnder c0 (List.mem_cons_self _ _)
    have hc0r : c0 ≠ root := fun h => hinv.restNoRoot (by rw [h]; exact List.mem_cons_self _ _)
    have hpos : 1 ≤ pending g s c0 := by
      have h1 := hinv.count c0
      have h2 : (getParents g c0).countP (fun p => decide (p ∈ done)) ≤ (getParents g c0).length :=
        List.countP_le_length _
      simp only [List.count_cons_self] at h1
      push_cast at h1
      have h3 : (0 : Int) ≤ ((l.map Prod.fst).count c0 : Int) := Int.natCast_nonneg _
      omega
    have hfresh : ¬ (c0 ∈ s.q ∨ c0 ∈ done) := by
      intro hmem
      rcases hinv.origin c0 hmem with h1 | h1
      · exact hc0r h1
      · rw [pending_eq_zero_of_explored h1] at hpos; omega
    apply ih
    refine ⟨?_, ?_, ?_, ?_, ?_, ?_, ?_, ?_, hinv.order⟩
    · simp only
      split
      · rw [List.append_assoc]
        simp only [List.singleton_append]
        apply List.nodup_middle.2
        exact List.nodup_cons.2 ⟨fun h => hfresh (List.mem_append.1 h), hinv.nodup⟩
      · exact hinv.nodup
    · intro w hw
      simp only at hw
      split at hw
      · rcases hw with hw | hw
        · rcases List.mem_append.1 hw with h1 | h1
          · exact hinv.under w (Or.inl h1)
          · have : w = c0 := by simpa using h1
            rw [this]; exact hc0u
        · exact hinv.under w (Or.inr hw)
      · exact hinv.under w hw
    · intro c hc; exact hinv.restUnder c (List.mem_cons_of_mem _ hc)
    · intro h; exact hinv.restNoRoot (List.mem_cons_of_mem _ h)
    · intro c
      have h1 := hinv.count c
      rw [pending_update]
      by_cases hc : c = c0
      · subst hc
        simp only [List.count_cons_self, if_true] at h1 ⊢
        push_cast at h1
        have h2 : pending g ⟨s.q, s.derivatives, s.explored⟩ c = pending g s c := rfl
        omega
      · have hne : ¬ (c0 == c) = true := by simpa using fun h => hc h.symm
        simp only [List.count_cons, hne, if_false, hc] at h1 ⊢
        have h2 : ∀ q d, pending g ⟨q, d, s.explored⟩ c = pending g s c := fun _ _ => rfl
        rw [h2]
        simpa using h1
    · intro c hc1 hc2
      simp only at hc2 ⊢
      by_cases hc : c = c0
      · subst hc
        simp only [Function.update_same, Option.some.injEq] at hc2
        rw [if_pos ⟨hc1, hc2⟩]
        exact Or.inl (List.mem_append_right _ (List.mem_singleton_self _))
      · simp only [Function.update, hc, dite_false] at hc2
        rcases hinv.ready c hc1 hc2 with h1 | h1
        · left
          split
          · exact List.mem_append_left _ h1
          · exact h1
        · exact Or.inr h1
    · intro c hc
      simp only at hc ⊢
      by_cases hcc : c = c0
      · subst hcc
        right
        split at hc
        · rename_i hpush
          simp only [Function.update_same, hpush.2]
        · exact absurd hc hfresh
      · simp only [Function.update, hcc, dite_false]
        apply hinv.origin c
        split at hc
        · rcases hc with hc | hc
          · rcases List.mem_append.1 hc with h1 | h1
            · exact Or.inl h1
            · exact absurd (by simpa using h1) hcc
          · exact Or.inr hc
        · exact hc
    · simp only
      rcases hinv.rootIn with h1 | h1
      · left
        split
        · exact List.mem_append_left _ h1
        · exact h1
      · exact Or.inr h1

theorem SchedInv.init_sched (g : Graph) (root : Nat) :
    SchedInv g root (backInit g root) [] [] := by
  refine ⟨by simp [backInit], ?_, by simp, by simp, ?_, ?_, ?_, by simp [backInit], ?_⟩
  · intro v hv
    have : v = root := by simpa [backInit] using hv
    rw [this]; exact Relation.ReflTransGen.refl
  · intro c; simp [pending, backInit]
  · intro c _ h; simp [backInit] at h
  · intro c hc
    left; simpa [backInit] using hc
  · intro pre v post h; simp at h

/-- What the scheduling invariant says about the record of dequeues `tr`
(latest last): no node occurs twice, every node is under the root, and every
parent of a node was dequeued before it; so no node dequeued later has it as
a child. -/
theorem SchedInv.trace {g : Graph} {root : Nat} {s : BackState} {tr rest : List Nat}
    (hwl : WellLinked g) (hinv : SchedInv g root s tr.reverse rest) :
    tr.Nodup ∧ (∀ v ∈ tr, Under g root v) ∧
      (∀ pre v post, tr = pre ++ v :: post → ∀ p ∈ getParents g v, p ∈ pre) ∧
      (∀ pre v post, tr = pre ++ v :: post → ∀ w ∈ post, v ∉ getChildren g w) := by
  have hnd : tr.Nodup := by
    have := hinv.nodup
    exact List.nodup_reverse.1 (List.Nodup.of_append_right this)
  have hord : ∀ pre v post, tr = pre ++ v :: post → ∀ p ∈ getParents g v, p ∈ pre := by
    intro pre v post h p hp
    have h2 : tr.reverse = post.reverse ++ v :: pre.reverse := by
      rw [h]; simp
    exact List.mem_reverse.1 (hinv.order _ v _ h2 p hp)
  refine ⟨hnd, fun v hv => hinv.under v (Or.inr (List.mem_reverse.2 hv)), hord, ?_⟩
  intro pre v post h w hw hvw
  have hp := hord pre v post h w (mem_parents_of_mem_children hwl hvw)
  rw [h] at hnd
  have := (List.nodup_append.1 hnd).2.2
  exact this hp (List.mem_cons_of_mem _ hw)

theorem _back_length (P : Prims) (g : Graph) (op : op_type) (children : List Nat)
    (dx : MatrixXd) (ds : List MatrixXd) (h : _back P g op children dx = .ok ds) :
    ds.length = children.length := by
  unfold _back at h
  rw [← _back_nonconsts_from_eq P g op children children dx children 0 (fun _ hv => hv)] at h
  exact (_back_nonconsts_from_ok P g op children children dx children 0 ds h).1

theorem map_fst_zip_of_length {α β : Type} (l1 : List α) (l2 : List β)
    (h : l2.length = l1.length) : (l1.zip l2).map Prod.fst = l1 :=
  List.map_fst_zip _ _ (by omega)

/-- The scheduling invariant along the whole run of the unrestricted loop:
it holds for the record of dequeues however the run ends, and for the final
state when the run returns. -/
theorem backLoopTraced_sched (P : Prims) {g : Graph} {root : Nat} (hwl : WellLinked g)
    (hroot : getParents g root = []) :
    ∀ (fuel : Nat) (s : BackState) (tr : List Nat), SchedInv g root s tr.reverse [] →
      (∃ s0 rest, SchedInv g root s0 (backLoopTraced P g none fuel s tr).2.reverse rest) ∧
      (∀ s', (backLoopTraced P g none fuel s tr).1 = .ok s' →
        s'.q = [] ∧ SchedInv g root s' (backLoopTraced P g none fuel s tr).2.reverse []) := by
  intro fuel
  induction fuel with
  | zero =>
    intro s tr hinv
    unfold backLoopTraced
    cases hq : s.q with
    | nil =>
      simp only
      exact ⟨⟨s, [], hinv⟩, fun s' h => by cases h; exact ⟨hq, hinv⟩⟩
    | cons v q =>
      simp only
      exact ⟨⟨s, [], hinv⟩, fun s' h => by cases h⟩
  | succ fuel ih =>
    intro s tr hinv
    unfold backLoopTraced
    cases hq : s.q with
    | nil =>
      simp only
      exact ⟨⟨s, [], hinv⟩, fun s' h => by cases h; exact ⟨hq, hinv⟩⟩
    | cons v q =>
      simp only
      have hd := hinv.dequeue_sched hwl hroot hq
      have hrev : (tr ++ [v]).reverse = v :: tr.reverse := by simp
      cases hb : backBody P g none v ⟨q, s.derivatives, s.explored⟩ with
      | error e =>
        simp only
        rw [hrev]
        exact ⟨⟨_, _, hd⟩, fun s' h => by cases h⟩
      | ok s1 =>
        simp only
        apply ih s1 (tr ++ [v])
        rw [hrev]
        simp only [backBody] at hb
        cases hbk : _back P g (getOp g v) (getChildren g v) (derivAt s.derivatives v) with
        | error e => rw [hbk] at hb; cases hb
        | ok ds =>
          rw [hbk] at hb
          simp only [Except.ok.injEq] at hb
          rw [← hb]
          apply SchedInv.children_sched
          rw [map_fst_zip_of_length _ _ (_back_length P g _ _ _ ds hbk)]
          exact hd

/-- When the queue is empty, every node under the root that does not carry the
leaf tag has been dequeued, provided no node with children carries it. -/
theorem SchedInv.complete_sched {g : Graph} {root : Nat} {rank : Nat → Nat} {s : BackState}
    {done : List Nat} (hac : Acyclic g rank) (hwl : WellLinked g)
    (hcl : ∀ v, Under g root v → ∀ p ∈ getParents g v, Under g root p)
    (hvalid : ∀ v, Under g root v → getChildren g v ≠ [] → getOp g v ≠ .none)
    (hinv : SchedInv g root s done []) (hq : s.q = []) :
    ∀ (k v : Nat), rank root - rank v < k → Under g root v → getOp g v ≠ .none →
      v ∈ done := by
  have hmem : ∀ w, (w ∈ s.q ∨ w ∈ done) → w ∈ done := by
    intro w hw
    rcases hw with hw | hw
    · rw [hq] at hw; simp at hw
    · exact hw
  intro k
  induction k with
  | zero => intro v h; omega
  | succ k ih =>
    intro v hk hvu hop
    by_cases hvr : v = root
    · rw [hvr]; exact hmem root hinv.rootIn
    · have hpar : ∀ p ∈ getParents g v, p ∈ done := by
        intro p hp
        have hpu := hcl v hvu p hp
        have hvp := mem_children_of_mem_parents hwl hp
        have h1 := hac.lt hvp
        have h2 := Under.rank_le hac hpu
        exact ih p (by omega) hpu
          (hvalid p hpu (by intro h; rw [h] at hvp; simp at hvp))
      have hcnt := hinv.count v
      rw [countP_eq_length_of_mem _ _ hpar] at hcnt
      simp only [List.count_nil, Nat.cast_zero, add_zero] at hcnt
      have hpend : pending g s v = 0 := by omega
      have hne : getParents g v ≠ [] := by
        rcases Relation.ReflTransGen.cases_tail hvu with h | ⟨p, _, hpv⟩
        · exact absurd h hvr
        · intro hnil
          have := mem_parents_of_mem_children hwl hpv
          rw [hnil] at this
          simp at this
      have hexp : s.explored v = some 0 := by
        unfold pending at hpend
        cases he : s.explored v with
        | none =>
          rw [he] at hpend
          simp only at hpend
          have : 0 < (getParents g v).length := List.length_pos.2 hne
          omega
        | some j =>
          rw [he] at hpend
          simp only at hpend
          rw [hpend]
      exact hmem v (hinv.ready v hop hexp)

theorem backLoop_ne_thrown_of_valid (P : Prims) (g : Graph) (root : Nat)
    (hvalid : ∀ v, Under g root v → getChildren g v ≠ [] →
      getOp g v ≠ .none ∧ getOp g v ≠ .inverse)
    (fuel : Nat) (e : Exn) : backLoop P g none fuel (backInit g root) ≠ .thrown e := by
  intro h
  obtain ⟨s0, v, q, hs0, hq, hb⟩ :=
    backLoop_thrown P g none (fun s => ∀ w ∈ s.q, Under g root w)
      (by
        intro s v q s1 hs hq hb w hw
        have hvu : Under g root v := hs v (by rw [hq]; simp)
        rcases backBody_ok P g none v _ s1 hb with h1 | ⟨ds, h1⟩
        · rw [h1] at hw
          exact hs w (by rw [hq]; exact List.mem_cons_of_mem _ hw)
        · rw [h1] at hw
          rcases backChildren_q_mem g _ _ w hw with h2 | ⟨h2, _⟩
          · exact hs w (by rw [hq]; exact List.mem_cons_of_mem _ h2)
          · exact Relation.ReflTransGen.tail hvu (mem_of_mem_zip_fst _ _ _ h2))
      fuel (backInit g root) e
      (by
        intro w hw
        have : w = root := by simpa [backInit] using hw
        rw [this]; exact Relation.ReflTransGen.refl)
      h
  obtain ⟨hch, hop⟩ := backBody_error P g none v _ e hb
  have hv := hvalid v (hs0 v (by rw [hq]; simp)) hch
  rcases hop with ⟨h2, _⟩ | ⟨h2, _⟩
  · exact hv.1 h2
  · exact hv.2 h2

/-- C16 (amended). The schedule of the unrestricted `backpropagate` on an
acyclic graph with one parent entry per consuming operand slot in which every
parent of a node under the root is under the root.  The loop terminates; no
node is dequeued twice; a node is dequeued only after every one of its parents
has been dequeued, and no node dequeued after it has it as a child, so the
gradient it uses as upstream `dx` holds the contribution of every parent.
When no node under the root that has children carries the `inverse` tag or
the leaf tag, the loop returns and every node under the root that does not
carry the leaf tag is dequeued. -/
theorem C16_backward_schedule (P : Prims) (g : Graph) (root : Nat) (rank : Nat → Nat)
    (fuel : Nat) (hac : Acyclic g rank) (hwl : WellLinked g)
    (hcl : ∀ v, Under g root v → ∀ p ∈ getParents g v, Under g root p)
    (hf : g.length < fuel) :
    (backLoopTraced P g none fuel (backInit g root) []).1
      = backLoop P g none fuel (backInit g root) ∧
    backLoop P g none fuel (backInit g root) ≠ .timeout ∧
    (backLoopTraced P g none fuel (backInit g root) []).2.Nodup ∧
    (∀ pre v post, (backLoopTraced P g none fuel (backInit g root) []).2 = pre ++ v :: post →
      (∀ p ∈ getParents g v, p ∈ pre) ∧ (∀ w ∈ post, v ∉ getChildren g w)) ∧
    ((∀ v, Under g root v → getChildren g v ≠ [] →
        getOp g v ≠ .none ∧ getOp g v ≠ .inverse) →
      (∃ s, backLoop P g none fuel (backInit g root) = .ok s) ∧
      ∀ v, Under g root v → getOp g v ≠ .none →
        v ∈ (backLoopTraced P g none fuel (backInit g root) []).2) := by
  have hroot := root_no_parents_of_closed hac hwl hcl
  have hfst := backLoopTraced_fst P g none fuel (backInit g root) []
  have hnt : backLoop P g none fuel (backInit g root) ≠ .timeout :=
    backLoop_ne_timeout P g none fuel _ (le_trans (backInit_measure g root) (by omega))
  obtain ⟨⟨s0, rest, h0⟩, hfin⟩ :=
    backLoopTraced_sched P hwl hroot fuel (backInit g root) []
      (by simpa using SchedInv.init_sched g root)
  obtain ⟨hnd, _, hord, hlater⟩ := SchedInv.trace hwl h0
  refine ⟨hfst, hnt, hnd, fun pre v post h => ⟨hord pre v post h, hlater pre v post h⟩, ?_⟩
  intro hvalid
  have hok : ∃ s, backLoop P g none fuel (backInit g root) = .ok s := by
    cases h : backLoop P g none fuel (backInit g root) with
    | ok s => exact ⟨s, rfl⟩
    | thrown e => exact absurd h (backLoop_ne_thrown_of_valid P g root hvalid fuel e)
    | timeout => exact absurd h hnt
  refine ⟨hok, ?_⟩
  obtain ⟨s, hs⟩ := hok
  obtain ⟨hq, hinv⟩ := hfin s (by rw [hfst, hs])
  intro v hvu hop
  exact List.mem_reverse.1
    (SchedInv.complete_sched hac hwl hcl (fun w hw hch => (hvalid w hw hch).1) hinv hq
      (rank root - rank v + 1) v (Nat.lt_succ_self _) hvu hop)

/-- C16 on the multi-path graph: the dequeues are `root`, `P`, `Q`. -/
theorem C16_backward_schedule_witness :
    ((backLoopTraced Prims.placeholder
          (multiPathGraph 7 2 3 MatrixXd.empty MatrixXd.empty MatrixXd.empty) none 7
          (backInit (multiPathGraph 7 2 3 MatrixXd.empty MatrixXd.empty MatrixXd.empty) 5) []).1
      = backLoop Prims.placeholder
          (multiPathGraph 7 2 3 MatrixXd.empty MatrixXd.empty MatrixXd.empty) none 7
          (backInit (multiPathGraph 7 2 3 MatrixXd.empty MatrixXd.empty MatrixXd.empty) 5) ∧
    backLoop Prims.placeholder
        (multiPathGraph 7 2 3 MatrixXd.empty MatrixXd.empty MatrixXd.empty) none 7
        (backInit (multiPathGraph 7 2 3 MatrixXd.empty MatrixXd.empty MatrixXd.empty) 5)
      ≠ .timeout ∧
    (backLoopTraced Prims.placeholder
        (multiPathGraph 7 2 3 MatrixXd.empty MatrixXd.empty MatrixXd.empty) none 7
        (backInit (multiPathGraph 7 2 3 MatrixXd.empty MatrixXd.empty MatrixXd.empty) 5)
        []).2.Nodup ∧
    (∀ pre v post,
      (backLoopTraced Prims.placeholder
        (multiPathGraph 7 2 3 MatrixXd.empty MatrixXd.empty MatrixXd.empty) none 7
        (backInit (multiPathGraph 7 2 3 MatrixXd.empty MatrixXd.empty MatrixXd.empty) 5)
        []).2 = pre ++ v :: post →
      (∀ p ∈ getParents (multiPathGraph 7 2 3 MatrixXd.empty MatrixXd.empty MatrixXd.empty) v,
        p ∈ pre) ∧
      (∀ w ∈ post,
        v ∉ getChildren (multiPathGraph 7 2 3 MatrixXd.empty MatrixXd.empty MatrixXd.empty) w)) ∧
    ((∀ v, Under (multiPathGraph 7 2 3 MatrixXd.empty MatrixXd.empty MatrixXd.empty) 5 v →
        getChildren (multiPathGraph 7 2 3 MatrixXd.empty MatrixXd.empty MatrixXd.empty) v ≠ [] →
        getOp (multiPathGraph 7 2 3 MatrixXd.empty MatrixXd.empty MatrixXd.empty) v ≠ .none ∧
        getOp (multiPathGraph 7 2 3 MatrixXd.empty MatrixXd.empty MatrixXd.empty) v
          ≠ .inverse) →
      (∃ s, backLoop Prims.placeholder
        (multiPathGraph 7 2 3 MatrixXd.empty MatrixXd.empty MatrixXd.empty) none 7
        (backInit (multiPathGraph 7 2 3 MatrixXd.empty MatrixXd.empty MatrixXd.empty) 5)
        = .ok s) ∧
      ∀ v, Under (multiPathGraph 7 2 3 MatrixXd.empty MatrixXd.empty MatrixXd.empty) 5 v →
        getOp (multiPathGraph 7 2 3 MatrixXd.empty MatrixXd.empty MatrixXd.empty) v ≠ .none →
        v ∈ (backLoopTraced Prims.placeholder
          (multiPathGraph 7 2 3 MatrixXd.empty MatrixXd.empty MatrixXd.empty) none 7
          (backInit (multiPathGraph 7 2 3 MatrixXd.empty MatrixXd.empty MatrixXd.empty) 5)
          []).2)) ∧
    (backLoopTraced Prims.placeholder
        (multiPathGraph 7 2 3 MatrixXd.empty MatrixXd.empty MatrixXd.empty) none 7
        (backInit (multiPathGraph 7 2 3 MatrixXd.empty MatrixXd.empty MatrixXd.empty) 5)
        []).2 = [5, 3, 4] :=
  ⟨C16_backward_schedule Prims.placeholder _ 5 id 7 multiPath_scalarDag.acyclic
      multiPath_scalarDag.linked multiPath_scalarDag.closed (by decide),
    by simp [backLoopTraced, backBody, backInit, backChildren, _back, _back_from, _back_single,
      multiPathGraph, getChildren, Graph.node, getOp, operand, getValue, is_scalar, sval, mval,
      scalar, MatrixXd.size, ones_like, zeros_like, MatrixXd.const, derivAt, MatrixXd.map,
      MatrixXd.coeff, MatrixXd.zip, MatrixXd.sum, getParents, Function.update, pending,
      MatrixXd.empty]⟩

/-- C16 fails as stated: in `inverseChainGraph` (acyclic, consistently linked,
every parent of a node under the root under the root) the node `E = exp(A)` is
under the root and does not carry the leaf tag, and it is never dequeued: the
only dequeue is the root, whose local gradient rule throws. -/
theorem C16_counterexample :
    Acyclic inverseChainGraph id ∧ WellLinked inverseChainGraph ∧
    (∀ v, Under inverseChainGraph 2 v →
      ∀ p ∈ getParents inverseChainGraph v, Under inverseChainGraph 2 p) ∧
    Under inverseChainGraph 2 1 ∧ getOp inverseChainGraph 1 ≠ .none ∧
    backLoopTraced Prims.placeholder inverseChainGraph none 4 (backInit inverseChainGraph 2) []
      = (.thrown .inverse_derivative, [2]) ∧
    (expression.backpropagate Prims.placeholder 4 inverseChainGraph 2 [(0, MatrixXd.empty)]).1
      = .thrown .inverse_derivative ∧
    1 ∉ [2] := by
  have h1 : Under inverseChainGraph 2 1 := Relation.ReflTransGen.single (by decide)
  refine ⟨by unfold Acyclic; decide, by unfold WellLinked; decide, ?_, h1, by decide, ?_, ?_,
    by decide⟩
  · intro v _ p hp
    have hv : v < 3 := by
      by_contra hge
      rw [getParents_of_length_le inverseChainGraph v (by simpa [inverseChainGraph] using hge)]
        at hp
      simp at hp
    have : v = 0 ∨ v = 1 ∨ v = 2 := by omega
    rcases this with h | h | h <;> subst h <;>
      simp [getParents, Graph.node, inverseChainGraph] at hp
    · subst hp; exact h1
    · subst hp; exact Relation.ReflTransGen.refl
  · simp [backLoopTraced, backBody, backInit, _back, _back_from, _back_single,
      inverseChainGraph, getChildren, Graph.node, getOp]
  · simp [expression.backpropagate, backpropagateWith, backLoop, backBody, backInit, _back,
      _back_from, _back_single, inverseChainGraph, getChildren, Graph.node, getOp]

/-! ## C17: the schedule of the leaf-seeded forward loop -/

theorem propagateParentsTraced_fst (P : Prims) :
    ∀ (ps : List Nat) (s : FwdState) (ev : List (Nat × List MatrixXd)),
      (propagateParentsTraced P ps s ev).1 = propagateParents P ps s := by
  intro ps
  induction ps with
  | nil => intro s ev; rfl
  | cons p rest ih =>
    intro s ev
    simp only [propagateParentsTraced, propagateParents]
    split
    · cases _eval P s.g (getOp s.g p) (getChildren s.g p) with
      | ok m => exact ih _ _
      | error e => rfl
    · exact ih _ _

theorem propagateLoopTraced_fst (P : Prims) :
    ∀ (fuel : Nat) (s : FwdState) (ev : List (Nat × List MatrixXd)),
      (propagateLoopTraced P fuel s ev).1 = propagateLoop P fuel s := by
  intro fuel
  induction fuel with
  | zero =>
    intro s ev
    unfold propagateLoopTraced propagateLoop
    cases s.q <;> rfl
  | succ fuel ih =>
    intro s ev
    unfold propagateLoopTraced propagateLoop
    cases hq : s.q with
    | nil => rfl
    | cons v q =>
      simp only
      have h := propagateParentsTraced_fst P (getParents s.g v) ⟨s.g, q, s.explored⟩ ev
      cases hb : propagateParentsTraced P (getParents s.g v) ⟨s.g, q, s.explored⟩ ev with
      | mk o ev1 =>
        rw [hb] at h
        simp only at h
        rw [← h]
        cases o with
        | ok s1 => exact ih s1 ev1
        | thrown e => rfl
        | timeout => rfl

theorem propagateParentsTraced_cons (P : Prims) (p : Nat) (rest : List Nat) (s : FwdState)
    (ev : List (Nat × List MatrixXd)) :
    propagateParentsTraced P (p :: rest) s ev =
      if numOpArgs (getOp s.g p) = s.explored p + 1 then
        match _eval P s.g (getOp s.g p) (getChildren s.g p) with
        | .ok m => propagateParentsTraced P rest
            ⟨setValue s.g p m, s.q ++ [p],
              Function.update s.explored p (s.explored p + 1)⟩
            (ev ++ [(p, (getChildren s.g p).map (getValue s.g))])
        | .error e => (.thrown e, ev ++ [(p, (getChildren s.g p).map (getValue s.g))])
      else propagateParentsTraced P rest
        ⟨s.g, s.q, Function.update s.explored p (s.explored p + 1)⟩ ev := by
  simp [propagateParentsTraced]

/-- One dequeue in the forward loop. -/
theorem FwdSched.dequeue_sched_fwd {g0 : Graph} {S : List Nat} {s : FwdState}
    {done : List Nat} {ev : List (Nat × List MatrixXd)} (hwl : WellLinked g0)
    (hinv : FwdSched g0 S s done [] ev) {v : Nat} {q : List Nat} (hq : s.q = v :: q) :
    FwdSched g0 S ⟨s.g, q, s.explored⟩ (v :: done) (getParents g0 v) ev := by
  have hnd : (v :: (q ++ done)).Nodup := by
    have := hinv.nodup; rw [hq] at this; simpa using this
  have hv : v ∉ done := fun h => (List.nodup_cons.1 hnd).1 (List.mem_append_right _ h)
  have hmem : ∀ w, (w ∈ q ∨ w ∈ v :: done) ↔ (w ∈ s.q ∨ w ∈ done) := by
    intro w; rw [hq]; simp only [List.mem_cons]; tauto
  refine ⟨hinv.links, ?_, List.nodup_middle.2 hnd, ?_, ?_, ?_, ?_, ?_, hinv.interior, ?_,
    hinv.order, hinv.snap⟩
  · intro p
    have h1 := hinv.count p
    simp only [List.count_nil, Nat.cast_zero, add_zero] at h1
    rw [countP_mem_cons _ _ _ hv, wellLinked_count hwl, h1]
    push_cast
    ring
  · intro p hp1 hp2; exact (hmem p).2 (hinv.ready p hp1 hp2)
  · intro l hl; exact (hmem l).2 (hinv.seeds l hl)
  · intro p hp; exact hinv.origin p ((hmem p).1 hp)
  · intro p hp; exact children_ne_nil_of_mem_parents hwl hp
  · have := hinv.queued
    rw [hq] at this
    simpa using this
  · intro e he c hc; exact List.mem_cons_of_mem _ (hinv.kids e he c hc)

theorem order_snoc {α : Type} (Q : α → List α → Prop) (l : List α) (a : α)
    (h : ∀ pre x post, l = pre ++ x :: post → Q x pre) (ha : Q a l) :
    ∀ pre x post, l ++ [a] = pre ++ x :: post → Q x pre := by
  intro pre x post heq
  rcases List.eq_nil_or_concat post with hp | ⟨post', y, hp⟩
  · subst hp
    have h1 : l ++ [a] = pre ++ [x] := heq
    obtain ⟨h2, h3⟩ := List.append_inj' h1 rfl
    simp only [List.cons.injEq, and_true] at h3
    subst h2; subst h3
    exact ha
  · subst hp
    have h1 : l ++ [a] = (pre ++ x :: post') ++ [y] := by
      rw [heq]; simp
    obtain ⟨h2, _⟩ := List.append_inj' h1 rfl
    exact h pre x post' h2

/-- The parents loop keeps the scheduling invariant. -/
theorem FwdSched.parents_sched (P : Prims) {g0 : Graph} {S : List Nat}
    (har : ∀ v, getChildren g0 v ≠ [] →
      ((getChildren g0 v).length : Int) = numOpArgs (getOp g0 v))
    (hS : ∀ l ∈ S, getChildren g0 l = []) {done : List Nat} :
    ∀ (rest : List Nat) (s s1 : FwdState) (ev ev1 : List (Nat × List MatrixXd)),
      FwdSched g0 S s done rest ev →
      propagateParentsTraced P rest s ev = (.ok s1, ev1) → FwdSched g0 S s1 done [] ev1 := by
  intro rest
  induction rest with
  | nil =>
    intro s s1 ev ev1 hinv h
    simp only [propagateParentsTraced, Prod.mk.injEq, Outcome.ok.injEq] at h
    obtain ⟨rfl, rfl⟩ := h
    exact hinv
  | cons p0 rest ih =>
    intro s s1 ev ev1 hinv h
    rw [propagateParentsTraced_cons] at h
    have hop : getOp s.g p0 = getOp g0 p0 := (hinv.links.2 p0).1
    have hchs : getChildren s.g p0 = getChildren g0 p0 := (hinv.links.2 p0).2.1
    have hup : ∀ x, Function.update s.explored p0 (s.explored p0 + 1) x
        = if x = p0 then s.explored p0 + 1 else s.explored x := by
      intro x
      by_cases hx : x = p0
      · subst hx; simp
      · simp [Function.update, hx]
    have hcount : ∀ p, Function.update s.explored p0 (s.explored p0 + 1) p
        + (rest.count p : Int)
        = (((getChildren g0 p).countP (fun c => decide (c ∈ done)) : Nat) : Int) := by
      intro p
      have h1 := hinv.count p
      rw [hup]
      by_cases hp : p = p0
      · subst hp
        simp only [List.count_cons_self, if_true] at h1 ⊢
        push_cast at h1
        omega
      · have : ¬ (p0 == p) = true := by simpa using fun h => hp h.symm
        simp only [List.count_cons, this, if_false, hp] at h1 ⊢
        simpa using h1
    have hcons : ∀ p ∈ rest, getChildren g0 p ≠ [] :=
      fun p hp => hinv.consumers p (List.mem_cons_of_mem _ hp)
    split at h
    · rename_i heq
      cases hev : _eval P s.g (getOp s.g p0) (getChildren s.g p0) with
      | error e => rw [hev] at h; cases h
      | ok m =>
        rw [hev] at h
        simp only at h
        apply ih _ s1 _ ev1 _ h
        have hch0 : getChildren g0 p0 ≠ [] := hinv.consumers p0 (List.mem_cons_self _ _)
        have hnotS : p0 ∉ S := fun hmem => hch0 (hS p0 hmem)
        have hfresh : ¬ (p0 ∈ s.q ∨ p0 ∈ done) := by
          intro hmem
          rcases hinv.origin p0 hmem with h1 | h1
          · exact hnotS h1
          · rw [hop] at heq; omega
        have hall : ∀ c ∈ getChildren g0 p0, c ∈ done := by
          apply mem_of_countP_eq_length
          have h1 := hinv.count p0
          have h2 := har p0 hch0
          rw [hop] at heq
          simp only [List.count_cons_self] at h1
          push_cast at h1
          have h3 : (0 : Int) ≤ (rest.count p0 : Int) := Int.natCast_nonneg _
          omega
        have hval : ∀ c, c ∈ done → getValue (setValue s.g p0 m) c = getValue s.g c := by
          intro c hc
          exact getValue_setValue_ne s.g p0 m c (fun h => hfresh (Or.inr (h ▸ hc)))
        have hdoneq : ∀ c, c ∈ done → c ∈ S ∨ c ∈ ev.map Prod.fst := by
          intro c hc
          have : c ∈ S ++ ev.map Prod.fst := by
            rw [hinv.queued]
            exact List.mem_append_left _ (List.mem_reverse.2 hc)
          exact List.mem_append.1 this
        refine ⟨hinv.links.trans (SameLinks.setValue s.g p0 m), hcount, ?_, ?_, ?_, ?_, hcons,
          ?_, ?_, ?_, ?_, ?_⟩
        · have h1 := hinv.nodup
          rw [List.append_assoc]
          simp only [List.singleton_append]
          apply List.nodup_middle.2
          apply List.nodup_cons.2
          exact ⟨fun hmem => hfresh (List.mem_append.1 hmem), h1⟩
        · intro p hp1 hp2
          simp only [List.mem_append, List.mem_singleton]
          replace hp2 : numOpArgs (getOp g0 p)
              ≤ Function.update s.explored p0 (s.explored p0 + 1) p := hp2
          rw [hup] at hp2
          by_cases hp : p = p0
          · exact Or.inl (Or.inr hp)
          · simp only [hp, if_false] at hp2
            rcases hinv.ready p hp1 hp2 with h1 | h1
            · exact Or.inl (Or.inl h1)
            · exact Or.inr h1
        · intro l hl
          rcases hinv.seeds l hl with h1 | h1
          · exact Or.inl (List.mem_append_left _ h1)
          · exact Or.inr h1
        · intro p hp
          simp only [List.mem_append, List.mem_singleton] at hp
          show p ∈ S ∨ numOpArgs (getOp g0 p)
              ≤ Function.update s.explored p0 (s.explored p0 + 1) p
          rw [hup]
          by_cases hpp : p = p0
          · subst hpp
            right
            simp only [if_true]
            rw [hop] at heq
            omega
          · simp only [hpp, if_false]
            apply hinv.origin p
            rcases hp with (hp | hp) | hp
            · exact Or.inl hp
            · exact absurd hp hpp
            · exact Or.inr hp
        · show S ++ (ev ++ [(p0, _)]).map Prod.fst = done.reverse ++ (s.q ++ [p0])
          rw [List.map_append, ← List.append_assoc, hinv.queued]
          simp
        · intro e he
          rcases List.mem_append.1 he with h1 | h1
          · exact hinv.interior e h1
          · have : e = (p0, (getChildren s.g p0).map (getValue s.g)) := by simpa using h1
            rw [this]; exact hch0
        · intro e he c hc
          rcases List.mem_append.1 he with h1 | h1
          · exact hinv.kids e h1 c hc
          · have : e = (p0, (getChildren s.g p0).map (getValue s.g)) := by simpa using h1
            rw [this] at hc; exact hall c hc
        · exact order_snoc
            (fun e pre => ∀ c ∈ getChildren g0 e.1, c ∈ S ∨ c ∈ pre.map Prod.fst) ev
            (p0, (getChildren s.g p0).map (getValue s.g))
            hinv.order (fun c hc => hdoneq c (hall c hc))
        · intro e he
          show e.2 = (getChildren g0 e.1).map (getValue (setValue s.g p0 m))
          rcases List.mem_append.1 he with h1 | h1
          · rw [hinv.snap e h1]
            apply List.map_congr_left
            intro c hc
            exact (hval c (hinv.kids e h1 c hc)).symm
          · have : e = (p0, (getChildren s.g p0).map (getValue s.g)) := by simpa using h1
            rw [this, hchs]
            apply List.map_congr_left
            intro c hc
            exact (hval c (hall c hc)).symm
    · rename_i hne
      apply ih _ s1 _ ev1 _ h
      refine ⟨hinv.links, hcount, hinv.nodup, ?_, hinv.seeds, ?_, hcons, hinv.queued,
        hinv.interior, hinv.kids, hinv.order, hinv.snap⟩
      · intro p hp1 hp2
        replace hp2 : numOpArgs (getOp g0 p)
            ≤ Function.update s.explored p0 (s.explored p0 + 1) p := hp2
        rw [hup] at hp2
        by_cases hp : p = p0
        · subst hp
          simp only [if_true] at hp2
          rw [hop] at hne
          exact hinv.ready p hp1 (by omega)
        · simp only [hp, if_false] at hp2
          exact hinv.ready p hp1 hp2
      · intro p hp
        show p ∈ S ∨ numOpArgs (getOp g0 p)
            ≤ Function.update s.explored p0 (s.explored p0 + 1) p
        rw [hup]
        rcases hinv.origin p hp with h1 | h1
        · exact Or.inl h1
        · right
          by_cases hpp : p = p0
          · subst hpp; simp only [if_true]; omega
          · simp only [hpp, if_false]; exact h1

/-- The scheduling invariant holds in the final state of a run that returns. -/
theorem propagateLoopTraced_sched (P : Prims) {g0 : Graph} {S : List Nat}
    (hwl : WellLinked g0)
    (har : ∀ v, getChildren g0 v ≠ [] →
      ((getChildren g0 v).length : Int) = numOpArgs (getOp g0 v))
    (hS : ∀ l ∈ S, getChildren g0 l = []) :
    ∀ (fuel : Nat) (s s' : FwdState) (ev ev' : List (Nat × List MatrixXd)) (done : List Nat),
      FwdSched g0 S s done [] ev → propagateLoopTraced P fuel s ev = (.ok s', ev') →
      ∃ done', FwdSched g0 S s' done' [] ev' ∧ s'.q = [] := by
  intro fuel
  induction fuel with
  | zero =>
    intro s s' ev ev' done hinv hrun
    unfold propagateLoopTraced at hrun
    cases hq : s.q with
    | nil =>
      rw [hq] at hrun
      simp only [Prod.mk.injEq, Outcome.ok.injEq] at hrun
      obtain ⟨rfl, rfl⟩ := hrun
      exact ⟨done, hinv, hq⟩
    | cons v q =>
      rw [hq] at hrun
      simp at hrun
  | succ fuel ih =>
    intro s s' ev ev' done hinv hrun
    unfold propagateLoopTraced at hrun
    cases hq : s.q with
    | nil =>
      rw [hq] at hrun
      simp only [Prod.mk.injEq, Outcome.ok.injEq] at hrun
      obtain ⟨rfl, rfl⟩ := hrun
      exact ⟨done, hinv, hq⟩
    | cons v q =>
      rw [hq] at hrun
      simp only at hrun
      have hd := hinv.dequeue_sched_fwd hwl hq
      cases hb : propagateParentsTraced P (getParents s.g v) ⟨s.g, q, s.explored⟩ ev with
      | mk o ev1 =>
        rw [hb] at hrun
        cases o with
        | thrown e => simp at hrun
        | timeout => simp at hrun
        | ok s1 =>
          simp only at hrun
          rw [(hinv.links.2 v).2.2] at hb
          exact ih s1 s' ev1 ev' (v :: done)
            (FwdSched.parents_sched P har hS _ _ s1 ev ev1 hd hb) hrun

/-- When the queue is empty every node of the arena has been dequeued. -/
theorem FwdSched.complete_sched_fwd {g0 : Graph} {S : List Nat} {s : FwdState}
    {done : List Nat} {ev : List (Nat × List MatrixXd)} {rank : Nat → Nat}
    (hac : Acyclic g0 rank) (hwl : WellLinked g0)
    (har : ∀ v, getChildren g0 v ≠ [] →
      ((getChildren g0 v).length : Int) = numOpArgs (getOp g0 v))
    (hleaves : ∀ l < g0.length, getChildren g0 l = [] → l ∈ S)
    (hinv : FwdSched g0 S s done [] ev) (hq : s.q = []) :
    ∀ (n w : Nat), rank w < n → w < g0.length → w ∈ done := by
  have hmem : ∀ w, (w ∈ s.q ∨ w ∈ done) → w ∈ done := by
    intro w hw
    rcases hw with hw | hw
    · rw [hq] at hw; simp at hw
    · exact hw
  intro n
  induction n with
  | zero => intro w h; omega
  | succ n ih =>
    intro w hw hwl'
    by_cases hch : getChildren g0 w = []
    · exact hmem w (hinv.seeds w (hleaves w hwl' hch))
    · have hall : ∀ c ∈ getChildren g0 w, c ∈ done := fun c hc =>
        ih c (by have := hac.lt hc; omega) (hwl.1 w hwl' c hc)
      have h1 := hinv.count w
      rw [countP_eq_length_of_mem _ _ hall] at h1
      simp only [List.count_nil, Nat.cast_zero, add_zero] at h1
      have h2 := har w hch
      have h3 : 0 < (getChildren g0 w).length := List.length_pos.2 hch
      apply hmem w
      apply hinv.ready w
      · omega
      · omega

theorem FwdSched.init_sched_fwd (g : Graph) (S : List Nat) (hnd : S.Nodup) :
    FwdSched g S ⟨g, S, fun _ => 0⟩ [] [] [] := by
  refine ⟨SameLinks.refl g, ?_, ?_, ?_, ?_, ?_, ?_, ?_, ?_, ?_, ?_, ?_⟩
  · intro p; simp
  · simpa using hnd
  · intro p hp1 hp2; exfalso; simp only at hp2; omega
  · intro l hl; exact Or.inl hl
  · intro p hp
    rcases hp with hp | hp
    · exact Or.inl hp
    · simp at hp
  · intro p hp; simp at hp
  · simp
  · intro e he; simp at he
  · intro e he; simp at he
  · intro pre e post h; simp at h
  · intro e he; simp at he

/-- C17. Forward fan-in schedule: `propagate(leaves)` called with a
duplicate-free list `S` of all the leaves of an acyclic graph (one parent entry
per consuming operand slot, every node with children having the arity of its
operator) returns; the operator evaluator is called exactly once for every
node with children and never for another node; at the call for a node each of
its children is a leaf or was evaluated earlier, and the values the children
hold at that moment are the values they hold when the pass returns. -/
theorem C17_forward_schedule (P : Prims) (g : Graph) (rank : Nat → Nat) (S : List Nat)
    (root fuel : Nat) (hac : Acyclic g rank) (hwl : WellLinked g)
    (har : ∀ v < g.length, getChildren g v ≠ [] →
      ((getChildren g v).length : Int) = numOpArgs (getOp g v))
    (hnd : S.Nodup) (hS : ∀ l ∈ S, getChildren g l = [])
    (hleaves : ∀ l < g.length, getChildren g l = [] → l ∈ S)
    (hf : S.length + g.length ≤ fuel) :
    ∃ s ev, propagateLoopTraced P fuel ⟨g, S, fun _ => 0⟩ [] = (.ok s, ev) ∧
      propagateLoop P fuel ⟨g, S, fun _ => 0⟩ = .ok s ∧
      expression.propagate_leaves P fuel g root S = .ok (s.g, getValue s.g root) ∧
      (ev.map Prod.fst).Nodup ∧
      (∀ v, v ∈ ev.map Prod.fst ↔ getChildren g v ≠ []) ∧
      (∀ pre e post, ev = pre ++ e :: post →
        ∀ c ∈ getChildren g e.1, getChildren g c = [] ∨ c ∈ pre.map Prod.fst) ∧
      (∀ e ∈ ev, e.2 = (getChildren g e.1).map (getValue s.g)) := by
  have har' : ∀ v, getChildren g v ≠ [] →
      ((getChildren g v).length : Int) = numOpArgs (getOp g v) :=
    fun v hch => har v (lt_length_of_children_ne_nil g v hch) hch
  have hm0 : fwdMeasure ⟨g, S, fun _ => 0⟩ ≤ fuel := by
    have := List.countP_le_length
      (fun p => decide ((0 : Int) < numOpArgs (getOp g p))) (l := List.range g.length)
    simp only [List.length_range] at this
    simp only [fwdMeasure]
    omega
  obtain ⟨s, hrun⟩ := propagateLoop_ok P fuel ⟨g, S, fun _ => 0⟩ hm0 (fun _ => Int.le_refl 0)
  have hfst := propagateLoopTraced_fst P fuel ⟨g, S, fun _ => 0⟩ []
  have htr : propagateLoopTraced P fuel ⟨g, S, fun _ => 0⟩ []
      = (.ok s, (propagateLoopTraced P fuel ⟨g, S, fun _ => 0⟩ []).2) := by
    rw [← hrun, ← hfst]
  obtain ⟨done, hinv, hq⟩ := propagateLoopTraced_sched P hwl har' hS fuel _ s [] _ []
    (FwdSched.init_sched_fwd g S hnd) htr
  have hqd : S ++ (propagateLoopTraced P fuel ⟨g, S, fun _ => 0⟩ []).2.map Prod.fst
      = done.reverse := by
    have := hinv.queued
    rw [hq] at this
    simpa using this
  have hndd : done.Nodup := by
    have := hinv.nodup
    rw [hq] at this
    simpa using this
  have hnde : (S ++ (propagateLoopTraced P fuel ⟨g, S, fun _ => 0⟩ []).2.map Prod.fst).Nodup := by
    rw [hqd]; exact List.nodup_reverse.2 hndd
  refine ⟨s, _, htr, hrun, ?_, List.Nodup.of_append_right hnde, ?_, ?_, hinv.snap⟩
  · simp only [expression.propagate_leaves, hrun]
  · intro v
    constructor
    · intro hv
      obtain ⟨e, he, hev⟩ := List.mem_map.1 hv
      rw [← hev]; exact hinv.interior e he
    · intro hch
      have hlt := lt_length_of_children_ne_nil g v hch
      have hvd : v ∈ done :=
        FwdSched.complete_sched_fwd hac hwl har' hleaves hinv hq (rank v + 1) v
          (Nat.lt_succ_self _) hlt
      have : v ∈ S ++ (propagateLoopTraced P fuel ⟨g, S, fun _ => 0⟩ []).2.map Prod.fst := by
        rw [hqd]; exact List.mem_reverse.2 hvd
      rcases List.mem_append.1 this with h1 | h1
      · exact absurd (hS v h1) hch
      · exact h1
  · intro pre e post h c hc
    rcases hinv.order pre e post h c hc with h1 | h1
    · exact Or.inl (hS c h1)
    · exact Or.inr h1

/-- C17 on the multi-path graph: the evaluator is called for `P`, `Q` and the
root, in this order. -/
theorem C17_forward_schedule_witness :
    (∃ s ev, propagateLoopTraced Prims.placeholder 9
        ⟨multiPathGraph 7 2 3 MatrixXd.empty MatrixXd.empty MatrixXd.empty, [0, 1, 2],
          fun _ => 0⟩ [] = (.ok s, ev) ∧
      propagateLoop Prims.placeholder 9
        ⟨multiPathGraph 7 2 3 MatrixXd.empty MatrixXd.empty MatrixXd.empty, [0, 1, 2],
          fun _ => 0⟩ = .ok s ∧
      expression.propagate_leaves Prims.placeholder 9
        (multiPathGraph 7 2 3 MatrixXd.empty MatrixXd.empty MatrixXd.empty) 5 [0, 1, 2]
        = .ok (s.g, getValue s.g 5) ∧
      (ev.map Prod.fst).Nodup ∧
      (∀ v, v ∈ ev.map Prod.fst ↔
        getChildren (multiPathGraph 7 2 3 MatrixXd.empty MatrixXd.empty MatrixXd.empty) v
          ≠ []) ∧
      (∀ pre e post, ev = pre ++ e :: post →
        ∀ c ∈ getChildren (multiPathGraph 7 2 3 MatrixXd.empty MatrixXd.empty MatrixXd.empty)
            e.1,
          getChildren (multiPathGraph 7 2 3 MatrixXd.empty MatrixXd.empty MatrixXd.empty) c
            = [] ∨ c ∈ pre.map Prod.fst) ∧
      (∀ e ∈ ev, e.2 =
        (getChildren (multiPathGraph 7 2 3 MatrixXd.empty MatrixXd.empty MatrixXd.empty)
          e.1).map (getValue s.g))) ∧
    (propagateLoopTraced Prims.placeholder 9
        ⟨multiPathGraph 7 2 3 MatrixXd.empty MatrixXd.empty MatrixXd.empty, [0, 1, 2],
          fun _ => 0⟩ []).2.map Prod.fst = [3, 4, 5] :=
  ⟨C17_forward_schedule Prims.placeholder _ id [0, 1, 2] 5 9 (by unfold Acyclic; decide)
      (by unfold WellLinked; decide) (by decide) (by decide) (by decide) (by decide)
      (by decide),
    by simp [propagateLoopTraced, propagateParentsTraced, multiPathGraph, getParents,
      getChildren, Graph.node, getOp, numOpArgs, getValue, Function.update, _eval, operand,
      is_scalar, scalar, MatrixXd.size, setValue, mval, sval, MatrixXd.map, MatrixXd.coeff]⟩

/-! ## C5: what the restricted pass writes for a key outside `nonconsts` -/

/-- An invariant of the loop body over the state and the record of dequeues
holds at the end of a run that returns. -/
theorem backLoopTraced_inv (P : Prims) (g : Graph) (r : Option (List Nat))
    (Inv : BackState → List Nat → Prop)
    (hbody : ∀ s tr v q s1, Inv s tr → s.q = v :: q →
      backBody P g r v ⟨q, s.derivatives, s.explored⟩ = .ok s1 → Inv s1 (tr ++ [v])) :
    ∀ (fuel : Nat) (s : BackState) (tr : List Nat) (s' : BackState), Inv s tr →
      (backLoopTraced P g r fuel s tr).1 = .ok s' →
      Inv s' (backLoopTraced P g r fuel s tr).2 := by
  intro fuel
  induction fuel with
  | zero =>
    intro s tr s' hinv hrun
    unfold backLoopTraced at hrun ⊢
    cases hq : s.q with
    | nil =>
      rw [hq] at hrun
      simp only [Outcome.ok.injEq] at hrun
      subst hrun; exact hinv
    | cons v q => rw [hq] at hrun; simp at hrun
  | succ fuel ih =>
    intro s tr s' hinv hrun
    unfold backLoopTraced at hrun ⊢
    cases hq : s.q with
    | nil =>
      rw [hq] at hrun
      simp only [Outcome.ok.injEq] at hrun
      subst hrun; exact hinv
    | cons v q =>
      rw [hq] at hrun
      simp only at hrun ⊢
      cases hb : backBody P g r v ⟨q, s.derivatives, s.explored⟩ with
      | error e => rw [hb] at hrun; simp at hrun
      | ok s1 =>
        rw [hb] at hrun
        simp only at hrun ⊢
        exact ih s1 (tr ++ [v]) s' (hbody s tr v q s1 hinv hq hb) hrun

theorem backChildren_zero_some (g : Graph) (k : Nat) :
    ∀ (l : List (Nat × MatrixXd)) (s : BackState),
      (∀ cd ∈ l, cd.1 = k → cd.2 = zeros_like (getValue g k)) →
      s.derivatives k = some (zeros_like (getValue g k)) →
      (backChildren g l s).derivatives k = some (zeros_like (getValue g k)) := by
  intro l
  induction l with
  | nil => intro s _ h; exact h
  | cons hd rest ih =>
    intro s hl hs
    obtain ⟨c, cd⟩ := hd
    rw [backChildren_cons]
    apply ih
    · intro x hx; exact hl x (List.mem_cons_of_mem _ hx)
    · show Function.update s.derivatives c _ k = _
      by_cases hck : k = c
      · subst hck
        have hcd : cd = zeros_like (getValue g k) := hl (k, cd) (List.mem_cons_self _ _) rfl
        simp [hs, hcd, zip_add_zeros_like]
      · rw [Function.update_noteq hck]; exact hs

theorem backChildren_zero_mem (g : Graph) (k : Nat) :
    ∀ (l : List (Nat × MatrixXd)) (s : BackState),
      (∀ cd ∈ l, cd.1 = k → cd.2 = zeros_like (getValue g k)) →
      (s.derivatives k = none ∨ s.derivatives k = some (zeros_like (getValue g k))) →
      k ∈ l.map Prod.fst →
      (backChildren g l s).derivatives k = some (zeros_like (getValue g k)) := by
  intro l
  induction l with
  | nil => intro s _ _ h; simp at h
  | cons hd rest ih =>
    intro s hl hs hk
    obtain ⟨c, cd⟩ := hd
    rw [backChildren_cons]
    by_cases hck : k = c
    · subst hck
      apply backChildren_zero_some
      · intro x hx; exact hl x (List.mem_cons_of_mem _ hx)
      · show Function.update s.derivatives k _ k = _
        have hcd : cd = zeros_like (getValue g k) := hl (k, cd) (List.mem_cons_self _ _) rfl
        rcases hs with hs | hs <;> simp [hs, hcd, zip_add_zeros_like]
    · apply ih
      · intro x hx; exact hl x (List.mem_cons_of_mem _ hx)
      · show Function.update s.derivatives c _ k = none ∨ Function.update s.derivatives c _ k = _
        rw [Function.update_noteq hck]; exact hs
      · simp only [List.map_cons, List.mem_cons] at hk
        exact hk.resolve_left hck

/-- In the restricted loop, the accumulator entry of a node `k` outside
`nonconsts`, other than the root, is the zero tensor shaped like the node as
soon as a dequeued node of `nonconsts` has `k` as an operand, and is absent
until then. -/
theorem backLoopTraced_nonconsts_entry (P : Prims) (g : Graph) (nonconsts : List Nat)
    (root : Nat) (fuel : Nat) (s' : BackState)
    (h : (backLoopTraced P g (some nonconsts) fuel (backInit g root) []).1 = .ok s') :
    ∀ k, k ∉ nonconsts → k ≠ root →
      ((∃ w ∈ (backLoopTraced P g (some nonconsts) fuel (backInit g root) []).2,
          w ∈ nonconsts ∧ k ∈ getChildren g w) →
        s'.derivatives k = some (zeros_like (getValue g k))) ∧
      ((¬ ∃ w ∈ (backLoopTraced P g (some nonconsts) fuel (backInit g root) []).2,
          w ∈ nonconsts ∧ k ∈ getChildren g w) →
        s'.derivatives k = none) := by
  refine backLoopTraced_inv P g (some nonconsts)
    (fun s tr => ∀ k, k ∉ nonconsts → k ≠ root →
      ((∃ w ∈ tr, w ∈ nonconsts ∧ k ∈ getChildren g w) →
        s.derivatives k = some (zeros_like (getValue g k))) ∧
      ((¬ ∃ w ∈ tr, w ∈ nonconsts ∧ k ∈ getChildren g w) → s.derivatives k = none))
    ?_ fuel (backInit g root) [] s' ?_ h
  · intro s tr v q s1 hs hq hb k hk hkr
    obtain ⟨hs1, hs2⟩ := hs k hk hkr
    have hprev : s.derivatives k = none ∨ s.derivatives k = some (zeros_like (getValue g k)) := by
      by_cases hex : ∃ w ∈ tr, w ∈ nonconsts ∧ k ∈ getChildren g w
      · exact Or.inr (hs1 hex)
      · exact Or.inl (hs2 hex)
    have hsplit : (∃ w ∈ tr ++ [v], w ∈ nonconsts ∧ k ∈ getChildren g w) ↔
        ((∃ w ∈ tr, w ∈ nonconsts ∧ k ∈ getChildren g w) ∨
          (v ∈ nonconsts ∧ k ∈ getChildren g v)) := by
      constructor
      · rintro ⟨w, hw, hw2⟩
        rcases List.mem_append.1 hw with h1 | h1
        · exact Or.inl ⟨w, h1, hw2⟩
        · have : w = v := by simpa using h1
          subst this; exact Or.inr hw2
      · rintro (⟨w, hw, hw2⟩ | hv)
        · exact ⟨w, List.mem_append_left _ hw, hw2⟩
        · exact ⟨v, List.mem_append_right _ (List.mem_singleton_self _), hv⟩
    rw [hsplit]
    unfold backBody at hb
    simp only at hb
    split at hb
    · rename_i hv
      cases hb
      refine ⟨?_, ?_⟩
      · rintro (hex | ⟨hv', _⟩)
        · exact hs1 hex
        · exact absurd hv' hv
      · intro hno
        exact hs2 (fun hex => hno (Or.inl hex))
    · rename_i hv
      have hv' : v ∈ nonconsts := not_not.1 hv
      split at hb
      · cases hb
      · rename_i ds hds
        cases hb
        have hlen : ds.length = (getChildren g v).length :=
          (_back_nonconsts_from_ok P g _ _ _ _ _ 0 ds hds).1
        have hzero : ∀ cd ∈ (getChildren g v).zip ds, cd.1 = k →
            cd.2 = zeros_like (getValue g k) := by
          intro cd hcd hcdk
          have := _back_nonconsts_from_zero P g _ _ _ _ _ 0 ds hds cd hcd
            (by rw [hcdk]; exact hk)
          rw [this, hcdk]
        by_cases hkc : k ∈ getChildren g v
        · refine ⟨fun _ => ?_, fun hno => absurd (Or.inr ⟨hv', hkc⟩) hno⟩
          apply backChildren_zero_mem g k _ ⟨q, s.derivatives, s.explored⟩ hzero hprev
          rw [map_fst_zip_of_length _ _ hlen]
          exact hkc
        · have hkeep : (backChildren g ((getChildren g v).zip ds)
              ⟨q, s.derivatives, s.explored⟩).derivatives k = s.derivatives k := by
            apply backChildren_derivatives_of_not_mem
            rw [map_fst_zip_of_length _ _ hlen]
            exact hkc
          rw [hkeep]
          refine ⟨?_, ?_⟩
          · rintro (hex | ⟨_, hkc'⟩)
            · exact hs1 hex
            · exact absurd hkc' hkc
          · intro hno
            exact hs2 (fun hex => hno (Or.inl hex))
  · intro k _ hkr
    refine ⟨?_, ?_⟩
    · rintro ⟨w, hw, _⟩; simp at hw
    · intro _; simp [backInit, Function.update, hkr]

/-- When the root is outside `nonconsts` the restricted loop stops after its
first dequeue and the root keeps its seed. -/
theorem backLoop_root_outside (P : Prims) (g : Graph) (nonconsts : List Nat) (root : Nat)
    (hr : root ∉ nonconsts) (fuel : Nat) (s' : BackState)
    (h : backLoop P g (some nonconsts) fuel (backInit g root) = .ok s') :
    s'.derivatives root = some (ones_like (getValue g root)) := by
  cases fuel with
  | zero =>
    rw [backLoop_cons_zero P g (some nonconsts) (backInit g root) root [] rfl] at h
    cases h
  | succ fuel =>
    rw [backLoop_cons_succ P g (some nonconsts) fuel (backInit g root) root [] rfl] at h
    have hb : backBody P g (some nonconsts) root
        ⟨[], (backInit g root).derivatives, (backInit g root).explored⟩
        = .ok ⟨[], (backInit g root).derivatives, (backInit g root).explored⟩ := by
      simp [backBody, hr]
    rw [hb] at h
    simp only at h
    rw [backLoop_nil P g (some nonconsts) fuel _ rfl] at h
    cases h
    simp [backInit]

/-- C5 (amended). With fuel above the number of nodes the restricted
`backpropagate(leaves, nonconsts)` returns or throws, for every set
`nonconsts` (in particular `findNonConsts(S)`).  When it returns, the value
written for a key outside `nonconsts` that is not the root has no non-zero
entry: it is the zero tensor shaped like the node when a dequeued node of
`nonconsts` has the key as an operand, and the empty tensor otherwise; the
value written for the root, when the root is outside `nonconsts`, is its
one-filled seed.  The dequeued nodes are those of the record kept by
`backLoopTraced`, whose first component is the loop itself. -/
theorem C5_pruned_gradient_zero_or_empty (P : Prims) (fuel : Nat) (g : Graph) (root : Nat)
    (leaves : List (Nat × MatrixXd)) (nonconsts : List Nat) (hf : g.length < fuel) :
    (expression.backpropagate_nonconsts P fuel g root leaves nonconsts).1 ≠ .timeout ∧
    (backLoopTraced P g (some nonconsts) fuel (backInit g root) []).1
      = backLoop P g (some nonconsts) fuel (backInit g root) ∧
    ((expression.backpropagate_nonconsts P fuel g root leaves nonconsts).1 = .ok () →
      ∀ k v, (k, v) ∈ (expression.backpropagate_nonconsts P fuel g root leaves nonconsts).2 →
        k ∉ nonconsts →
        (k ≠ root →
          (v = zeros_like (getValue g k) ∨ v = MatrixXd.empty) ∧
          ((∃ w ∈ (backLoopTraced P g (some nonconsts) fuel (backInit g root) []).2,
              w ∈ nonconsts ∧ k ∈ getChildren g w) → v = zeros_like (getValue g k)) ∧
          ((¬ ∃ w ∈ (backLoopTraced P g (some nonconsts) fuel (backInit g root) []).2,
              w ∈ nonconsts ∧ k ∈ getChildren g w) → v = MatrixXd.empty)) ∧
        (k = root → v = ones_like (getValue g root))) := by
  have hfst := backLoopTraced_fst P g (some nonconsts) fuel (backInit g root) []
  refine ⟨backpropagateWith_ne_timeout P (some nonconsts) fuel g root leaves hf, hfst, ?_⟩
  intro hok k v hkv hk
  unfold expression.backpropagate_nonconsts backpropagateWith at hok hkv
  cases hrun : backLoop P g (some nonconsts) fuel (backInit g root) with
  | thrown e => rw [hrun] at hok; simp at hok
  | timeout => rw [hrun] at hok; simp at hok
  | ok s =>
    rw [hrun] at hkv
    simp only [writeBack, List.mem_map, Prod.mk.injEq] at hkv
    obtain ⟨⟨k0, v0⟩, _, hk0, hv0⟩ := hkv
    simp only at hk0 hv0
    subst hk0
    rw [← hv0]
    refine ⟨?_, ?_⟩
    · intro hkr
      obtain ⟨h1, h2⟩ := backLoopTraced_nonconsts_entry P g nonconsts root fuel s
        (by rw [hfst, hrun]) k0 hk hkr
      have hz : (∃ w ∈ (backLoopTraced P g (some nonconsts) fuel (backInit g root) []).2,
          w ∈ nonconsts ∧ k0 ∈ getChildren g w) → derivAt s.derivatives k0
            = zeros_like (getValue g k0) := fun hex => by simp [derivAt, h1 hex]
      have he : (¬ ∃ w ∈ (backLoopTraced P g (some nonconsts) fuel (backInit g root) []).2,
          w ∈ nonconsts ∧ k0 ∈ getChildren g w) → derivAt s.derivatives k0
            = MatrixXd.empty := fun hno => by simp [derivAt, h2 hno]
      refine ⟨?_, hz, he⟩
      by_cases hex : ∃ w ∈ (backLoopTraced P g (some nonconsts) fuel (backInit g root) []).2,
          w ∈ nonconsts ∧ k0 ∈ getChildren g w
      · exact Or.inl (hz hex)
      · exact Or.inr (he hex)
    · intro hkr
      subst hkr
      simp [derivAt, backLoop_root_outside P g nonconsts k0 hk fuel s hrun]

/-- C5 (amended) on the evaluated multi-path graph with `nonconsts = {c1, P,
root}`: the dequeues are `root`, `P`, `Q`; the key `X`, an operand of `P`, gets
the zero tensor and the key `c2`, an operand of `Q` only, the empty tensor. -/
theorem C5_pruned_gradient_zero_or_empty_witness :
    ((expression.backpropagate_nonconsts Prims.placeholder 7
        (multiPathGraph 7 2 3 (scalar 14) (scalar 21) (scalar 35)) 5
        [(0, scalar 0), (2, scalar 0)] [1, 3, 5]).1 ≠ .timeout ∧
    (backLoopTraced Prims.placeholder (multiPathGraph 7 2 3 (scalar 14) (scalar 21) (scalar 35))
        (some [1, 3, 5]) 7
        (backInit (multiPathGraph 7 2 3 (scalar 14) (scalar 21) (scalar 35)) 5) []).1
      = backLoop Prims.placeholder (multiPathGraph 7 2 3 (scalar 14) (scalar 21) (scalar 35))
        (some [1, 3, 5]) 7
        (backInit (multiPathGraph 7 2 3 (scalar 14) (scalar 21) (scalar 35)) 5) ∧
    ((expression.backpropagate_nonconsts Prims.placeholder 7
        (multiPathGraph 7 2 3 (scalar 14) (scalar 21) (scalar 35)) 5
        [(0, scalar 0), (2, scalar 0)] [1, 3, 5]).1 = .ok () →
      ∀ k v, (k, v) ∈ (expression.backpropagate_nonconsts Prims.placeholder 7
          (multiPathGraph 7 2 3 (scalar 14) (scalar 21) (scalar 35)) 5
          [(0, scalar 0), (2, scalar 0)] [1, 3, 5]).2 →
        k ∉ [1, 3, 5] →
        (k ≠ 5 →
          (v = zeros_like (getValue (multiPathGraph 7 2 3 (scalar 14) (scalar 21) (scalar 35)) k)
            ∨ v = MatrixXd.empty) ∧
          ((∃ w ∈ (backLoopTraced Prims.placeholder
                (multiPathGraph 7 2 3 (scalar 14) (scalar 21) (scalar 35)) (some [1, 3, 5]) 7
                (backInit (multiPathGraph 7 2 3 (scalar 14) (scalar 21) (scalar 35)) 5) []).2,
              w ∈ [1, 3, 5] ∧
              k ∈ getChildren (multiPathGraph 7 2 3 (scalar 14) (scalar 21) (scalar 35)) w) →
            v = zeros_like
              (getValue (multiPathGraph 7 2 3 (scalar 14) (scalar 21) (scalar 35)) k)) ∧
          ((¬ ∃ w ∈ (backLoopTraced Prims.placeholder
                (multiPathGraph 7 2 3 (scalar 14) (scalar 21) (scalar 35)) (some [1, 3, 5]) 7
                (backInit (multiPathGraph 7 2 3 (scalar 14) (scalar 21) (scalar 35)) 5) []).2,
              w ∈ [1, 3, 5] ∧
              k ∈ getChildren (multiPathGraph 7 2 3 (scalar 14) (scalar 21) (scalar 35)) w) →
            v = MatrixXd.empty)) ∧
        (k = 5 → v = ones_like
          (getValue (multiPathGraph 7 2 3 (scalar 14) (scalar 21) (scalar 35)) 5)))) ∧
    (backLoopTraced Prims.placeholder (multiPathGraph 7 2 3 (scalar 14) (scalar 21) (scalar 35))
        (some [1, 3, 5]) 7
        (backInit (multiPathGraph 7 2 3 (scalar 14) (scalar 21) (scalar 35)) 5) []).2
      = [5, 3, 4] :=
  ⟨C5_pruned_gradient_zero_or_empty Prims.placeholder 7 _ 5 _ [1, 3, 5] (by decide),
    by simp [backLoopTraced, backBody, backInit, backChildren, _back_nonconsts,
      _back_nonconsts_from, _back_single, multiPathGraph, getChildren, Graph.node, getOp,
      operand, getValue, is_scalar, scalar, MatrixXd.size, ones_like, zeros_like,
      MatrixXd.const, derivAt, MatrixXd.zip, MatrixXd.sum, getParents, Function.update,
      pending, MatrixXd.empty, mval]⟩

end et
